import Mathlib

/-!
# Rules engine of `chessGame.cpp`

A shallow embedding of the pieces, the board and the legality / execution
routines of `src/chessFinal/chessGame.cpp`.

* Coordinates are `Int`, as the source's `int`.
* A cell of `Piece* squares[8][8]` is an `Option Piece` (`none` is `nullptr`).
* Every routine that reads or writes the array returns an `Option`: the value
  `none` stands for a run that leaves the defined behaviour of the source. There
  are two ways to do so: an access to `squares[r][c]` with `r` or `c` outside
  `0..7`, and a read of a piece object after its `delete` (the promotion block of
  `Board::movePiece`, see `Board.promote`).
* Loops are bounded by a fuel of 8 iterations: each iteration reads one cell
  further along a line that starts on the board, so a run that needed a ninth
  iteration has already read outside the array.
* Routines that mutate the board return the board they leave behind.
* A `string` is the list of its characters, a file is the list of the characters it
  holds, and the value of `rand()` is an argument.
-/

namespace Chess

/-! ## Pieces -/

/-- The six concrete subclasses of `Piece`. -/
inductive Kind
  | Pawn | Rook | Knight | Bishop | Queen | King
  deriving DecidableEq, Repr

/-- The fields of `class Piece`; `symbol` is determined by the subclass and the
colour, so it is not stored. -/
structure Piece where
  kind : Kind
  isWhite : Bool
  hasMoved : Bool
  deriving DecidableEq, Repr

/-- The call `Piece::setMoved`. -/
def Piece.setMoved (p : Piece) : Piece := { p with hasMoved := true }

/-- The array `Piece* squares[8][8]`. -/
abbrev Grid := Fin 8 → Fin 8 → Option Piece

/-- Both indices lie in `0..7`. -/
def inRange (r c : Int) : Prop := 0 ≤ r ∧ r < 8 ∧ 0 ≤ c ∧ c < 8

instance (r c : Int) : Decidable (inRange r c) := by unfold inRange; infer_instance

/-- The read `squares[r][c]`; `none` when the index is outside the array. -/
def Grid.read (g : Grid) (r c : Int) : Option (Option Piece) :=
  if h : inRange r c then
    some (g ⟨r.toNat, by unfold inRange at h; omega⟩ ⟨c.toNat, by unfold inRange at h; omega⟩)
  else none

/-- The array after `squares[r][c] = v`, for indices inside the array. -/
def Grid.set (g : Grid) (r c : Int) (v : Option Piece) : Grid :=
  fun i j => if i.val = r.toNat ∧ j.val = c.toNat then v else g i j

/-- The assignment `squares[r][c] = v`; `none` when the index is outside the array. -/
def Grid.write (g : Grid) (r c : Int) (v : Option Piece) : Option Grid :=
  if inRange r c then some (g.set r c v) else none

/-- The library call `abs` on `int`. -/
def iabs (x : Int) : Int := if x < 0 then -x else x

/-- The expression `(e > s) ? 1 : (e < s ? -1 : 0)`. -/
def sgn3 (s e : Int) : Int := if e > s then 1 else if e < s then -1 else 0

/-- The expression `(e > s) ? 1 : -1`. -/
def sgn2 (s e : Int) : Int := if e > s then 1 else -1

/-- The expression `board[er][ec] == nullptr || board[er][ec]->getColor() != isWhite`. -/
def landing (w : Bool) (g : Grid) (er ec : Int) : Option Bool :=
  match g.read er ec with
  | none => none
  | some none => some true
  | some (some q) => some (q.isWhite != w)

/-! ## Piece rule set -/

/-- The method `Pawn::isValidMove` (lines 34-48). -/
def Pawn.isValidMove (w : Bool) (sr sc er ec : Int) (g : Grid) : Option Bool :=
  let dir : Int := if w then -1 else 1
  -- diagonal capture, reached whenever the forward block did not return
  let diag : Option Bool :=
    if iabs (ec - sc) = 1 ∧ er = sr + dir then
      match g.read er ec with
      | none => none
      | some none => some false
      | some (some q) => some (q.isWhite != w)
    else some false
  if sc = ec then
    match g.read er ec with
    | none => none
    | some (some _) => diag
    | some none =>
      if er = sr + dir then some true
      else if (w = true ∧ sr = 6) ∨ (w = false ∧ sr = 1) then
        if er = sr + 2 * dir then
          match g.read (sr + dir) sc with
          | none => none
          | some none => some true
          | some (some _) => diag
        else diag
      else diag
  else diag

/-- The loop `while (r != er || c != ec)` of `Rook::isValidMove` and of the rook-like
branch of `Queen::isValidMove`: `some true` when the loop ends with no occupied
cell met, `some false` when it returns false from inside. -/
def Rook.walk (g : Grid) (dr dc er ec : Int) : Nat → Int → Int → Option Bool
  | 0, _, _ => none
  | n + 1, r, c =>
    if r ≠ er ∨ c ≠ ec then
      match g.read r c with
      | none => none
      | some (some _) => some false
      | some none => Rook.walk g dr dc er ec n (r + dr) (c + dc)
    else some true

/-- The loop `while (r != er && c != ec)` of `Bishop::isValidMove` and of the
bishop-like branch of `Queen::isValidMove`. -/
def Bishop.walk (g : Grid) (dr dc er ec : Int) : Nat → Int → Int → Option Bool
  | 0, _, _ => none
  | n + 1, r, c =>
    if r ≠ er ∧ c ≠ ec then
      match g.read r c with
      | none => none
      | some (some _) => some false
      | some none => Bishop.walk g dr dc er ec n (r + dr) (c + dc)
    else some true

/-- The method `Rook::isValidMove` (lines 55-65). -/
def Rook.isValidMove (w : Bool) (sr sc er ec : Int) (g : Grid) : Option Bool :=
  if sr ≠ er ∧ sc ≠ ec then some false
  else
    let dr := sgn3 sr er
    let dc := sgn3 sc ec
    match Rook.walk g dr dc er ec 8 (sr + dr) (sc + dc) with
    | none => none
    | some false => some false
    | some true => landing w g er ec

/-- The method `Knight::isValidMove` (lines 72-78). -/
def Knight.isValidMove (w : Bool) (sr sc er ec : Int) (g : Grid) : Option Bool :=
  let dr := iabs (er - sr)
  let dc := iabs (ec - sc)
  if (dr = 2 ∧ dc = 1) ∨ (dr = 1 ∧ dc = 2) then landing w g er ec
  else some false

/-- The method `Bishop::isValidMove` (lines 85-94). -/
def Bishop.isValidMove (w : Bool) (sr sc er ec : Int) (g : Grid) : Option Bool :=
  if iabs (er - sr) ≠ iabs (ec - sc) then some false
  else
    let dr := sgn2 sr er
    let dc := sgn2 sc ec
    match Bishop.walk g dr dc er ec 8 (sr + dr) (sc + dc) with
    | none => none
    | some false => some false
    | some true => landing w g er ec

/-- The method `Queen::isValidMove` (lines 101-124). -/
def Queen.isValidMove (w : Bool) (sr sc er ec : Int) (g : Grid) : Option Bool :=
  if sr = er ∨ sc = ec then
    let dr := sgn3 sr er
    let dc := sgn3 sc ec
    match Rook.walk g dr dc er ec 8 (sr + dr) (sc + dc) with
    | none => none
    | some false => some false
    | some true => landing w g er ec
  else if iabs (er - sr) = iabs (ec - sc) then
    let dr := sgn2 sr er
    let dc := sgn2 sc ec
    match Bishop.walk g dr dc er ec 8 (sr + dr) (sc + dc) with
    | none => none
    | some false => some false
    | some true => landing w g er ec
  else some false

/-- The loop `for (int c = sc + step; c != rookCol; c += step)` of
`King::isValidMove`: `some true` when it ends with no occupied cell met. -/
def King.scan (g : Grid) (sr step rookCol : Int) : Nat → Int → Option Bool
  | 0, _ => none
  | n + 1, c =>
    if c ≠ rookCol then
      match g.read sr c with
      | none => none
      | some (some _) => some false
      | some none => King.scan g sr step rookCol n (c + step)
    else some true

/-- The method `King::isValidMove` (lines 131-149); `moved` is the king's own
`hasMoved`. -/
def King.isValidMove (w moved : Bool) (sr sc er ec : Int) (g : Grid) : Option Bool :=
  let dr := iabs (er - sr)
  let dc := iabs (ec - sc)
  if dr ≤ 1 ∧ dc ≤ 1 then landing w g er ec
  else if dr = 0 ∧ dc = 2 ∧ moved = false then
    let rookCol : Int := if ec > sc then 7 else 0
    match g.read sr rookCol with
    | none => none
    | some none => some false
    | some (some rook) =>
      if rook.kind = Kind.Rook ∧ rook.hasMoved = false then
        let step : Int := if ec > sc then 1 else -1
        King.scan g sr step rookCol 8 (sc + step)
      else some false
  else some false

/-- The virtual call `p->isValidMove(sr, sc, er, ec, board)`. -/
def Piece.isValidMove (p : Piece) (sr sc er ec : Int) (g : Grid) : Option Bool :=
  match p.kind with
  | Kind.Pawn => Pawn.isValidMove p.isWhite sr sc er ec g
  | Kind.Rook => Rook.isValidMove p.isWhite sr sc er ec g
  | Kind.Knight => Knight.isValidMove p.isWhite sr sc er ec g
  | Kind.Bishop => Bishop.isValidMove p.isWhite sr sc er ec g
  | Kind.Queen => Queen.isValidMove p.isWhite sr sc er ec g
  | Kind.King => King.isValidMove p.isWhite p.hasMoved sr sc er ec g

/-! ## Board -/

/-- The data members of `class Board`. -/
structure Board where
  squares : Grid
  lastMoveStart : Int × Int
  lastMoveEnd : Int × Int

/-- The cells in the order of the nested loops `for r in 0..7, for c in 0..7`. -/
def allSquares : List (Int × Int) :=
  (List.range 8).flatMap fun (r : Nat) =>
    (List.range 8).map fun (c : Nat) => (Int.ofNat r, Int.ofNat c)

/-- The constructor `Board::Board`. -/
def Board.new : Board :=
  { squares := fun _ _ => none, lastMoveStart := (-1, -1), lastMoveEnd := (-1, -1) }

/-- A freshly constructed piece, `new Kind(white)`: `hasMoved` is false. -/
def Piece.fresh (k : Kind) (w : Bool) : Piece := { kind := k, isWhite := w, hasMoved := false }

/-- The assignment `squares[i][j] = new Kind(white)` with constant indices. -/
def Grid.put (g : Grid) (i j : Fin 8) (k : Kind) (w : Bool) : Grid :=
  fun a b => if a = i ∧ b = j then some (Piece.fresh k w) else g a b

/-- The method `Board::setupBoard` (lines 173-186). -/
def Board.setupBoard (b : Board) : Board :=
  let g0 := (List.finRange 8).foldl
    (fun g c => (g.put 6 c Kind.Pawn true).put 1 c Kind.Pawn false) b.squares
  let g1 := (g0.put 7 0 Kind.Rook true).put 7 7 Kind.Rook true
  let g2 := (g1.put 0 0 Kind.Rook false).put 0 7 Kind.Rook false
  let g3 := (g2.put 7 1 Kind.Knight true).put 7 6 Kind.Knight true
  let g4 := (g3.put 0 1 Kind.Knight false).put 0 6 Kind.Knight false
  let g5 := (g4.put 7 2 Kind.Bishop true).put 7 5 Kind.Bishop true
  let g6 := (g5.put 0 2 Kind.Bishop false).put 0 5 Kind.Bishop false
  let g7 := (g6.put 7 3 Kind.Queen true).put 0 3 Kind.Queen false
  let g8 := (g7.put 7 4 Kind.King true).put 0 4 Kind.King false
  { b with squares := g8 }

/-- The board of a new `Game`: `Board()` followed by `setupBoard()` (line 523). -/
def Board.initial : Board := Board.setupBoard Board.new

/-- The method `Board::findKing` (lines 206-215). -/
def Board.findKing (g : Grid) (white : Bool) : Int × Int :=
  match allSquares.find? (fun rc =>
      match g.read rc.1 rc.2 with
      | some (some p) => decide (p.kind = Kind.King) && (p.isWhite == white)
      | _ => false) with
  | some rc => rc
  | none => (-1, -1)

/-- The nested loops of `Board::isSquareAttacked`, over the cells still to visit. -/
def Board.attackedFrom (g : Grid) (row col : Int) (byWhite : Bool) :
    List (Int × Int) → Option Bool
  | [] => some false
  | rc :: rest =>
    match g.read rc.1 rc.2 with
    | none => none
    | some none => Board.attackedFrom g row col byWhite rest
    | some (some p) =>
      if p.isWhite = byWhite then
        match p.isValidMove rc.1 rc.2 row col g with
        | none => none
        | some true => some true
        | some false => Board.attackedFrom g row col byWhite rest
      else Board.attackedFrom g row col byWhite rest

/-- The method `Board::isSquareAttacked` (lines 217-227). -/
def Board.isSquareAttacked (g : Grid) (row col : Int) (byWhite : Bool) : Option Bool :=
  Board.attackedFrom g row col byWhite allSquares

/-- The method `Board::isInCheck` (lines 229-232). -/
def Board.isInCheck (g : Grid) (white : Bool) : Option Bool :=
  let kingPos := Board.findKing g white
  Board.isSquareAttacked g kingPos.1 kingPos.2 (!white)

/-- The en-passant test written identically in `Board::tryMove` (lines 258-271) and
`Board::movePiece` (lines 319-326): the value of `enPassant`, resp. whether the
innermost block of `movePiece` is entered. -/
def Board.enPassantTest (b : Board) (p : Piece) (sr sc er ec : Int) : Option Bool :=
  if p.kind = Kind.Pawn ∧ iabs (er - sr) = 1 ∧ iabs (ec - sc) = 1 then
    match b.squares.read er ec with
    | none => none
    | some (some _) => some false
    | some none =>
      if b.lastMoveStart.1 ≠ -1 then
        match b.squares.read sr ec with
        | none => none
        | some none => some false
        | some (some adj) =>
          if adj.kind = Kind.Pawn then
            some (decide (iabs (b.lastMoveEnd.1 - b.lastMoveStart.1) = 2 ∧
              b.lastMoveEnd.1 = sr ∧ b.lastMoveEnd.2 = ec))
          else some false
      else some false
  else some false

/-- The condition `isInCheck(whiteTurn) || isSquareAttacked(row, midc, !whiteTurn) ||
isSquareAttacked(row, ec, !whiteTurn)` written identically in `Board::tryMove`
(lines 292-295) and `Board::movePiece` (lines 367-370), with `||` evaluated left to
right and stopping at the first true operand. -/
def Board.castleUnsafe (g : Grid) (sc er ec : Int) (whiteTurn : Bool) : Option Bool :=
  let step : Int := if ec > sc then 1 else -1
  let midc := sc + step
  let row := er
  match Board.isInCheck g whiteTurn with
  | none => none
  | some true => some true
  | some false =>
    match Board.isSquareAttacked g row midc (!whiteTurn) with
    | none => none
    | some true => some true
    | some false => Board.isSquareAttacked g row ec (!whiteTurn)

/-- The part of `Board::tryMove` after the piece rule or the en-passant test has
accepted the move (lines 276-310): save, apply, test, undo. -/
def Board.simulate (b : Board) (p : Piece) (enPassant : Bool) (sr sc er ec : Int)
    (whiteTurn : Bool) : Option (Bool × Board) := do
  -- save state
  let captured ← b.squares.read er ec
  -- apply move
  let epCaptured ← if enPassant then b.squares.read sr ec else some none
  let g1 ← if enPassant then b.squares.write sr ec none else some b.squares
  let g2 ← g1.write er ec (some p)
  let g3 ← g2.write sr sc none
  -- castling safety, or plain check test
  let legal ←
    if p.kind = Kind.King ∧ iabs (ec - sc) = 2 then
      (Board.castleUnsafe g3 sc er ec whiteTurn).map (fun u => !u)
    else (Board.isInCheck g3 whiteTurn).map (fun c => !c)
  -- undo move
  let g4 ← g3.write sr sc (some p)
  let g5 ← g4.write er ec captured
  let g6 ← if enPassant ∧ epCaptured.isSome then g5.write sr ec epCaptured else some g5
  some (legal, { b with squares := g6 })

/-- The method `Board::tryMove` (lines 251-311): the verdict and the board left
behind after the undo steps. -/
def Board.tryMove (b : Board) (sr sc er ec : Int) (whiteTurn : Bool) :
    Option (Bool × Board) :=
  match b.squares.read sr sc with
  | none => none
  | some none => some (false, b)
  | some (some p) =>
    if p.isWhite ≠ whiteTurn then some (false, b)
    else
      match b.enPassantTest p sr sc er ec with
      | none => none
      | some enPassant =>
        -- validate basic move legality (piece rules)
        match (if enPassant then some true else p.isValidMove sr sc er ec b.squares) with
        | none => none
        | some false => some (false, b)
        | some true => b.simulate p enPassant sr sc er ec whiteTurn

/-- The two undo assignments `squares[sr][sc] = p; squares[er][ec] = captured;` of
`Board::movePiece` (lines 372-373 and 381-382), followed by `return false`. -/
def Board.undoMove (b : Board) (g : Grid) (p : Piece) (captured : Option Piece)
    (sr sc er ec : Int) : Option (Bool × Board) := do
  let u1 ← g.write sr sc (some p)
  let u2 ← u1.write er ec captured
  some (false, { b with squares := u2 })

/-- The capture itself in the en-passant part of `Board::movePiece` (lines 340-348). -/
def Board.enPassantCommit (g : Grid) (p : Piece) (sr sc er ec : Int) :
    Option (Bool × Board) := do
  let h1 ← g.write sr ec none
  let h2 ← h1.write er ec (some p)
  let h3 ← h2.write sr sc none
  let h4 ← h3.write er ec (some p.setMoved)
  some (true, { squares := h4, lastMoveStart := (sr, sc), lastMoveEnd := (er, ec) })

/-- The innermost block of the en-passant part of `Board::movePiece` (lines 327-348),
entered when the en-passant test holds: simulate, test for check, undo, and either
return false or perform the capture. -/
def Board.enPassantMove (b : Board) (p : Piece) (sr sc er ec : Int) (whiteTurn : Bool) :
    Option (Bool × Board) := do
  -- validate that the capture does not leave the king in check
  let epCaptured ← b.squares.read sr ec
  let g1 ← b.squares.write sr ec none
  let captured ← g1.read er ec
  let g2 ← g1.write er ec (some p)
  let g3 ← g2.write sr sc none
  let inCheck ← Board.isInCheck g3 whiteTurn
  -- undo
  let g4 ← g3.write sr sc (some p)
  let g5 ← g4.write er ec captured
  let g6 ← g5.write sr ec epCaptured
  if inCheck then some (false, { b with squares := g6 })
  else Board.enPassantCommit g6 p sr sc er ec

/-- The two tests that guard the promotion block of `Board::movePiece` (lines 391 and
392): the piece that moved is a pawn and `er` is the last row of its march. -/
def Piece.promotes (p : Piece) (er : Int) : Prop :=
  p.kind = Kind.Pawn ∧ ((p.isWhite = true ∧ er = 0) ∨ (p.isWhite = false ∧ er = 7))

instance (p : Piece) (er : Int) : Decidable (p.promotes er) := by
  unfold Piece.promotes; infer_instance

/-- The promotion block of `Board::movePiece` (lines 390-396). When both tests hold,
line 393 deletes `squares[er][ec]`, and since line 362 that cell holds `p` itself;
line 394 then calls `p->getColor()` on the deleted object to build the queen, and
line 399 casts the same pointer: the run has left the defined behaviour, so the
result is `none`. Otherwise the block does nothing. -/
def Board.promote (g : Grid) (p : Piece) (er : Int) : Option Grid :=
  if p.promotes er then none else some g

/-- The rook relocation of `Board::movePiece` (lines 398-406). -/
def Board.castleRook (g : Grid) (p : Piece) (sc er ec : Int) : Option Grid :=
  if p.kind = Kind.King ∧ iabs (ec - sc) = 2 then do
    let rookCol : Int := if ec > sc then 7 else 0
    let newRookCol : Int := if ec > sc then ec - 1 else ec + 1
    let rook ← g.read er rookCol
    let k1 ← g.write er newRookCol rook
    let k2 ← k1.write er rookCol none
    match rook with
    | none => some k2
    | some rk => k2.write er newRookCol (some rk.setMoved)
  else some g

/-- The tail of `Board::movePiece` (lines 386-410), reached once the move is found
legal: mark the piece moved, run the promotion block, relocate the rook, record the
move. -/
def Board.commitMove (g : Grid) (p : Piece) (sr sc er ec : Int) : Option (Bool × Board) := do
  let g3 ← g.write er ec (some p.setMoved)
  let g4 ← Board.promote g3 p er
  let g5 ← Board.castleRook g4 p sc er ec
  some (true, { squares := g5, lastMoveStart := (sr, sc), lastMoveEnd := (er, ec) })

/-- The part of `Board::movePiece` after the piece rule has accepted the move
(lines 358-410): apply, test castling safety and check, then undo or commit. -/
def Board.applyMove (b : Board) (p : Piece) (sr sc er ec : Int) (whiteTurn : Bool) :
    Option (Bool × Board) := do
  let captured ← b.squares.read er ec
  -- apply move
  let g1 ← b.squares.write er ec (some p)
  let g2 ← g1.write sr sc none
  -- castling path safety
  let castleBad ←
    if p.kind = Kind.King ∧ iabs (ec - sc) = 2 then Board.castleUnsafe g2 sc er ec whiteTurn
    else some false
  if castleBad then Board.undoMove b g2 p captured sr sc er ec
  else do
    -- check legality
    let inCheck ← Board.isInCheck g2 whiteTurn
    if inCheck then Board.undoMove b g2 p captured sr sc er ec
    else Board.commitMove g2 p sr sc er ec

/-- The method `Board::movePiece` (lines 313-411): the returned flag and the board
left behind. The `delete` of a captured piece (lines 341 and 387) frees an object that
is not read again and has no counterpart here; the `delete` of line 393 frees the
piece that moved while `p` still points to it, and the reads of `p` that follow make
the result `none`. The call `p->setMoved()` acts on the object held by the destination
cell. -/
def Board.movePiece (b : Board) (sr sc er ec : Int) (whiteTurn : Bool) :
    Option (Bool × Board) :=
  match b.squares.read sr sc with
  | none => none
  | some none => some (false, b)
  | some (some p) =>
    if p.isWhite ≠ whiteTurn then some (false, b)
    else
      match b.enPassantTest p sr sc er ec with
      | none => none
      | some true => b.enPassantMove p sr sc er ec whiteTurn
      | some false =>
        -- validate piece rule
        match p.isValidMove sr sc er ec b.squares with
        | none => none
        | some false => some (false, b)
        | some true => b.applyMove p sr sc er ec whiteTurn

/-- The inner loops `for er, for ec` of `Board::hasLegalMoves` for one start cell,
over the end cells still to visit. -/
def Board.anyMoveFrom (sr sc : Int) (white : Bool) :
    Board → List (Int × Int) → Option (Bool × Board)
  | b, [] => some (false, b)
  | b, e :: rest =>
    match b.tryMove sr sc e.1 e.2 white with
    | none => none
    | some (true, b1) => some (true, b1)
    | some (false, b1) => Board.anyMoveFrom sr sc white b1 rest

/-- The outer loops `for sr, for sc` of `Board::hasLegalMoves`, over the start
cells still to visit. -/
def Board.anyMove (white : Bool) : Board → List (Int × Int) → Option (Bool × Board)
  | b, [] => some (false, b)
  | b, s :: rest =>
    match b.squares.read s.1 s.2 with
    | none => none
    | some none => Board.anyMove white b rest
    | some (some p) =>
      if p.isWhite = white then
        match Board.anyMoveFrom s.1 s.2 white b allSquares with
        | none => none
        | some (true, b1) => some (true, b1)
        | some (false, b1) => Board.anyMove white b1 rest
      else Board.anyMove white b rest

/-- The method `Board::hasLegalMoves` (lines 234-248): the returned flag and the
board left behind by the `tryMove` calls. -/
def Board.hasLegalMoves (b : Board) (white : Bool) : Option (Bool × Board) :=
  Board.anyMove white b allSquares

/-- What the head of the loop of `Game::play` (lines 587-598) reports. -/
inductive Report
  | checkmate (winnerIsWhite : Bool)
  | stalemate
  | toMove
  deriving DecidableEq, Repr

/-- The check / checkmate / stalemate test at the head of the loop of `Game::play`
(lines 587-598). -/
def Game.report (b : Board) (whiteTurn : Bool) : Option Report := do
  let _ ← Board.isInCheck b.squares whiteTurn
  let (any, b1) ← b.hasLegalMoves whiteTurn
  if any = false then do
    let chk ← Board.isInCheck b1.squares whiteTurn
    if chk then some (Report.checkmate (!whiteTurn)) else some Report.stalemate
  else some Report.toMove

/-! ## Move enumeration of the computer opponent -/

/-- The struct `Move` (line 481). -/
structure Move where
  sr : Int
  sc : Int
  er : Int
  ec : Int
  deriving DecidableEq, Repr

/-- The inner loops `for er, for ec` of `getRandomAIMove` (lines 489-495) for one start
cell, over the end cells still to visit; `moves` is the vector filled so far. -/
def getRandomAIMove.fromCell (sr sc : Int) (aiWhite : Bool) :
    Board → List Move → List (Int × Int) → Option (List Move × Board)
  | b, moves, [] => some (moves, b)
  | b, moves, e :: rest =>
    match b.tryMove sr sc e.1 e.2 aiWhite with
    | none => none
    | some (true, b1) =>
      getRandomAIMove.fromCell sr sc aiWhite b1 (moves ++ [⟨sr, sc, e.1, e.2⟩]) rest
    | some (false, b1) => getRandomAIMove.fromCell sr sc aiWhite b1 moves rest

/-- The outer loops `for sr, for sc` of `getRandomAIMove` (lines 485-498), over the
start cells still to visit. -/
def getRandomAIMove.collect (aiWhite : Bool) :
    Board → List Move → List (Int × Int) → Option (List Move × Board)
  | b, moves, [] => some (moves, b)
  | b, moves, s :: rest =>
    match b.squares.read s.1 s.2 with
    | none => none
    | some none => getRandomAIMove.collect aiWhite b moves rest
    | some (some p) =>
      if p.isWhite = aiWhite then
        match getRandomAIMove.fromCell s.1 s.2 aiWhite b moves allSquares with
        | none => none
        | some (moves1, b1) => getRandomAIMove.collect aiWhite b1 moves1 rest
      else getRandomAIMove.collect aiWhite b moves rest

/-- The vector `moves` of `getRandomAIMove` when its loops have ended (line 498), with
the board the `tryMove` calls leave behind. -/
def getRandomAIMove.moves (b : Board) (aiWhite : Bool) : Option (List Move × Board) :=
  getRandomAIMove.collect aiWhite b [] allSquares

/-- The function `getRandomAIMove` (lines 483-502); `rnd` is the value of `rand()`. -/
def getRandomAIMove (b : Board) (aiWhite : Bool) (rnd : Nat) : Option (Move × Board) :=
  match getRandomAIMove.moves b aiWhite with
  | none => none
  | some (moves, b1) =>
    if moves.isEmpty then some (⟨-1, -1, -1, -1⟩, b1)
    else some (moves.getD (rnd % moves.length) ⟨-1, -1, -1, -1⟩, b1)

/-! ## Saving and loading -/

/-- The member `symbol` as the constructors of the six subclasses set it
(lines 33, 54, 71, 84, 100 and 130). -/
def Piece.getSymbol (p : Piece) : Char :=
  match p.kind, p.isWhite with
  | Kind.Pawn, true => 'P'
  | Kind.Pawn, false => 'p'
  | Kind.Rook, true => 'R'
  | Kind.Rook, false => 'r'
  | Kind.Knight, true => 'N'
  | Kind.Knight, false => 'n'
  | Kind.Bishop, true => 'B'
  | Kind.Bishop, false => 'b'
  | Kind.Queen, true => 'Q'
  | Kind.Queen, false => 'q'
  | Kind.King, true => 'K'
  | Kind.King, false => 'k'

/-- The character `Board::saveGame` writes for one cell (lines 419-420). -/
def Board.saveCell (cell : Option Piece) : Char :=
  match cell with
  | none => '.'
  | some p => p.getSymbol

/-- The characters `Board::saveGame` writes for row `r` (lines 418-422). -/
def Board.saveRow (g : Grid) (r : Fin 8) : List Char :=
  (List.finRange 8).map (fun c => Board.saveCell (g r c)) ++ ['\n']

/-- The method `Board::saveGame` (lines 414-428) when the file can be opened: the
characters written to it. A `string` is the list of its characters. -/
def Board.saveGame (b : Board) (history : List (List Char)) : List Char :=
  (List.finRange 8).flatMap (fun r => Board.saveRow b.squares r) ++
    "HISTORY\n".toList ++ history.flatMap (fun m => m ++ ['\n'])

/-- The lines that successive calls `getline(in, line)` extract from a stream holding
these characters, until a call fails: each call takes the characters up to the next
line feed, which it drops, and a call on an exhausted stream fails. -/
def fileLines : List Char → List (List Char)
  | [] => []
  | ch :: rest =>
    if ch = '\n' then [] :: fileLines rest
    else
      match fileLines rest with
      | [] => [[ch]]
      | l :: ls => (ch :: l) :: ls

/-- The body of the loop `for c` of `Board::loadGame` for one character
(lines 442-453): the piece created, if any, marked as moved. `isupper` and `toupper`
are those of the C locale. -/
def Board.loadCell (ch : Char) : Option Piece :=
  if ch = '.' then none
  else
    let white := ch.isUpper
    let u := ch.toUpper
    if u = 'P' then some ⟨Kind.Pawn, white, true⟩
    else if u = 'R' then some ⟨Kind.Rook, white, true⟩
    else if u = 'N' then some ⟨Kind.Knight, white, true⟩
    else if u = 'B' then some ⟨Kind.Bishop, white, true⟩
    else if u = 'Q' then some ⟨Kind.Queen, white, true⟩
    else if u = 'K' then some ⟨Kind.King, white, true⟩
    else none

/-- The loop `for c` of `Board::loadGame` (lines 441-454) on a line of at least 8
characters: cell `(r, c)` gets the piece made from `line[c]` and is left as it is when
no piece is made. -/
def Board.loadLine (g : Grid) (r : Fin 8) (line : List Char) : Grid :=
  fun i j =>
    if i = r then
      match Board.loadCell (line.getD j.val '.') with
      | some p => some p
      | none => g i j
    else g i j

/-- The loop `for r` of `Board::loadGame` (lines 438-455) over the rows still to read:
the array, the lines left in the stream, and whether every row was read (`false`: a
line was too short and `loadGame` returns at line 440). A failed `getline` leaves
`line` empty. -/
def Board.loadRows : List (Fin 8) → Grid → List (List Char) → Grid × List (List Char) × Bool
  | [], g, ls => (g, ls, true)
  | r :: rest, g, ls =>
    let line := ls.headD []
    if line.length < 8 then (g, ls.tail, false)
    else Board.loadRows rest (Board.loadLine g r line) ls.tail

/-- The value of a `char` in an `int` expression, for the characters of the basic
character set (codes up to 127). A byte of 128 or more, which a signed `char` holds as
a negative value, is outside this embedding: the commands and the files of the game
are ASCII text. -/
def charCode (ch : Char) : Int := Int.ofNat ch.toNat

/-- The `lastMove` record `Board::loadGame` derives from the history (lines 463-475). -/
def Board.loadLastMove (history : List (List Char)) : (Int × Int) × (Int × Int) :=
  match history.getLast? with
  | some last =>
    let sr := 8 - (charCode (last.getD 1 '0') - charCode '0')
    let sc := charCode (last.getD 0 'a') - charCode 'a'
    let er := 8 - (charCode (last.getD 3 '0') - charCode '0')
    let ec := charCode (last.getD 2 'a') - charCode 'a'
    ((sr, sc), (er, ec))
  | none => ((-1, -1), (-1, -1))

/-- The method `Board::loadGame` (lines 431-477): the board and the history it leaves
behind. `file` is the content of the file, `none` when it cannot be opened. -/
def Board.loadGame (b : Board) (file : Option (List Char)) (history : List (List Char)) :
    Board × List (List Char) :=
  match file with
  | none => (b, history)
  | some content =>
    -- clear existing
    let cleared : Grid := fun _ _ => none
    -- read board
    match Board.loadRows (List.finRange 8) cleared (fileLines content) with
    | (g, _, false) => ({ b with squares := g }, history)
    | (g, ls, true) =>
      -- the marker line, then the moves
      let history1 := ls.tail.filter (fun move => move.length = 4)
      let lm := Board.loadLastMove history1
      ({ squares := g, lastMoveStart := lm.1, lastMoveEnd := lm.2 }, history1)

/-! ## Move notation -/

/-- The conversion `char(x)` of an `int`. -/
def toChar (x : Int) : Char := Char.ofNat (x % 256).toNat

/-- The method `Game::moveToString` (lines 545-552). -/
def Game.moveToString (sr sc er ec : Int) : List Char :=
  [toChar (charCode 'a' + sc), toChar (charCode '0' + (8 - sr)),
   toChar (charCode 'a' + ec), toChar (charCode '0' + (8 - er))]

/-- The words that the loop of `Game::play` takes as commands before it reads the input
as a move (lines 618-638). -/
def Game.commandWords : List (List Char) :=
  ["quit".toList, "save".toList, "load".toList, "help".toList]

/-- What the move branch of `Game::play` makes of the input (lines 641-649). -/
inductive Parsed
  | invalidInput
  | outOfBounds
  | move (sr sc er ec : Int)
  deriving DecidableEq, Repr

/-- The move parser of `Game::play` (lines 641-649). -/
def Game.parseMove (move : List Char) : Parsed :=
  match move with
  | [m0, m1, m2, m3] =>
    let sr := 8 - (charCode m1 - charCode '0')
    let sc := charCode m0 - charCode 'a'
    let er := 8 - (charCode m3 - charCode '0')
    let ec := charCode m2 - charCode 'a'
    if sr < 0 ∨ sr > 7 ∨ sc < 0 ∨ sc > 7 ∨ er < 0 ∨ er > 7 ∨ ec < 0 ∨ ec > 7 then
      Parsed.outOfBounds
    else Parsed.move sr sc er ec
  | _ => Parsed.invalidInput

/-! ## Definitions used to state and prove the properties -/

/-- The array after the assignments `squares[er][ec] = p; squares[sr][sc] = nullptr`. -/
def Grid.moved (g : Grid) (p : Piece) (sr sc er ec : Int) : Grid :=
  (g.set er ec (some p)).set sr sc none

/-- The array after the en-passant assignments `squares[sr][ec] = nullptr;
squares[er][ec] = p; squares[sr][sc] = nullptr`. -/
def Grid.epMoved (g : Grid) (p : Piece) (sr sc er ec : Int) : Grid :=
  ((g.set sr ec none).set er ec (some p)).set sr sc none

/-- Every cell strictly between `(sr, sc)` and `(er, ec)`, stepping by the signs of the
two differences, is empty. -/
def Clear (g : Grid) (sr sc er ec : Int) : Prop :=
  ∀ k : Nat, 0 < k → (k : Int) < max (iabs (er - sr)) (iabs (ec - sc)) →
    g.read (sr + k * sgn3 sr er) (sc + k * sgn3 sc ec) = some none

/-- The test of `Board::findKing` on one cell: it holds a king of the colour `white`. -/
def isKingCell (white : Bool) (cell : Option (Option Piece)) : Bool :=
  match cell with
  | some (some p) => decide (p.kind = Kind.King) && (p.isWhite == white)
  | _ => false

/-- Number of cells holding a king of the colour `white`. -/
def countKings (g : Grid) (white : Bool) : Nat :=
  allSquares.countP (fun rc => isKingCell white (g.read rc.1 rc.2))

/-- The flag returned by a call, without the board it leaves behind. -/
def verdict (r : Option (Bool × Board)) : Option Bool := r.map Prod.fst

/-- States of a game: the board of a new `Game` with White to move, and every board
reached from one of them by a `movePiece` call of the side to move that returned true. -/
inductive Reachable : Board → Bool → Prop
  | start : Reachable Board.initial true
  | move {b : Board} {w : Bool} {sr sc er ec : Int} {b1 : Board} :
      Reachable b w → b.movePiece sr sc er ec w = some (true, b1) → Reachable b1 (!w)

/-- A board given by the list of its occupied cells `(row, column, piece)`. -/
def Grid.ofList (l : List (Nat × Nat × Piece)) : Grid :=
  fun i j => (l.find? (fun x => x.1 == i.val && x.2.1 == j.val)).map (fun x => x.2.2)

/-- Fixture: White king e1 and rook e2, Black king a8 and rook e8; the white rook is
pinned on the e-file. -/
def pinBoard : Board :=
  { squares := Grid.ofList
      [(7, 4, ⟨Kind.King, true, true⟩), (6, 4, ⟨Kind.Rook, true, true⟩),
       (0, 0, ⟨Kind.King, false, true⟩), (0, 4, ⟨Kind.Rook, false, true⟩)],
    lastMoveStart := (-1, -1), lastMoveEnd := (-1, -1) }

/-- Fixture: a position as `loadGame` builds it (every piece marked moved, `lastMove`
taken from the last history line `b5b7`): White king e1 and pawn a7, Black king e8 and
pawn b7, b8 empty. -/
def loadedBoard : Board :=
  { squares := Grid.ofList
      [(7, 4, ⟨Kind.King, true, true⟩), (1, 0, ⟨Kind.Pawn, true, true⟩),
       (0, 4, ⟨Kind.King, false, true⟩), (1, 1, ⟨Kind.Pawn, false, true⟩)],
    lastMoveStart := (3, 1), lastMoveEnd := (1, 1) }

/-- Invariant of play, for a board with `w` to move: one king of each colour, every
unmoved king on column 4, and the side that has just moved not in check. -/
def PlayInv (b : Board) (w : Bool) : Prop :=
  countKings b.squares true = 1 ∧ countKings b.squares false = 1 ∧
  (∀ r c k, b.squares.read r c = some (some k) → k.kind = Kind.King →
    k.hasMoved = false → c = 4) ∧
  Board.isInCheck b.squares (!w) = some false

/-- Test on one cell of column `j`: it does not hold an unmoved king off column 4. -/
def cellHome (j : Fin 8) (cell : Option Piece) : Bool :=
  match cell with
  | some k => !(decide (k.kind = Kind.King) && !k.hasMoved) || decide (j.val = 4)
  | none => true

/-- Fixture: White king e1 with rooks a1 and h1, none of them moved, and the Black
king on e8 (moved); every other cell is empty. -/
def castleBoard : Board :=
  { squares := Grid.ofList
      [(7, 4, ⟨Kind.King, true, false⟩), (7, 0, ⟨Kind.Rook, true, false⟩),
       (7, 7, ⟨Kind.Rook, true, false⟩), (0, 4, ⟨Kind.King, false, true⟩)],
    lastMoveStart := (-1, -1), lastMoveEnd := (-1, -1) }

/-- Fixture: White king e1 and pawn e5, Black king e8 and pawn d5, with the record of
the black pawn's double step d7-d5 as last move. -/
def epBoard : Board :=
  { squares := Grid.ofList
      [(7, 4, ⟨Kind.King, true, true⟩), (3, 4, ⟨Kind.Pawn, true, true⟩),
       (0, 4, ⟨Kind.King, false, true⟩), (3, 3, ⟨Kind.Pawn, false, true⟩)],
    lastMoveStart := (1, 3), lastMoveEnd := (3, 3) }

/-- Fixture: White king h1, Black king h3 and Black queen g3, every other cell empty;
the three `hasMoved` flags and the `lastMove` record are left open. -/
def stalemateBoard (kingMoved blackKingMoved queenMoved : Bool) (ls le : Int × Int) : Board :=
  { squares := Grid.ofList
      [(7, 7, ⟨Kind.King, true, kingMoved⟩), (5, 7, ⟨Kind.King, false, blackKingMoved⟩),
       (5, 6, ⟨Kind.Queen, false, queenMoved⟩)],
    lastMoveStart := ls, lastMoveEnd := le }

/-- Cell `s` holds a piece of colour `c`. -/
def Board.ownPiece (b : Board) (c : Bool) (s : Int × Int) : Bool :=
  match b.squares.read s.1 s.2 with
  | some (some p) => p.isWhite == c
  | _ => false

/-- Fixture: an unmoved White king on e1 and an unmoved Black rook on h1, every other
cell empty. -/
def enemyRookGrid : Grid :=
  Grid.ofList [(7, 4, ⟨Kind.King, true, false⟩), (7, 7, ⟨Kind.Rook, false, false⟩)]

/-- Every rook and every king that has not moved stands on the back rank of its colour:
row 7 for White, row 0 for Black. -/
def UnmovedAtHome (g : Grid) : Prop :=
  ∀ r c k, g.read r c = some (some k) → k.hasMoved = false →
    k.kind = Kind.Rook ∨ k.kind = Kind.King → r = (if k.isWhite then 7 else 0)

/-- Test on one cell of row `i`: it does not hold an unmoved rook or king away from the
back rank of its colour. -/
def cellAtHome (i : Fin 8) (cell : Option Piece) : Bool :=
  match cell with
  | some k =>
    k.hasMoved || !(decide (k.kind = Kind.Rook) || decide (k.kind = Kind.King)) ||
      decide (i.val = if k.isWhite then 7 else 0)
  | none => true

/-- The piece with its colour swapped. -/
def Piece.swapColour (p : Piece) : Piece := { p with isWhite := !p.isWhite }

/-- The mirrored board: cell `(r, c)` holds the piece of `(7 - r, c)` with its colour
swapped. -/
def Grid.mirror (g : Grid) : Grid := fun i j => (g i.rev j).map Piece.swapColour

/-- The file character of the notation for a column: `a` for 0 up to `h` for 7. -/
def fileChar (c : Int) : Char := "abcdefgh".toList.getD c.toNat 'a'

/-- The rank digit of the notation for a row: `8` for row 0 down to `1` for row 7. -/
def rankChar (r : Int) : Char := "87654321".toList.getD r.toNat '8'

/-- Whether the call `movePiece(sr, sc, er, ec, _)` on this board, once it has found
the move legal, enters the promotion block of lines 391-396: the start cell holds a
pawn, the en-passant branch of lines 319-353 is not taken, and `er` is the last row
of the pawn's march. -/
def Board.entersPromotion (b : Board) (sr sc er ec : Int) : Bool :=
  match b.squares.read sr sc with
  | some (some p) => decide (p.promotes er) && (b.enPassantTest p sr sc er ec == some false)
  | _ => false

/-- Fixture: a position as `loadGame` builds it (every piece marked moved, no history):
White king a1 and pawn a7, Black king e8; a8 is empty. -/
def promotionBoard : Board :=
  { squares := Grid.ofList
      [(7, 0, ⟨Kind.King, true, true⟩), (1, 0, ⟨Kind.Pawn, true, true⟩),
       (0, 4, ⟨Kind.King, false, true⟩)],
    lastMoveStart := (-1, -1), lastMoveEnd := (-1, -1) }

/-- Fixture: a position as `loadGame` builds it from a file whose last history line is
`e6e8` (every piece marked moved): Black pawns d8 and e8 and king h8, White pawn c7 and
king a1; e7 is empty. -/
def windowBoard : Board :=
  { squares := Grid.ofList
      [(0, 3, ⟨Kind.Pawn, false, true⟩), (0, 4, ⟨Kind.Pawn, false, true⟩),
       (0, 7, ⟨Kind.King, false, true⟩), (1, 2, ⟨Kind.Pawn, true, true⟩),
       (7, 0, ⟨Kind.King, true, true⟩)],
    lastMoveStart := (2, 4), lastMoveEnd := (0, 4) }

set_option maxRecDepth 100000

/-! ### Reading and writing the array -/

theorem Grid.read_of_inRange (g : Grid) {r c : Int} (h : inRange r c) :
    ∃ v, g.read r c = some v := by
  unfold Grid.read; simp [h]

theorem Grid.read_eq_none_iff (g : Grid) (r c : Int) : g.read r c = none ↔ ¬ inRange r c := by
  unfold Grid.read; split <;> simp [*]

theorem Grid.inRange_of_read {g : Grid} {r c : Int} {v : Option Piece}
    (h : g.read r c = some v) : inRange r c := by
  by_contra hn
  rw [(Grid.read_eq_none_iff g r c).2 hn] at h
  cases h

theorem Grid.write_of_inRange (g : Grid) {r c : Int} (v : Option Piece) (h : inRange r c) :
    g.write r c v = some (g.set r c v) := by
  unfold Grid.write; simp [h]

theorem Grid.inRange_of_write {g g1 : Grid} {r c : Int} {v : Option Piece}
    (h : g.write r c v = some g1) : inRange r c := by
  unfold Grid.write at h; split at h
  · assumption
  · cases h

theorem Grid.read_set (g : Grid) {r c : Int} (v : Option Piece) (h : inRange r c)
    (r1 c1 : Int) :
    (g.set r c v).read r1 c1 = if r1 = r ∧ c1 = c then some v else g.read r1 c1 := by
  unfold Grid.read Grid.set
  by_cases h1 : inRange r1 c1
  · simp only [h1, dite_true]
    have e1 : (r1.toNat = r.toNat ∧ c1.toNat = c.toNat) ↔ (r1 = r ∧ c1 = c) := by
      unfold inRange at h h1; omega
    by_cases h2 : r1 = r ∧ c1 = c
    · simp [h2]
    · have h3 : ¬ (r1.toNat = r.toNat ∧ c1.toNat = c.toNat) := fun hh => h2 (e1.1 hh)
      simp [h2, h3]
  · have h2 : ¬ (r1 = r ∧ c1 = c) := by
      rintro ⟨rfl, rfl⟩; exact h1 h
    simp [h1, h2]

theorem Grid.ext_read {g1 g2 : Grid}
    (h : ∀ r c, inRange r c → g1.read r c = g2.read r c) : g1 = g2 := by
  funext i j
  have hr : inRange (i.val : Int) (j.val : Int) := by
    unfold inRange; have := i.isLt; have := j.isLt; omega
  have := h _ _ hr
  unfold Grid.read at this
  simp only [hr, dite_true, Option.some.injEq] at this
  simpa using this

/-! ### `tryMove` in closed form -/

theorem Grid.undo_moved {g : Grid} {p : Piece} {cap : Option Piece} {sr sc er ec : Int}
    (hs : g.read sr sc = some (some p)) (he : g.read er ec = some cap) :
    ((g.moved p sr sc er ec).set sr sc (some p)).set er ec cap = g := by
  have hsr := Grid.inRange_of_read hs
  have her := Grid.inRange_of_read he
  apply Grid.ext_read
  intro r c _
  simp only [Grid.moved, Grid.read_set _ _ hsr, Grid.read_set _ _ her]
  split_ifs with h1 h2
  · rw [h1.1, h1.2, he]
  · rw [h2.1, h2.2, hs]
  · rfl

theorem Grid.undo_epMoved {g : Grid} {p q : Piece} {sr sc er ec : Int}
    (hs : g.read sr sc = some (some p)) (he : g.read er ec = some none)
    (ht : g.read sr ec = some (some q)) :
    (((g.epMoved p sr sc er ec).set sr sc (some p)).set er ec none).set sr ec (some q) = g := by
  have hsr := Grid.inRange_of_read hs
  have her := Grid.inRange_of_read he
  have htr := Grid.inRange_of_read ht
  apply Grid.ext_read
  intro r c _
  simp only [Grid.epMoved, Grid.read_set _ _ hsr, Grid.read_set _ _ her, Grid.read_set _ _ htr]
  split_ifs with h1 h2 h3
  · rw [h1.1, h1.2, ht]
  · rw [h2.1, h2.2, he]
  · rw [h3.1, h3.2, hs]
  · rfl

theorem Board.enPassantTest_isSome (b : Board) (p : Piece) {sr sc er ec : Int}
    (hs : inRange sr sc) (he : inRange er ec) :
    ∃ v, b.enPassantTest p sr sc er ec = some v := by
  have ht : inRange sr ec := ⟨hs.1, hs.2.1, he.2.2.1, he.2.2.2⟩
  obtain ⟨x, hx⟩ := Grid.read_of_inRange b.squares he
  obtain ⟨y, hy⟩ := Grid.read_of_inRange b.squares ht
  unfold Board.enPassantTest
  rw [hx, hy]
  split
  · cases x
    · simp only
      split
      · cases y
        · exact ⟨_, rfl⟩
        · simp only; split <;> exact ⟨_, rfl⟩
      · exact ⟨_, rfl⟩
    · exact ⟨_, rfl⟩
  · exact ⟨_, rfl⟩

theorem Board.enPassantTest_true_iff (b : Board) (p : Piece) (sr sc er ec : Int) :
    b.enPassantTest p sr sc er ec = some true ↔
      p.kind = Kind.Pawn ∧ iabs (er - sr) = 1 ∧ iabs (ec - sc) = 1 ∧
      b.squares.read er ec = some none ∧ b.lastMoveStart.1 ≠ -1 ∧
      (∃ adj, b.squares.read sr ec = some (some adj) ∧ adj.kind = Kind.Pawn) ∧
      iabs (b.lastMoveEnd.1 - b.lastMoveStart.1) = 2 ∧
      b.lastMoveEnd.1 = sr ∧ b.lastMoveEnd.2 = ec := by
  unfold Board.enPassantTest
  constructor
  · intro h
    split at h
    · rename_i h1
      split at h
      · cases h
      · cases h
      · rename_i he
        split at h
        · rename_i h2
          split at h
          · cases h
          · cases h
          · rename_i adj ht
            split at h
            · rename_i h3
              simp only [Option.some.injEq, decide_eq_true_eq] at h
              exact ⟨h1.1, h1.2.1, h1.2.2, he, h2, ⟨adj, ht, h3⟩, h⟩
            · cases h
        · cases h
    · cases h
  · rintro ⟨h1, h2, h3, he, h4, ⟨adj, ht, h5⟩, h6, h7, h8⟩
    have h6a := h6
    rw [h7] at h6a
    simp [h1, h2, h3, he, h4, ht, h5, h6a, h7, h8]

theorem Board.simulate_plain (b : Board) (p : Piece) {sr sc er ec : Int} (w : Bool)
    (hs : b.squares.read sr sc = some (some p)) (he : inRange er ec) :
    b.simulate p false sr sc er ec w =
      (if p.kind = Kind.King ∧ iabs (ec - sc) = 2 then
        (Board.castleUnsafe (b.squares.moved p sr sc er ec) sc er ec w).map (fun u => !u)
      else (Board.isInCheck (b.squares.moved p sr sc er ec) w).map (fun c => !c)).map
        (fun legal => (legal, b)) := by
  have hsr := Grid.inRange_of_read hs
  obtain ⟨cap, hcap⟩ := Grid.read_of_inRange b.squares he
  unfold Board.simulate
  simp only [hcap, Grid.write_of_inRange _ _ hsr, Grid.write_of_inRange _ _ he,
    Option.bind_eq_bind, Option.some_bind, Bool.false_eq_true, if_false, false_and]
  have hu := Grid.undo_moved hs hcap
  unfold Grid.moved at hu ⊢
  rw [hu]
  split
  · generalize Board.castleUnsafe _ sc er ec w = x; cases x <;> rfl
  · generalize Board.isInCheck _ w = x; cases x <;> rfl

theorem Board.simulate_ep (b : Board) (p q : Piece) {sr sc er ec : Int} (w : Bool)
    (hs : b.squares.read sr sc = some (some p)) (he : b.squares.read er ec = some none)
    (ht : b.squares.read sr ec = some (some q)) (hk : p.kind = Kind.Pawn) :
    b.simulate p true sr sc er ec w =
      (Board.isInCheck (b.squares.epMoved p sr sc er ec) w).map (fun c => (!c, b)) := by
  have hsr := Grid.inRange_of_read hs
  have her := Grid.inRange_of_read he
  have htr := Grid.inRange_of_read ht
  unfold Board.simulate
  simp only [he, ht, hk, Grid.write_of_inRange _ _ hsr, Grid.write_of_inRange _ _ her,
    Grid.write_of_inRange _ _ htr, Option.bind_eq_bind, Option.some_bind, if_true,
    Option.isSome_some, and_self, false_and, if_false, reduceCtorEq]
  have hu := Grid.undo_epMoved hs he ht
  unfold Grid.epMoved at hu ⊢
  rw [hu]
  generalize Board.isInCheck _ w = x; cases x <;> rfl

theorem Board.tryMove_state (b : Board) (sr sc er ec : Int) (w : Bool) (v : Bool) (b1 : Board)
    (h : b.tryMove sr sc er ec w = some (v, b1)) : b1 = b := by
  unfold Board.tryMove at h
  split at h
  · cases h
  · cases h; rfl
  · rename_i p hs
    split at h
    · cases h; rfl
    · split at h
      · cases h
      · rename_i ep hep
        split at h
        · cases h
        · cases h; rfl
        · rename_i hpat
          cases ep with
          | false =>
            have he : inRange er ec := by
              by_contra hn
              unfold Board.simulate at h
              rw [(Grid.read_eq_none_iff _ _ _).2 hn] at h
              cases h
            rw [Board.simulate_plain b p w hs he] at h
            simp only [Option.map_eq_some', Prod.mk.injEq] at h
            obtain ⟨_, _, _, rfl⟩ := h
            rfl
          | true =>
            obtain ⟨hk, _, _, he, _, ⟨q, ht, _⟩, _⟩ := (Board.enPassantTest_true_iff _ _ _ _ _ _).1 hep
            rw [Board.simulate_ep b p q w hs he ht hk] at h
            simp only [Option.map_eq_some', Prod.mk.injEq] at h
            obtain ⟨_, _, _, rfl⟩ := h
            rfl

/-! ### `movePiece` in closed form -/

theorem Board.undoMove_eq (b : Board) {p : Piece} {cap : Option Piece} {sr sc er ec : Int}
    (hs : b.squares.read sr sc = some (some p)) (he : b.squares.read er ec = some cap) :
    b.undoMove (b.squares.moved p sr sc er ec) p cap sr sc er ec = some (false, b) := by
  have hsr := Grid.inRange_of_read hs
  have her := Grid.inRange_of_read he
  unfold Board.undoMove
  simp only [Grid.write_of_inRange _ _ hsr, Grid.write_of_inRange _ _ her,
    Option.bind_eq_bind, Option.some_bind, Grid.undo_moved hs he]

theorem Board.enPassantMove_eq (b : Board) (p q : Piece) {sr sc er ec : Int} (w : Bool)
    (hs : b.squares.read sr sc = some (some p)) (he : b.squares.read er ec = some none)
    (ht : b.squares.read sr ec = some (some q)) :
    b.enPassantMove p sr sc er ec w =
      (Board.isInCheck (b.squares.epMoved p sr sc er ec) w).bind (fun chk =>
        if chk then some (false, b)
        else some (true, { squares := (b.squares.epMoved p sr sc er ec).set er ec (some p.setMoved),
                           lastMoveStart := (sr, sc), lastMoveEnd := (er, ec) })) := by
  have hsr := Grid.inRange_of_read hs
  have her := Grid.inRange_of_read he
  have htr := Grid.inRange_of_read ht
  have h1 : (b.squares.set sr ec none).read er ec = some none := by
    rw [Grid.read_set _ _ htr]; split
    · rfl
    · exact he
  unfold Board.enPassantMove Board.enPassantCommit
  simp only [ht, h1, Grid.write_of_inRange _ _ hsr, Grid.write_of_inRange _ _ her,
    Grid.write_of_inRange _ _ htr, Option.bind_eq_bind, Option.some_bind]
  have hu := Grid.undo_epMoved hs he ht
  unfold Grid.epMoved at hu ⊢
  rw [hu]

theorem Board.promote_of_not (g : Grid) {p : Piece} {er : Int} (h : ¬ p.promotes er) :
    Board.promote g p er = some g := by
  unfold Board.promote; rw [if_neg h]

theorem Board.promote_of (g : Grid) {p : Piece} {er : Int} (h : p.promotes er) :
    Board.promote g p er = none := by
  unfold Board.promote; rw [if_pos h]

theorem Piece.not_promotes_of_king {p : Piece} (h : p.kind = Kind.King) (er : Int) :
    ¬ p.promotes er := by
  intro hp; rw [hp.1] at h; cases h

theorem Board.castleRook_plain (g : Grid) (p : Piece) (sc er ec : Int)
    (h : ¬ (p.kind = Kind.King ∧ iabs (ec - sc) = 2)) :
    Board.castleRook g p sc er ec = some g := by
  unfold Board.castleRook; simp only [h, if_false]

theorem Board.castleRook_read (g : Grid) (p : Piece) {sc er ec : Int}
    (h : p.kind = Kind.King ∧ iabs (ec - sc) = 2) (hs : inRange er sc) (he : inRange er ec) :
    ∃ g1 rook, g.read er (if ec > sc then 7 else 0) = some rook ∧
      Board.castleRook g p sc er ec = some g1 ∧ ∀ r c, g1.read r c =
        if r = er ∧ c = (if ec > sc then ec - 1 else ec + 1) then some (rook.map Piece.setMoved)
        else if r = er ∧ c = (if ec > sc then 7 else 0) then some none
        else g.read r c := by
  have hcorner : inRange er (if ec > sc then 7 else 0) := by
    unfold inRange at *; split <;> omega
  have hnew : inRange er (if ec > sc then ec - 1 else ec + 1) := by
    have := h.2
    unfold inRange iabs at *; split <;> split at this <;> omega
  obtain ⟨rook, hrook⟩ := Grid.read_of_inRange g hcorner
  unfold Board.castleRook
  simp only [h, and_self, if_true, hrook, Grid.write_of_inRange _ _ hcorner,
    Grid.write_of_inRange _ _ hnew, Option.bind_eq_bind, Option.some_bind]
  cases rook with
  | none =>
    refine ⟨_, none, rfl, rfl, fun r c => ?_⟩
    simp only [Grid.read_set _ _ hcorner, Grid.read_set _ _ hnew, Option.map_none']
    split_ifs <;> rfl
  | some rk =>
    refine ⟨_, some rk, rfl, rfl, fun r c => ?_⟩
    simp only [Grid.read_set _ _ hcorner, Grid.read_set _ _ hnew, Option.map_some']
    split_ifs <;> rfl

theorem Board.commitMove_plain (g : Grid) (p : Piece) (sr sc er ec : Int)
    (h : ¬ (p.kind = Kind.King ∧ iabs (ec - sc) = 2)) (he : inRange er ec)
    (hnp : ¬ p.promotes er) :
    ∃ g1, Board.commitMove g p sr sc er ec =
        some (true, { squares := g1, lastMoveStart := (sr, sc), lastMoveEnd := (er, ec) }) ∧
      ∀ r c, g1.read r c =
        if r = er ∧ c = ec then some (some p.setMoved) else g.read r c := by
  refine ⟨g.set er ec (some p.setMoved), ?_, ?_⟩
  · unfold Board.commitMove
    simp only [Grid.write_of_inRange _ _ he, Board.promote_of_not _ hnp,
      Board.castleRook_plain _ _ _ _ _ h, Option.bind_eq_bind, Option.some_bind]
  · intro r c
    rw [Grid.read_set _ _ he]

/-- A move that enters the promotion block has no defined result. -/
theorem Board.commitMove_promotes (g : Grid) (p : Piece) (sr sc er ec : Int)
    (hp : p.promotes er) : Board.commitMove g p sr sc er ec = none := by
  unfold Board.commitMove
  cases hw : g.write er ec (some p.setMoved) with
  | none => rfl
  | some g3 =>
    simp only [Board.promote_of _ hp, Option.bind_eq_bind, Option.some_bind, Option.none_bind]

theorem Board.commitMove_some_not_promotes {g : Grid} {p : Piece} {sr sc er ec : Int}
    {x : Bool × Board} (h : Board.commitMove g p sr sc er ec = some x) : ¬ p.promotes er := by
  intro hp
  rw [Board.commitMove_promotes g p sr sc er ec hp] at h
  cases h

theorem Board.commitMove_castle (g : Grid) (p : Piece) (sr sc er ec : Int)
    (h : p.kind = Kind.King ∧ iabs (ec - sc) = 2) (hs : inRange er sc) (he : inRange er ec) :
    ∃ g1 rook, (g.set er ec (some p.setMoved)).read er (if ec > sc then 7 else 0) = some rook ∧
      Board.commitMove g p sr sc er ec =
        some (true, { squares := g1, lastMoveStart := (sr, sc), lastMoveEnd := (er, ec) }) ∧
      ∀ r c, g1.read r c =
        if r = er ∧ c = (if ec > sc then ec - 1 else ec + 1) then some (rook.map Piece.setMoved)
        else if r = er ∧ c = (if ec > sc then 7 else 0) then some none
        else if r = er ∧ c = ec then some (some p.setMoved)
        else g.read r c := by
  have hnp : ¬ p.promotes er := Piece.not_promotes_of_king h.1 er
  obtain ⟨g5, rook, hrook, hg5, hread5⟩ :=
    Board.castleRook_read (g.set er ec (some p.setMoved)) p h hs he
  refine ⟨g5, rook, hrook, ?_, ?_⟩
  · unfold Board.commitMove
    simp only [Grid.write_of_inRange _ _ he, Board.promote_of_not _ hnp, hg5,
      Option.bind_eq_bind, Option.some_bind]
  · intro r c
    rw [hread5, Grid.read_set _ _ he]

/-- The tail of `movePiece` never returns false. -/
theorem Board.commitMove_ne_false (g : Grid) (p : Piece) (sr sc er ec : Int) (x : Board) :
    Board.commitMove g p sr sc er ec ≠ some (false, x) := by
  intro hx
  unfold Board.commitMove at hx
  cases h1 : g.write er ec (some p.setMoved) with
  | none => rw [h1] at hx; cases hx
  | some g3 =>
    rw [h1] at hx
    cases h2 : Board.promote g3 p er with
    | none => simp only [h2, Option.bind_eq_bind, Option.some_bind, Option.none_bind] at hx; cases hx
    | some g4 =>
      cases h3 : Board.castleRook g4 p sc er ec with
      | none =>
        simp only [h2, h3, Option.bind_eq_bind, Option.some_bind, Option.none_bind] at hx
        cases hx
      | some g5 =>
        simp only [h2, h3, Option.bind_eq_bind, Option.some_bind, Option.some.injEq,
          Prod.mk.injEq] at hx
        cases hx.1

theorem Board.applyMove_eq (b : Board) (p : Piece) {sr sc er ec : Int} (w : Bool)
    (hs : b.squares.read sr sc = some (some p)) (he : inRange er ec) :
    b.applyMove p sr sc er ec w =
      (if p.kind = Kind.King ∧ iabs (ec - sc) = 2 then
          Board.castleUnsafe (b.squares.moved p sr sc er ec) sc er ec w
        else some false).bind (fun bad =>
        if bad then some (false, b)
        else (Board.isInCheck (b.squares.moved p sr sc er ec) w).bind (fun chk =>
          if chk then some (false, b)
          else Board.commitMove (b.squares.moved p sr sc er ec) p sr sc er ec)) := by
  have hsr := Grid.inRange_of_read hs
  obtain ⟨cap, hcap⟩ := Grid.read_of_inRange b.squares he
  have hu : b.undoMove (b.squares.moved p sr sc er ec) p cap sr sc er ec = some (false, b) :=
    Board.undoMove_eq b hs hcap
  unfold Board.applyMove
  unfold Grid.moved at hu ⊢
  simp only [hcap, Grid.write_of_inRange _ _ hsr, Grid.write_of_inRange _ _ he,
    Option.bind_eq_bind, Option.some_bind, hu]
  split <;> rfl

/-- What a call of `movePiece` that returns false leaves behind. -/
theorem Board.movePiece_false_state (b : Board) (sr sc er ec : Int) (w : Bool) (b1 : Board)
    (h : b.movePiece sr sc er ec w = some (false, b1)) : b1 = b := by
  unfold Board.movePiece at h
  split at h
  · cases h
  · cases h; rfl
  · rename_i p hs
    split at h
    · cases h; rfl
    · split at h
      · cases h
      · rename_i hep
        obtain ⟨_, _, _, he, _, ⟨q, ht, _⟩, _⟩ := (Board.enPassantTest_true_iff _ _ _ _ _ _).1 hep
        rw [Board.enPassantMove_eq b p q w hs he ht] at h
        cases hc : Board.isInCheck (b.squares.epMoved p sr sc er ec) w with
        | none => rw [hc] at h; cases h
        | some chk =>
          rw [hc] at h
          cases chk
          · simp at h
          · simp at h; exact h.symm
      · split at h
        · cases h
        · cases h; rfl
        · have he : inRange er ec := by
            by_contra hn
            unfold Board.applyMove at h
            rw [(Grid.read_eq_none_iff _ _ _).2 hn] at h
            cases h
          rw [Board.applyMove_eq b p w hs he] at h
          have hsr := Grid.inRange_of_read hs
          have hcm : ∀ x, Board.commitMove (b.squares.moved p sr sc er ec) p sr sc er ec
              ≠ some (false, x) := Board.commitMove_ne_false _ p sr sc er ec
          generalize (if p.kind = Kind.King ∧ iabs (ec - sc) = 2 then
              Board.castleUnsafe (b.squares.moved p sr sc er ec) sc er ec w
            else some false) = x at h
          cases x with
          | none => cases h
          | some bad =>
            cases bad
            · simp only [Option.some_bind, Bool.false_eq_true, if_false] at h
              cases hc : Board.isInCheck (b.squares.moved p sr sc er ec) w with
              | none => rw [hc] at h; cases h
              | some chk =>
                rw [hc] at h
                cases chk
                · simp only [Option.some_bind, Bool.false_eq_true, if_false] at h
                  exact absurd h (hcm _)
                · simp at h; exact h.symm
            · simp at h; exact h.symm

theorem Board.castleUnsafe_false_iff (g : Grid) (sc er ec : Int) (w : Bool) :
    Board.castleUnsafe g sc er ec w = some false ↔
      Board.isInCheck g w = some false ∧
      Board.isSquareAttacked g er (sc + (if ec > sc then 1 else -1)) (!w) = some false ∧
      Board.isSquareAttacked g er ec (!w) = some false := by
  unfold Board.castleUnsafe
  cases h1 : Board.isInCheck g w with
  | none => simp
  | some a =>
    cases a
    · simp only [true_and]
      cases h2 : Board.isSquareAttacked g er (sc + (if ec > sc then 1 else -1)) (!w) with
      | none => simp
      | some c => cases c <;> simp
    · simp

theorem Board.movePiece_true_cases {b : Board} {sr sc er ec : Int} {w : Bool} {b1 : Board}
    (h : b.movePiece sr sc er ec w = some (true, b1)) :
    ∃ p, b.squares.read sr sc = some (some p) ∧ p.isWhite = w ∧ inRange er ec ∧
      ((b.enPassantTest p sr sc er ec = some true ∧
          Board.isInCheck (b.squares.epMoved p sr sc er ec) w = some false ∧
          b1 = { squares := (b.squares.epMoved p sr sc er ec).set er ec (some p.setMoved),
                 lastMoveStart := (sr, sc), lastMoveEnd := (er, ec) }) ∨
       (b.enPassantTest p sr sc er ec = some false ∧
          p.isValidMove sr sc er ec b.squares = some true ∧
          (p.kind = Kind.King ∧ iabs (ec - sc) = 2 →
            Board.castleUnsafe (b.squares.moved p sr sc er ec) sc er ec w = some false) ∧
          Board.isInCheck (b.squares.moved p sr sc er ec) w = some false ∧
          Board.commitMove (b.squares.moved p sr sc er ec) p sr sc er ec = some (true, b1))) := by
  unfold Board.movePiece at h
  split at h
  · cases h
  · cases h
  · rename_i p hs
    split at h
    · cases h
    · rename_i hw
      have hw : p.isWhite = w := not_not.1 hw
      split at h
      · cases h
      · rename_i hep
        obtain ⟨_, _, _, he, _, ⟨q, ht, _⟩, _⟩ := (Board.enPassantTest_true_iff _ _ _ _ _ _).1 hep
        refine ⟨p, hs, hw, Grid.inRange_of_read he, Or.inl ⟨hep, ?_⟩⟩
        rw [Board.enPassantMove_eq b p q w hs he ht] at h
        cases hc : Board.isInCheck (b.squares.epMoved p sr sc er ec) w with
        | none => rw [hc] at h; cases h
        | some chk =>
          rw [hc] at h
          cases chk
          · simp only [Option.some_bind, Bool.false_eq_true, if_false, Option.some.injEq,
              Prod.mk.injEq, true_and] at h
            exact ⟨rfl, h.symm⟩
          · simp at h
      · rename_i hep
        split at h
        · cases h
        · cases h
        · rename_i hv
          have he : inRange er ec := by
            by_contra hn
            unfold Board.applyMove at h
            rw [(Grid.read_eq_none_iff _ _ _).2 hn] at h
            cases h
          rw [Board.applyMove_eq b p w hs he] at h
          refine ⟨p, hs, hw, he, Or.inr ⟨hep, hv, ?_⟩⟩
          by_cases hk : p.kind = Kind.King ∧ iabs (ec - sc) = 2
          · simp only [hk, and_self, if_true] at h
            cases hcu : Board.castleUnsafe (b.squares.moved p sr sc er ec) sc er ec w with
            | none => rw [hcu] at h; cases h
            | some bad =>
              rw [hcu] at h
              cases bad
              · simp only [Option.some_bind, Bool.false_eq_true, if_false] at h
                have hic := ((Board.castleUnsafe_false_iff _ _ _ _ _).1 hcu).1
                rw [hic] at h
                simp only [Option.some_bind, Bool.false_eq_true, if_false] at h
                exact ⟨fun _ => rfl, hic, h⟩
              · simp at h
          · simp only [hk, if_false, Option.some_bind, Bool.false_eq_true] at h
            cases hc : Board.isInCheck (b.squares.moved p sr sc er ec) w with
            | none => rw [hc] at h; cases h
            | some chk =>
              rw [hc] at h
              cases chk
              · simp only [Option.some_bind, Bool.false_eq_true, if_false] at h
                exact ⟨fun hh => absurd hh hk, rfl, h⟩
              · simp at h

theorem Board.movePiece_of_ep {b : Board} {p : Piece} {sr sc er ec : Int} {w : Bool}
    (hs : b.squares.read sr sc = some (some p)) (hw : p.isWhite = w)
    (hep : b.enPassantTest p sr sc er ec = some true)
    (hc : Board.isInCheck (b.squares.epMoved p sr sc er ec) w = some false) :
    b.movePiece sr sc er ec w =
      some (true, { squares := (b.squares.epMoved p sr sc er ec).set er ec (some p.setMoved),
                    lastMoveStart := (sr, sc), lastMoveEnd := (er, ec) }) := by
  obtain ⟨_, _, _, he, _, ⟨q, ht, _⟩, _⟩ := (Board.enPassantTest_true_iff _ _ _ _ _ _).1 hep
  unfold Board.movePiece
  simp only [hs, hw, ne_eq, not_true_eq_false, if_false, hep,
    Board.enPassantMove_eq b p q w hs he ht, hc, Option.some_bind, Bool.false_eq_true]

theorem Board.movePiece_of_plain {b : Board} {p : Piece} {sr sc er ec : Int} {w : Bool}
    (hs : b.squares.read sr sc = some (some p)) (hw : p.isWhite = w) (he : inRange er ec)
    (hep : b.enPassantTest p sr sc er ec = some false)
    (hv : p.isValidMove sr sc er ec b.squares = some true)
    (hcu : p.kind = Kind.King ∧ iabs (ec - sc) = 2 →
      Board.castleUnsafe (b.squares.moved p sr sc er ec) sc er ec w = some false)
    (hc : Board.isInCheck (b.squares.moved p sr sc er ec) w = some false) :
    b.movePiece sr sc er ec w =
      Board.commitMove (b.squares.moved p sr sc er ec) p sr sc er ec := by
  unfold Board.movePiece
  simp only [hs, hw, ne_eq, not_true_eq_false, if_false, hep, hv,
    Board.applyMove_eq b p w hs he]
  by_cases hk : p.kind = Kind.King ∧ iabs (ec - sc) = 2
  · simp only [hk, and_self, if_true, hcu hk, Option.some_bind, Bool.false_eq_true, if_false, hc]
  · simp only [hk, if_false, Option.some_bind, Bool.false_eq_true, hc]

theorem Board.tryMove_true_cases {b : Board} {sr sc er ec : Int} {w : Bool} {b1 : Board}
    (h : b.tryMove sr sc er ec w = some (true, b1)) :
    ∃ p, b.squares.read sr sc = some (some p) ∧ p.isWhite = w ∧ inRange er ec ∧
      ((b.enPassantTest p sr sc er ec = some true ∧
          Board.isInCheck (b.squares.epMoved p sr sc er ec) w = some false) ∨
       (b.enPassantTest p sr sc er ec = some false ∧
          p.isValidMove sr sc er ec b.squares = some true ∧
          (p.kind = Kind.King ∧ iabs (ec - sc) = 2 →
            Board.castleUnsafe (b.squares.moved p sr sc er ec) sc er ec w = some false) ∧
          Board.isInCheck (b.squares.moved p sr sc er ec) w = some false)) := by
  unfold Board.tryMove at h
  split at h
  · cases h
  · cases h
  · rename_i p hs
    split at h
    · cases h
    · rename_i hw
      have hw : p.isWhite = w := not_not.1 hw
      split at h
      · cases h
      · rename_i ep hep
        cases ep with
        | true =>
          obtain ⟨hk, _, _, he, _, ⟨q, ht, _⟩, _⟩ :=
            (Board.enPassantTest_true_iff _ _ _ _ _ _).1 hep
          refine ⟨p, hs, hw, Grid.inRange_of_read he, Or.inl ⟨hep, ?_⟩⟩
          simp only [if_true, Board.simulate_ep b p q w hs he ht hk] at h
          cases hc : Board.isInCheck (b.squares.epMoved p sr sc er ec) w with
          | none => rw [hc] at h; cases h
          | some chk =>
            rw [hc] at h
            cases chk
            · rfl
            · simp at h
        | false =>
          simp only [Bool.false_eq_true, if_false] at h
          split at h
          · cases h
          · cases h
          · rename_i hv
            have he : inRange er ec := by
              by_contra hn
              unfold Board.simulate at h
              rw [(Grid.read_eq_none_iff _ _ _).2 hn] at h
              cases h
            refine ⟨p, hs, hw, he, Or.inr ⟨hep, hv, ?_⟩⟩
            rw [Board.simulate_plain b p w hs he] at h
            by_cases hk : p.kind = Kind.King ∧ iabs (ec - sc) = 2
            · simp only [hk, and_self, if_true] at h
              cases hcu : Board.castleUnsafe (b.squares.moved p sr sc er ec) sc er ec w with
              | none => rw [hcu] at h; cases h
              | some bad =>
                rw [hcu] at h
                cases bad
                · exact ⟨fun _ => rfl, ((Board.castleUnsafe_false_iff _ _ _ _ _).1 hcu).1⟩
                · simp at h
            · simp only [hk, if_false] at h
              cases hc : Board.isInCheck (b.squares.moved p sr sc er ec) w with
              | none => rw [hc] at h; cases h
              | some chk =>
                rw [hc] at h
                cases chk
                · exact ⟨fun hh => absurd hh hk, rfl⟩
                · simp at h

/-! ### The path loops -/

theorem mem_allSquares (r c : Int) : (r, c) ∈ allSquares ↔ inRange r c := by
  unfold allSquares inRange
  rw [List.mem_flatMap]
  constructor
  · rintro ⟨a, ha, hm⟩
    rw [List.mem_map] at hm
    obtain ⟨b, hb, heq⟩ := hm
    rw [List.mem_range] at ha hb
    simp only [Prod.mk.injEq, Int.ofNat_eq_coe] at heq
    omega
  · rintro ⟨h1, h2, h3, h4⟩
    refine ⟨r.toNat, List.mem_range.2 (by omega), ?_⟩
    rw [List.mem_map]
    refine ⟨c.toNat, List.mem_range.2 (by omega), ?_⟩
    simp only [Prod.mk.injEq, Int.ofNat_eq_coe]
    omega

theorem rook_walk_spec (g : Grid) (dr dc : Int) (hd : dr ≠ 0 ∨ dc ≠ 0) :
    ∀ (m n : Nat) (r c : Int), m < n →
      (∀ k : Nat, k < m → inRange (r + k * dr) (c + k * dc)) →
      ∃ b, Rook.walk g dr dc (r + m * dr) (c + m * dc) n r c = some b ∧
        (b = true ↔ ∀ k : Nat, k < m → g.read (r + k * dr) (c + k * dc) = some none) := by
  intro m
  induction m with
  | zero =>
    intro n r c hn _
    obtain ⟨n1, rfl⟩ : ∃ n1, n = n1 + 1 := ⟨n - 1, by omega⟩
    refine ⟨true, ?_, by simp⟩
    simp [Rook.walk]
  | succ m ih =>
    intro n r c hn hin
    obtain ⟨n1, rfl⟩ : ∃ n1, n = n1 + 1 := ⟨n - 1, by omega⟩
    have hcond : r ≠ r + ((m + 1 : Nat) : Int) * dr ∨ c ≠ c + ((m + 1 : Nat) : Int) * dc := by
      rcases hd with h | h
      · left
        intro hh
        have : ((m + 1 : Nat) : Int) * dr = 0 := by linarith
        rcases mul_eq_zero.1 this with h0 | h0
        · omega
        · exact h h0
      · right
        intro hh
        have : ((m + 1 : Nat) : Int) * dc = 0 := by linarith
        rcases mul_eq_zero.1 this with h0 | h0
        · omega
        · exact h h0
    have h0 := hin 0 (by omega)
    simp only [Nat.cast_zero, zero_mul, add_zero] at h0
    obtain ⟨cell, hcell⟩ := Grid.read_of_inRange g h0
    have hstep : ∀ k : Nat, r + dr + (k : Int) * dr = r + ((k + 1 : Nat) : Int) * dr ∧
        c + dc + (k : Int) * dc = c + ((k + 1 : Nat) : Int) * dc := by
      intro k; push_cast; constructor <;> ring
    cases cell with
    | some q =>
      refine ⟨false, ?_, ?_⟩
      · rw [Rook.walk, if_pos hcond]; simp only [hcell]
      · simp only [Bool.false_eq_true, false_iff, not_forall]
        refine ⟨0, by omega, ?_⟩
        simp [hcell]
    | none =>
      have hin1 : ∀ k : Nat, k < m → inRange (r + dr + k * dr) (c + dc + k * dc) := by
        intro k hk
        rw [(hstep k).1, (hstep k).2]
        exact hin (k + 1) (by omega)
      obtain ⟨b, hb, hbi⟩ := ih n1 (r + dr) (c + dc) (by omega) hin1
      refine ⟨b, ?_, ?_⟩
      · rw [Rook.walk, if_pos hcond]; simp only [hcell]
        rw [← (hstep m).1, ← (hstep m).2]
        exact hb
      · rw [hbi]
        constructor
        · intro h k hk
          cases k with
          | zero => simpa using hcell
          | succ k =>
            rw [← (hstep k).1, ← (hstep k).2]
            exact h k (by omega)
        · intro h k hk
          rw [(hstep k).1, (hstep k).2]
          exact h (k + 1) (by omega)

theorem rook_walk_spec_to (g : Grid) {dr dc : Int} (hd : dr ≠ 0 ∨ dc ≠ 0)
    (m n : Nat) {r c er ec : Int} (hn : m < n) (her : er = r + m * dr) (hec : ec = c + m * dc)
    (hin : ∀ k : Nat, k < m → inRange (r + k * dr) (c + k * dc)) :
    ∃ b, Rook.walk g dr dc er ec n r c = some b ∧
      (b = true ↔ ∀ k : Nat, k < m → g.read (r + k * dr) (c + k * dc) = some none) := by
  subst her hec
  exact rook_walk_spec g dr dc hd m n r c hn hin

theorem bishop_walk_spec (g : Grid) (dr dc : Int) (hd : dr ≠ 0 ∧ dc ≠ 0) :
    ∀ (m n : Nat) (r c : Int), m < n →
      (∀ k : Nat, k < m → inRange (r + k * dr) (c + k * dc)) →
      ∃ b, Bishop.walk g dr dc (r + m * dr) (c + m * dc) n r c = some b ∧
        (b = true ↔ ∀ k : Nat, k < m → g.read (r + k * dr) (c + k * dc) = some none) := by
  intro m
  induction m with
  | zero =>
    intro n r c hn _
    obtain ⟨n1, rfl⟩ : ∃ n1, n = n1 + 1 := ⟨n - 1, by omega⟩
    refine ⟨true, ?_, by simp⟩
    simp [Bishop.walk]
  | succ m ih =>
    intro n r c hn hin
    obtain ⟨n1, rfl⟩ : ∃ n1, n = n1 + 1 := ⟨n - 1, by omega⟩
    have hcond : r ≠ r + ((m + 1 : Nat) : Int) * dr ∧ c ≠ c + ((m + 1 : Nat) : Int) * dc := by
      constructor
      · intro hh
        have : ((m + 1 : Nat) : Int) * dr = 0 := by linarith
        rcases mul_eq_zero.1 this with h0 | h0
        · omega
        · exact hd.1 h0
      · intro hh
        have : ((m + 1 : Nat) : Int) * dc = 0 := by linarith
        rcases mul_eq_zero.1 this with h0 | h0
        · omega
        · exact hd.2 h0
    have h0 := hin 0 (by omega)
    simp only [Nat.cast_zero, zero_mul, add_zero] at h0
    obtain ⟨cell, hcell⟩ := Grid.read_of_inRange g h0
    have hstep : ∀ k : Nat, r + dr + (k : Int) * dr = r + ((k + 1 : Nat) : Int) * dr ∧
        c + dc + (k : Int) * dc = c + ((k + 1 : Nat) : Int) * dc := by
      intro k; push_cast; constructor <;> ring
    cases cell with
    | some q =>
      refine ⟨false, ?_, ?_⟩
      · rw [Bishop.walk, if_pos hcond]; simp only [hcell]
      · simp only [Bool.false_eq_true, false_iff, not_forall]
        refine ⟨0, by omega, ?_⟩
        simp [hcell]
    | none =>
      have hin1 : ∀ k : Nat, k < m → inRange (r + dr + k * dr) (c + dc + k * dc) := by
        intro k hk
        rw [(hstep k).1, (hstep k).2]
        exact hin (k + 1) (by omega)
      obtain ⟨b, hb, hbi⟩ := ih n1 (r + dr) (c + dc) (by omega) hin1
      refine ⟨b, ?_, ?_⟩
      · rw [Bishop.walk, if_pos hcond]; simp only [hcell]
        rw [← (hstep m).1, ← (hstep m).2]
        exact hb
      · rw [hbi]
        constructor
        · intro h k hk
          cases k with
          | zero => simpa using hcell
          | succ k =>
            rw [← (hstep k).1, ← (hstep k).2]
            exact h k (by omega)
        · intro h k hk
          rw [(hstep k).1, (hstep k).2]
          exact h (k + 1) (by omega)

theorem bishop_walk_spec_to (g : Grid) {dr dc : Int} (hd : dr ≠ 0 ∧ dc ≠ 0)
    (m n : Nat) {r c er ec : Int} (hn : m < n) (her : er = r + m * dr) (hec : ec = c + m * dc)
    (hin : ∀ k : Nat, k < m → inRange (r + k * dr) (c + k * dc)) :
    ∃ b, Bishop.walk g dr dc er ec n r c = some b ∧
      (b = true ↔ ∀ k : Nat, k < m → g.read (r + k * dr) (c + k * dc) = some none) := by
  subst her hec
  exact bishop_walk_spec g dr dc hd m n r c hn hin

theorem King.scan_spec (g : Grid) (sr step : Int) (hd : step ≠ 0) :
    ∀ (m n : Nat) (c : Int), m < n →
      (∀ k : Nat, k < m → inRange sr (c + k * step)) →
      ∃ b, King.scan g sr step (c + m * step) n c = some b ∧
        (b = true ↔ ∀ k : Nat, k < m → g.read sr (c + k * step) = some none) := by
  intro m
  induction m with
  | zero =>
    intro n c hn _
    obtain ⟨n1, rfl⟩ : ∃ n1, n = n1 + 1 := ⟨n - 1, by omega⟩
    refine ⟨true, ?_, by simp⟩
    simp [King.scan]
  | succ m ih =>
    intro n c hn hin
    obtain ⟨n1, rfl⟩ : ∃ n1, n = n1 + 1 := ⟨n - 1, by omega⟩
    have hcond : c ≠ c + ((m + 1 : Nat) : Int) * step := by
      intro hh
      have : ((m + 1 : Nat) : Int) * step = 0 := by linarith
      rcases mul_eq_zero.1 this with h0 | h0
      · omega
      · exact hd h0
    have h0 := hin 0 (by omega)
    simp only [Nat.cast_zero, zero_mul, add_zero] at h0
    obtain ⟨cell, hcell⟩ := Grid.read_of_inRange g h0
    have hstep : ∀ k : Nat, c + step + (k : Int) * step = c + ((k + 1 : Nat) : Int) * step := by
      intro k; push_cast; ring
    cases cell with
    | some q =>
      refine ⟨false, ?_, ?_⟩
      · rw [King.scan, if_pos hcond]; simp only [hcell]
      · simp only [Bool.false_eq_true, false_iff, not_forall]
        refine ⟨0, by omega, ?_⟩
        simp [hcell]
    | none =>
      have hin1 : ∀ k : Nat, k < m → inRange sr (c + step + k * step) := by
        intro k hk
        rw [hstep k]
        exact hin (k + 1) (by omega)
      obtain ⟨b, hb, hbi⟩ := ih n1 (c + step) (by omega) hin1
      refine ⟨b, ?_, ?_⟩
      · rw [King.scan, if_pos hcond]; simp only [hcell]
        rw [← hstep m]
        exact hb
      · rw [hbi]
        constructor
        · intro h k hk
          cases k with
          | zero => simpa using hcell
          | succ k =>
            rw [← hstep k]
            exact h k (by omega)
        · intro h k hk
          rw [hstep k]
          exact h (k + 1) (by omega)

/-- A straight or diagonal line between two distinct cells is the start plus a
positive multiple of the sign vector. -/
theorem line_param (sr sc er ec : Int)
    (hline : sr = er ∨ sc = ec ∨ iabs (er - sr) = iabs (ec - sc))
    (hne : sr ≠ er ∨ sc ≠ ec) :
    ∃ n : Nat, (n : Int) + 1 = max (iabs (er - sr)) (iabs (ec - sc)) ∧
      er = sr + sgn3 sr er + n * sgn3 sr er ∧ ec = sc + sgn3 sc ec + n * sgn3 sc ec := by
  refine ⟨(max (iabs (er - sr)) (iabs (ec - sc)) - 1).toNat, ?_, ?_, ?_⟩
  · unfold iabs at *; split_ifs at * <;> omega
  · unfold iabs sgn3 at *
    split_ifs at * <;> simp only [mul_one, mul_neg, mul_zero] <;> omega
  · unfold iabs sgn3 at *
    split_ifs at * <;> simp only [mul_one, mul_neg, mul_zero] <;> omega

theorem rook_walk_clear (g : Grid) {sr sc er ec : Int} (hs : inRange sr sc)
    (he : inRange er ec) (hline : sr = er ∨ sc = ec) (hne : sr ≠ er ∨ sc ≠ ec) :
    ∃ b, Rook.walk g (sgn3 sr er) (sgn3 sc ec) er ec 8 (sr + sgn3 sr er) (sc + sgn3 sc ec)
        = some b ∧ (b = true ↔ Clear g sr sc er ec) := by
  obtain ⟨n, hn, her, hec⟩ := line_param sr sc er ec
    (by tauto) hne
  have hd : sgn3 sr er ≠ 0 ∨ sgn3 sc ec ≠ 0 := by
    unfold sgn3; split_ifs <;> omega
  have hn8 : n < 8 := by
    unfold inRange iabs at *; split_ifs at hn <;> omega
  have hstep : ∀ k : Nat, sr + sgn3 sr er + (k : Int) * sgn3 sr er
        = sr + ((k + 1 : Nat) : Int) * sgn3 sr er ∧
      sc + sgn3 sc ec + (k : Int) * sgn3 sc ec = sc + ((k + 1 : Nat) : Int) * sgn3 sc ec := by
    intro k; push_cast; constructor <;> ring
  have hin : ∀ k : Nat, k < n →
      inRange (sr + sgn3 sr er + k * sgn3 sr er) (sc + sgn3 sc ec + k * sgn3 sc ec) := by
    intro k hk
    unfold inRange iabs sgn3 at *
    split_ifs at * <;> simp only [mul_one, mul_neg, mul_zero] at * <;> omega
  obtain ⟨b, hb, hbi⟩ := rook_walk_spec_to g hd n 8 hn8 her hec hin
  refine ⟨b, hb, hbi.trans ?_⟩
  unfold Clear
  rw [← hn]
  constructor
  · intro h k hk0 hk
    obtain ⟨j, rfl⟩ : ∃ j, k = j + 1 := ⟨k - 1, by omega⟩
    rw [← (hstep j).1, ← (hstep j).2]
    exact h j (by omega)
  · intro h k hk
    rw [(hstep k).1, (hstep k).2]
    exact h (k + 1) (by omega) (by push_cast; omega)

theorem bishop_walk_clear (g : Grid) {sr sc er ec : Int} (hs : inRange sr sc)
    (he : inRange er ec) (hline : iabs (er - sr) = iabs (ec - sc)) (hne : sr ≠ er ∨ sc ≠ ec) :
    ∃ b, Bishop.walk g (sgn2 sr er) (sgn2 sc ec) er ec 8 (sr + sgn2 sr er) (sc + sgn2 sc ec)
        = some b ∧ (b = true ↔ Clear g sr sc er ec) := by
  have h2r : sgn2 sr er = sgn3 sr er := by
    unfold sgn2 sgn3 iabs at *; split_ifs at * <;> omega
  have h2c : sgn2 sc ec = sgn3 sc ec := by
    unfold sgn2 sgn3 iabs at *; split_ifs at * <;> omega
  rw [h2r, h2c]
  obtain ⟨n, hn, her, hec⟩ := line_param sr sc er ec
    (by tauto) hne
  have hd : sgn3 sr er ≠ 0 ∧ sgn3 sc ec ≠ 0 := by
    unfold sgn3 iabs at *; split_ifs at * <;> omega
  have hn8 : n < 8 := by
    unfold inRange iabs at *; split_ifs at hn <;> omega
  have hstep : ∀ k : Nat, sr + sgn3 sr er + (k : Int) * sgn3 sr er
        = sr + ((k + 1 : Nat) : Int) * sgn3 sr er ∧
      sc + sgn3 sc ec + (k : Int) * sgn3 sc ec = sc + ((k + 1 : Nat) : Int) * sgn3 sc ec := by
    intro k; push_cast; constructor <;> ring
  have hin : ∀ k : Nat, k < n →
      inRange (sr + sgn3 sr er + k * sgn3 sr er) (sc + sgn3 sc ec + k * sgn3 sc ec) := by
    intro k hk
    unfold inRange iabs sgn3 at *
    split_ifs at * <;> simp only [mul_one, mul_neg, mul_zero] at * <;> omega
  obtain ⟨b, hb, hbi⟩ := bishop_walk_spec_to g hd n 8 hn8 her hec hin
  refine ⟨b, hb, hbi.trans ?_⟩
  unfold Clear
  rw [← hn]
  constructor
  · intro h k hk0 hk
    obtain ⟨j, rfl⟩ : ∃ j, k = j + 1 := ⟨k - 1, by omega⟩
    rw [← (hstep j).1, ← (hstep j).2]
    exact h j (by omega)
  · intro h k hk
    rw [(hstep k).1, (hstep k).2]
    exact h (k + 1) (by omega) (by push_cast; omega)

/-- Blockers that survive from `g1` to `g2`, except possibly on the two edge cells of the
target row, keep a line that is clear in `g2` clear in `g1`. -/
theorem clear_transfer {g1 g2 : Grid} {sr sc er ec : Int} (hs : inRange sr sc)
    (he : inRange er ec)
    (hblk : ∀ r c, ¬ (r = er ∧ (c = 0 ∨ c = 7)) → ∀ q, g1.read r c = some (some q) →
      ∃ q1, g2.read r c = some (some q1))
    (h : Clear g2 sr sc er ec) : Clear g1 sr sc er ec := by
  intro k hk0 hk
  have h2 := h k hk0 hk
  have hin := Grid.inRange_of_read h2
  obtain ⟨cell, hcell⟩ := Grid.read_of_inRange g1 hin
  cases cell with
  | none => exact hcell
  | some q =>
    have hedge : ¬ (sr + k * sgn3 sr er = er ∧
        (sc + k * sgn3 sc ec = 0 ∨ sc + k * sgn3 sc ec = 7)) := by
      unfold inRange iabs sgn3 at *
      split_ifs at * <;> simp only [mul_one, mul_neg, mul_zero] at * <;> omega
    obtain ⟨q1, hq1⟩ := hblk _ _ hedge q hcell
    rw [hq1] at h2
    cases h2

/-- Two runs of the rook loop agree as soon as both have fuel for the steps that lead to
a cell outside the array. -/
theorem rook_walk_fuel_irrelevant (g : Grid) (dr dc er ec : Int) :
    ∀ (m n1 n2 : Nat) (r c : Int), m < n1 → m < n2 →
      ¬ inRange (r + m * dr) (c + m * dc) →
      Rook.walk g dr dc er ec n1 r c = Rook.walk g dr dc er ec n2 r c := by
  intro m
  induction m with
  | zero =>
    intro n1 n2 r c h1 h2 hout
    obtain ⟨k1, rfl⟩ : ∃ k, n1 = k + 1 := ⟨n1 - 1, by omega⟩
    obtain ⟨k2, rfl⟩ : ∃ k, n2 = k + 1 := ⟨n2 - 1, by omega⟩
    simp only [Nat.cast_zero, zero_mul, add_zero] at hout
    have hr : g.read r c = none := (Grid.read_eq_none_iff g r c).2 hout
    simp only [Rook.walk, hr]
  | succ m ih =>
    intro n1 n2 r c h1 h2 hout
    obtain ⟨k1, rfl⟩ : ∃ k, n1 = k + 1 := ⟨n1 - 1, by omega⟩
    obtain ⟨k2, rfl⟩ : ∃ k, n2 = k + 1 := ⟨n2 - 1, by omega⟩
    have hnext : ¬ inRange (r + dr + m * dr) (c + dc + m * dc) := by
      have e1 : r + dr + (m : Int) * dr = r + ((m + 1 : Nat) : Int) * dr := by push_cast; ring
      have e2 : c + dc + (m : Int) * dc = c + ((m + 1 : Nat) : Int) * dc := by push_cast; ring
      rw [e1, e2]; exact hout
    have := ih k1 k2 (r + dr) (c + dc) (by omega) (by omega) hnext
    simp only [Rook.walk, this]

/-- The fuel of `Rook::isValidMove` is never what ends its loop: from a start cell on
the board, any larger fuel gives the same result. -/
theorem rook_walk_fuel (g : Grid) {sr sc : Int} (er ec : Int) (hs : inRange sr sc) (n : Nat)
    (hn : 8 ≤ n) :
    Rook.walk g (sgn3 sr er) (sgn3 sc ec) er ec n (sr + sgn3 sr er) (sc + sgn3 sc ec) =
      Rook.walk g (sgn3 sr er) (sgn3 sc ec) er ec 8 (sr + sgn3 sr er) (sc + sgn3 sc ec) := by
  by_cases hd : sgn3 sr er = 0 ∧ sgn3 sc ec = 0
  · have h1 : sr = er := by
      have := hd.1; unfold sgn3 at this; split_ifs at this <;> omega
    have h2 : sc = ec := by
      have := hd.2; unfold sgn3 at this; split_ifs at this <;> omega
    obtain ⟨k, rfl⟩ : ∃ k, n = k + 1 := ⟨n - 1, by omega⟩
    have hend : ∀ j : Nat, Rook.walk g 0 0 er ec (j + 1) er ec = some true := by
      intro j; simp [Rook.walk]
    rw [hd.1, hd.2, h1, h2, add_zero, add_zero, hend k, hend 7]
  · have hne : sr ≠ er ∨ sc ≠ ec := by
      by_contra hcon
      push_neg at hcon
      apply hd
      rw [hcon.1, hcon.2]
      simp [sgn3]
    clear hd
    apply rook_walk_fuel_irrelevant g _ _ er ec 7 n 8 _ _ (by omega) (by omega)
    unfold inRange sgn3 at *
    split_ifs at * <;> simp only [mul_one, mul_neg, mul_zero] at * <;> omega

/-- Two runs of the bishop loop agree as soon as both have fuel for the steps that lead
to a cell outside the array. -/
theorem bishop_walk_fuel_irrelevant (g : Grid) (dr dc er ec : Int) :
    ∀ (m n1 n2 : Nat) (r c : Int), m < n1 → m < n2 →
      ¬ inRange (r + m * dr) (c + m * dc) →
      Bishop.walk g dr dc er ec n1 r c = Bishop.walk g dr dc er ec n2 r c := by
  intro m
  induction m with
  | zero =>
    intro n1 n2 r c h1 h2 hout
    obtain ⟨k1, rfl⟩ : ∃ k, n1 = k + 1 := ⟨n1 - 1, by omega⟩
    obtain ⟨k2, rfl⟩ : ∃ k, n2 = k + 1 := ⟨n2 - 1, by omega⟩
    simp only [Nat.cast_zero, zero_mul, add_zero] at hout
    have hr : g.read r c = none := (Grid.read_eq_none_iff g r c).2 hout
    simp only [Bishop.walk, hr]
  | succ m ih =>
    intro n1 n2 r c h1 h2 hout
    obtain ⟨k1, rfl⟩ : ∃ k, n1 = k + 1 := ⟨n1 - 1, by omega⟩
    obtain ⟨k2, rfl⟩ : ∃ k, n2 = k + 1 := ⟨n2 - 1, by omega⟩
    have hnext : ¬ inRange (r + dr + m * dr) (c + dc + m * dc) := by
      have e1 : r + dr + (m : Int) * dr = r + ((m + 1 : Nat) : Int) * dr := by push_cast; ring
      have e2 : c + dc + (m : Int) * dc = c + ((m + 1 : Nat) : Int) * dc := by push_cast; ring
      rw [e1, e2]; exact hout
    have := ih k1 k2 (r + dr) (c + dc) (by omega) (by omega) hnext
    simp only [Bishop.walk, this]

/-- The fuel of `Bishop::isValidMove` is never what ends its loop. -/
theorem bishop_walk_fuel (g : Grid) {sr sc : Int} (er ec : Int) (hs : inRange sr sc) (n : Nat)
    (hn : 8 ≤ n) :
    Bishop.walk g (sgn2 sr er) (sgn2 sc ec) er ec n (sr + sgn2 sr er) (sc + sgn2 sc ec) =
      Bishop.walk g (sgn2 sr er) (sgn2 sc ec) er ec 8 (sr + sgn2 sr er) (sc + sgn2 sc ec) := by
  apply bishop_walk_fuel_irrelevant g _ _ er ec 7 n 8 _ _ (by omega) (by omega)
  unfold inRange sgn2 at *
  split_ifs at * <;> simp only [mul_one, mul_neg] at * <;> omega

/-- Two runs of the castle scan agree as soon as both have fuel for the steps that lead
to a cell outside the array. -/
theorem king_scan_fuel_irrelevant (g : Grid) (sr step rookCol : Int) :
    ∀ (m n1 n2 : Nat) (c : Int), m < n1 → m < n2 →
      ¬ inRange sr (c + m * step) →
      King.scan g sr step rookCol n1 c = King.scan g sr step rookCol n2 c := by
  intro m
  induction m with
  | zero =>
    intro n1 n2 c h1 h2 hout
    obtain ⟨k1, rfl⟩ : ∃ k, n1 = k + 1 := ⟨n1 - 1, by omega⟩
    obtain ⟨k2, rfl⟩ : ∃ k, n2 = k + 1 := ⟨n2 - 1, by omega⟩
    simp only [Nat.cast_zero, zero_mul, add_zero] at hout
    have hr : g.read sr c = none := (Grid.read_eq_none_iff g sr c).2 hout
    simp only [King.scan, hr]
  | succ m ih =>
    intro n1 n2 c h1 h2 hout
    obtain ⟨k1, rfl⟩ : ∃ k, n1 = k + 1 := ⟨n1 - 1, by omega⟩
    obtain ⟨k2, rfl⟩ : ∃ k, n2 = k + 1 := ⟨n2 - 1, by omega⟩
    have hnext : ¬ inRange sr (c + step + m * step) := by
      have e2 : c + step + (m : Int) * step = c + ((m + 1 : Nat) : Int) * step := by
        push_cast; ring
      rw [e2]; exact hout
    have := ih k1 k2 (c + step) (by omega) (by omega) hnext
    simp only [King.scan, this]

/-- The fuel of the castle scan of `King::isValidMove` is never what ends its loop. -/
theorem king_scan_fuel (g : Grid) {sr sc : Int} (ec : Int) (hs : inRange sr sc) (n : Nat)
    (hn : 8 ≤ n) :
    King.scan g sr (if ec > sc then 1 else -1) (if ec > sc then 7 else 0) n
        (sc + (if ec > sc then 1 else -1)) =
      King.scan g sr (if ec > sc then 1 else -1) (if ec > sc then 7 else 0) 8
        (sc + (if ec > sc then 1 else -1)) := by
  apply king_scan_fuel_irrelevant g _ _ _ 7 n 8 _ (by omega) (by omega)
  unfold inRange at *
  split_ifs <;> simp only [Nat.cast_ofNat, mul_one, mul_neg] <;> omega

/-! ### Attacks on an occupied cell when blockers are added -/

theorem landing_enemy {w : Bool} {g : Grid} {er ec : Int} {k : Piece}
    (ht : g.read er ec = some (some k)) (hk : k.isWhite ≠ w) : landing w g er ec = some true := by
  unfold landing; rw [ht]
  cases hw : k.isWhite <;> cases w <;> simp_all

theorem pawn_transfer {g1 g2 : Grid} {w : Bool} {sr sc er ec : Int} {k1 k2 : Piece}
    (ht1 : g1.read er ec = some (some k1)) (ht2 : g2.read er ec = some (some k2))
    (hk1 : k1.isWhite ≠ w) (hk2 : k2.isWhite ≠ w)
    (h1 : Pawn.isValidMove w sr sc er ec g1 = some false) :
    Pawn.isValidMove w sr sc er ec g2 = some false := by
  unfold Pawn.isValidMove at h1 ⊢
  simp only [ht1, ht2, ite_self] at h1 ⊢
  by_cases hgeo : iabs (ec - sc) = 1 ∧ er = sr + (if w = true then -1 else 1)
  · exfalso
    rw [if_pos hgeo] at h1
    cases hw : k1.isWhite <;> cases w <;> simp_all
  · rw [if_neg hgeo]

theorem knight_transfer {g1 g2 : Grid} {w : Bool} {sr sc er ec : Int} {k1 k2 : Piece}
    (ht1 : g1.read er ec = some (some k1)) (ht2 : g2.read er ec = some (some k2))
    (hk1 : k1.isWhite ≠ w) (hk2 : k2.isWhite ≠ w)
    (h1 : Knight.isValidMove w sr sc er ec g1 = some false) :
    Knight.isValidMove w sr sc er ec g2 = some false := by
  unfold Knight.isValidMove at h1 ⊢
  simp only [landing_enemy ht1 hk1, landing_enemy ht2 hk2] at h1 ⊢
  split at h1
  · cases h1
  · rename_i hgeo
    simp only [hgeo, if_false]

theorem rook_transfer {g1 g2 : Grid} {w : Bool} {sr sc er ec : Int} {k1 k2 : Piece}
    (hs : inRange sr sc) (hne : sr ≠ er ∨ sc ≠ ec)
    (ht1 : g1.read er ec = some (some k1)) (ht2 : g2.read er ec = some (some k2))
    (hk1 : k1.isWhite ≠ w) (hk2 : k2.isWhite ≠ w)
    (hblk : ∀ r c, ¬ (r = er ∧ (c = 0 ∨ c = 7)) → ∀ q, g1.read r c = some (some q) →
      ∃ q1, g2.read r c = some (some q1))
    (h1 : Rook.isValidMove w sr sc er ec g1 = some false) :
    Rook.isValidMove w sr sc er ec g2 = some false := by
  have he := Grid.inRange_of_read ht1
  unfold Rook.isValidMove at h1 ⊢
  split
  · rfl
  · rename_i hl
    have hline : sr = er ∨ sc = ec := by
      by_contra hh; push_neg at hh; exact hl hh
    simp only [hl, if_false, landing_enemy ht1 hk1, landing_enemy ht2 hk2] at h1 ⊢
    obtain ⟨b1, hb1, hi1⟩ := rook_walk_clear g1 hs he hline hne
    obtain ⟨b2, hb2, hi2⟩ := rook_walk_clear g2 hs he hline hne
    rw [hb1] at h1
    rw [hb2]
    cases b1
    · cases b2
      · rfl
      · exfalso
        have := hi1.2 (clear_transfer hs he hblk (hi2.1 rfl))
        cases this
    · simp at h1

theorem bishop_transfer {g1 g2 : Grid} {w : Bool} {sr sc er ec : Int} {k1 k2 : Piece}
    (hs : inRange sr sc) (hne : sr ≠ er ∨ sc ≠ ec)
    (ht1 : g1.read er ec = some (some k1)) (ht2 : g2.read er ec = some (some k2))
    (hk1 : k1.isWhite ≠ w) (hk2 : k2.isWhite ≠ w)
    (hblk : ∀ r c, ¬ (r = er ∧ (c = 0 ∨ c = 7)) → ∀ q, g1.read r c = some (some q) →
      ∃ q1, g2.read r c = some (some q1))
    (h1 : Bishop.isValidMove w sr sc er ec g1 = some false) :
    Bishop.isValidMove w sr sc er ec g2 = some false := by
  have he := Grid.inRange_of_read ht1
  unfold Bishop.isValidMove at h1 ⊢
  split
  · rfl
  · rename_i hl
    have hline : iabs (er - sr) = iabs (ec - sc) := not_not.1 hl
    simp only [hl, if_false, landing_enemy ht1 hk1, landing_enemy ht2 hk2] at h1 ⊢
    obtain ⟨b1, hb1, hi1⟩ := bishop_walk_clear g1 hs he hline hne
    obtain ⟨b2, hb2, hi2⟩ := bishop_walk_clear g2 hs he hline hne
    rw [hb1] at h1
    rw [hb2]
    cases b1
    · cases b2
      · rfl
      · exfalso
        have := hi1.2 (clear_transfer hs he hblk (hi2.1 rfl))
        cases this
    · simp at h1

theorem queen_transfer {g1 g2 : Grid} {w : Bool} {sr sc er ec : Int} {k1 k2 : Piece}
    (hs : inRange sr sc) (hne : sr ≠ er ∨ sc ≠ ec)
    (ht1 : g1.read er ec = some (some k1)) (ht2 : g2.read er ec = some (some k2))
    (hk1 : k1.isWhite ≠ w) (hk2 : k2.isWhite ≠ w)
    (hblk : ∀ r c, ¬ (r = er ∧ (c = 0 ∨ c = 7)) → ∀ q, g1.read r c = some (some q) →
      ∃ q1, g2.read r c = some (some q1))
    (h1 : Queen.isValidMove w sr sc er ec g1 = some false) :
    Queen.isValidMove w sr sc er ec g2 = some false := by
  have he := Grid.inRange_of_read ht1
  unfold Queen.isValidMove at h1 ⊢
  split
  · rename_i hline
    simp only [hline, if_true, landing_enemy ht1 hk1, landing_enemy ht2 hk2] at h1 ⊢
    obtain ⟨b1, hb1, hi1⟩ := rook_walk_clear g1 hs he hline hne
    obtain ⟨b2, hb2, hi2⟩ := rook_walk_clear g2 hs he hline hne
    rw [hb1] at h1
    rw [hb2]
    cases b1
    · cases b2
      · rfl
      · exfalso
        have := hi1.2 (clear_transfer hs he hblk (hi2.1 rfl))
        cases this
    · simp at h1
  · rename_i hnl
    simp only [hnl, if_false] at h1
    split
    · rename_i hline
      simp only [hline, if_true, landing_enemy ht1 hk1, landing_enemy ht2 hk2] at h1 ⊢
      obtain ⟨b1, hb1, hi1⟩ := bishop_walk_clear g1 hs he hline hne
      obtain ⟨b2, hb2, hi2⟩ := bishop_walk_clear g2 hs he hline hne
      rw [hb1] at h1
      rw [hb2]
      cases b1
      · cases b2
        · rfl
        · exfalso
          have := hi1.2 (clear_transfer hs he hblk (hi2.1 rfl))
          cases this
      · simp at h1
    · rfl

/-- The castle branch of `King::isValidMove` never accepts a destination that holds a
piece other than a rook. -/
theorem King.castle_occupied {g : Grid} {w moved : Bool} {sr sc er ec : Int} {k : Piece}
    (hs : inRange sr sc) (ht : g.read er ec = some (some k)) (hk : k.kind ≠ Kind.Rook)
    (hfar : ¬ (iabs (er - sr) ≤ 1 ∧ iabs (ec - sc) ≤ 1)) :
    King.isValidMove w moved sr sc er ec g = some false := by
  have he := Grid.inRange_of_read ht
  unfold King.isValidMove
  simp only [hfar, if_false]
  split
  · rename_i hc
    have hrow : er = sr := by
      have := hc.1; unfold iabs at this; split_ifs at this <;> omega
    subst hrow
    have hcorner : inRange er (if ec > sc then 7 else 0) := by
      unfold inRange at *; split <;> omega
    obtain ⟨cell, hcell⟩ := Grid.read_of_inRange g hcorner
    simp only [hcell]
    cases cell with
    | none => rfl
    | some rook =>
      simp only
      split
      · rename_i hrook
        have hne : ec ≠ (if ec > sc then 7 else 0) := by
          intro heq
          rw [← heq, ht] at hcell
          simp only [Option.some.injEq] at hcell
          rw [hcell] at hk
          exact hk hrook.1
        have hdc := hc.2.1
        by_cases hgt : ec > sc
        · simp only [hgt, if_true] at hne ⊢
          have hec : ec = sc + 2 := by unfold iabs at hdc; split_ifs at hdc <;> omega
          obtain ⟨b, hb, hbi⟩ := King.scan_spec g er 1 (by decide) (7 - (sc + 1)).toNat 8 (sc + 1)
            (by unfold inRange at *; omega)
            (by intro k hk; unfold inRange at *; omega)
          have h7 : sc + 1 + ((7 - (sc + 1)).toNat : Int) * 1 = 7 := by
            unfold inRange at *; omega
          rw [h7] at hb
          rw [hb]
          cases b
          · rfl
          · exfalso
            have := hbi.1 rfl 1 (by unfold inRange at *; omega)
            rw [show sc + 1 + ((1 : Nat) : Int) * 1 = ec by omega, ht] at this
            cases this
        · simp only [hgt, if_false] at hne ⊢
          have hec : ec = sc - 2 := by unfold iabs at hdc; split_ifs at hdc <;> omega
          obtain ⟨b, hb, hbi⟩ := King.scan_spec g er (-1) (by decide) (sc - 1).toNat 8 (sc + -1)
            (by unfold inRange at *; omega)
            (by intro k hk; unfold inRange at *; omega)
          have h0 : sc + -1 + ((sc - 1).toNat : Int) * -1 = 0 := by
            unfold inRange at *; omega
          rw [h0] at hb
          rw [hb]
          cases b
          · rfl
          · exfalso
            have := hbi.1 rfl 1 (by unfold inRange at *; omega)
            rw [show sc + -1 + ((1 : Nat) : Int) * -1 = ec by omega, ht] at this
            cases this
      · rfl
  · rfl

theorem king_transfer {g1 g2 : Grid} {w moved : Bool} {sr sc er ec : Int} {k1 k2 : Piece}
    (hs : inRange sr sc)
    (ht1 : g1.read er ec = some (some k1)) (ht2 : g2.read er ec = some (some k2))
    (hk1 : k1.isWhite ≠ w) (hk2r : k2.kind ≠ Kind.Rook)
    (h1 : King.isValidMove w moved sr sc er ec g1 = some false) :
    King.isValidMove w moved sr sc er ec g2 = some false := by
  by_cases hadj : iabs (er - sr) ≤ 1 ∧ iabs (ec - sc) ≤ 1
  · unfold King.isValidMove at h1
    simp only [hadj, and_self, if_true, landing_enemy ht1 hk1] at h1
    cases h1
  · exact King.castle_occupied hs ht2 hk2r hadj

theorem piece_transfer {g1 g2 : Grid} {q : Piece} {sr sc er ec : Int} {k1 k2 : Piece}
    (hs : inRange sr sc) (hne : sr ≠ er ∨ sc ≠ ec)
    (ht1 : g1.read er ec = some (some k1)) (ht2 : g2.read er ec = some (some k2))
    (hk1 : k1.isWhite ≠ q.isWhite) (hk2 : k2.isWhite ≠ q.isWhite) (hk2r : k2.kind ≠ Kind.Rook)
    (hblk : ∀ r c, ¬ (r = er ∧ (c = 0 ∨ c = 7)) → ∀ p, g1.read r c = some (some p) →
      ∃ p1, g2.read r c = some (some p1))
    (h1 : q.isValidMove sr sc er ec g1 = some false) :
    q.isValidMove sr sc er ec g2 = some false := by
  unfold Piece.isValidMove at h1 ⊢
  cases hq : q.kind <;> simp only [hq] at h1 ⊢
  · exact pawn_transfer ht1 ht2 hk1 hk2 h1
  · exact rook_transfer hs hne ht1 ht2 hk1 hk2 hblk h1
  · exact knight_transfer ht1 ht2 hk1 hk2 h1
  · exact bishop_transfer hs hne ht1 ht2 hk1 hk2 hblk h1
  · exact queen_transfer hs hne ht1 ht2 hk1 hk2 hblk h1
  · exact king_transfer hs ht1 ht2 hk1 hk2r h1

/-! ### `isSquareAttacked`, `findKing` and accepted moves -/

theorem Board.attackedFrom_false_iff (g : Grid) (row col : Int) (w : Bool) :
    ∀ l : List (Int × Int), (∀ rc ∈ l, inRange rc.1 rc.2) →
      (Board.attackedFrom g row col w l = some false ↔
        ∀ rc ∈ l, ∀ p, g.read rc.1 rc.2 = some (some p) → p.isWhite = w →
          p.isValidMove rc.1 rc.2 row col g = some false) := by
  intro l
  induction l with
  | nil => intro _; simp [Board.attackedFrom]
  | cons rc rest ih =>
    intro hl
    have hin := hl rc (List.mem_cons_self _ _)
    have ih1 := ih (fun x hx => hl x (List.mem_cons_of_mem _ hx))
    obtain ⟨cell, hcell⟩ := Grid.read_of_inRange g hin
    rw [Board.attackedFrom, hcell]
    cases cell with
    | none =>
      simp only [ih1, List.mem_cons, forall_eq_or_imp, hcell]
      simp
    | some p =>
      simp only [List.mem_cons, forall_eq_or_imp, hcell, Option.some.injEq, forall_eq']
      by_cases hw : p.isWhite = w
      · simp only [hw, if_true, true_implies]
        cases hv : p.isValidMove rc.1 rc.2 row col g with
        | none => simp
        | some v =>
          cases v
          · simp only [ih1, true_and]
          · simp
      · simp only [hw, if_false, false_implies, true_and, ih1]

theorem Board.isSquareAttacked_false_iff (g : Grid) (row col : Int) (w : Bool) :
    Board.isSquareAttacked g row col w = some false ↔
      ∀ r c p, g.read r c = some (some p) → p.isWhite = w →
        p.isValidMove r c row col g = some false := by
  unfold Board.isSquareAttacked
  rw [Board.attackedFrom_false_iff g row col w allSquares
    (fun rc h => (mem_allSquares rc.1 rc.2).1 h)]
  constructor
  · intro h r c p hp hw
    exact h (r, c) ((mem_allSquares r c).2 (Grid.inRange_of_read hp)) p hp hw
  · intro h rc _ p hp hw
    exact h rc.1 rc.2 p hp hw

theorem Board.findKing_eq (g : Grid) (w : Bool) :
    Board.findKing g w =
      match allSquares.find? (fun rc => isKingCell w (g.read rc.1 rc.2)) with
      | some rc => rc
      | none => (-1, -1) := by
  unfold Board.findKing isKingCell
  rfl

theorem Board.findKing_congr {g1 g2 : Grid} {w : Bool}
    (h : ∀ r c, isKingCell w (g1.read r c) = isKingCell w (g2.read r c)) :
    Board.findKing g1 w = Board.findKing g2 w := by
  rw [Board.findKing_eq, Board.findKing_eq]
  have : (fun rc : Int × Int => isKingCell w (g1.read rc.1 rc.2)) =
      (fun rc : Int × Int => isKingCell w (g2.read rc.1 rc.2)) := by
    funext rc; exact h _ _
  rw [this]

theorem isKingCell_iff (w : Bool) (cell : Option (Option Piece)) :
    isKingCell w cell = true ↔
      ∃ p, cell = some (some p) ∧ p.kind = Kind.King ∧ p.isWhite = w := by
  unfold isKingCell
  cases cell with
  | none => simp
  | some c =>
    cases c with
    | none => simp
    | some p => simp

theorem Board.findKing_spec {g : Grid} {w : Bool} {r c : Int} {k : Piece}
    (hk : g.read r c = some (some k)) (hkk : k.kind = Kind.King) (hkw : k.isWhite = w) :
    ∃ p, g.read (Board.findKing g w).1 (Board.findKing g w).2 = some (some p) ∧
      p.kind = Kind.King ∧ p.isWhite = w := by
  rw [Board.findKing_eq]
  cases hf : allSquares.find? (fun rc => isKingCell w (g.read rc.1 rc.2)) with
  | none =>
    exfalso
    rw [List.find?_eq_none] at hf
    have := hf (r, c) ((mem_allSquares r c).2 (Grid.inRange_of_read hk))
    simp only [Bool.not_eq_true] at this
    have h2 : isKingCell w (g.read r c) = true := (isKingCell_iff w _).2 ⟨k, hk, hkk, hkw⟩
    rw [h2] at this
    cases this
  | some rc =>
    have := List.find?_some hf
    exact (isKingCell_iff w _).1 this

theorem landing_true {w : Bool} {g : Grid} {er ec : Int} (h : landing w g er ec = some true) :
    g.read er ec = some none ∨ ∃ q, g.read er ec = some (some q) ∧ q.isWhite ≠ w := by
  unfold landing at h
  split at h
  · cases h
  · left; assumption
  · rename_i q hq
    right
    refine ⟨q, hq, ?_⟩
    simp only [Option.some.injEq, bne_iff_ne, ne_eq] at h
    exact h

/-- A move accepted by a piece rule lands on an empty cell or on a piece of the other
colour, unless it is a two-column king move. -/
theorem Piece.isValidMove_true_target {p : Piece} {g : Grid} {sr sc er ec : Int}
    (h : p.isValidMove sr sc er ec g = some true)
    (hnc : ¬ (p.kind = Kind.King ∧ iabs (ec - sc) = 2)) :
    g.read er ec = some none ∨ ∃ q, g.read er ec = some (some q) ∧ q.isWhite ≠ p.isWhite := by
  unfold Piece.isValidMove at h
  cases hk : p.kind <;> simp only [hk] at h
  · -- pawn
    cases hcell : g.read er ec with
    | none => simp [Pawn.isValidMove, hcell] at h
    | some cell =>
      cases cell with
      | none => left; rfl
      | some q =>
        right
        refine ⟨q, rfl, ?_⟩
        simp only [Pawn.isValidMove, hcell, ite_self] at h
        by_cases hgeo : iabs (ec - sc) = 1 ∧ er = sr + (if p.isWhite = true then -1 else 1)
        · rw [if_pos hgeo] at h
          simpa using h
        · rw [if_neg hgeo] at h
          cases h
  · -- rook
    simp only [Rook.isValidMove] at h
    split at h
    · cases h
    · split at h
      · cases h
      · cases h
      · exact landing_true h
  · -- knight
    simp only [Knight.isValidMove] at h
    split at h
    · exact landing_true h
    · cases h
  · -- bishop
    simp only [Bishop.isValidMove] at h
    split at h
    · cases h
    · split at h
      · cases h
      · cases h
      · exact landing_true h
  · -- queen
    simp only [Queen.isValidMove] at h
    split at h
    · split at h
      · cases h
      · cases h
      · exact landing_true h
    · split at h
      · split at h
        · cases h
        · cases h
        · exact landing_true h
      · cases h
  · -- king
    simp only [King.isValidMove] at h
    split at h
    · exact landing_true h
    · split at h
      · rename_i hc
        exact absurd ⟨hk, hc.2.1⟩ hnc
      · cases h

/-- What the castle branch of `King::isValidMove` has checked when it accepts. -/
theorem King.castle_true {g : Grid} {w moved : Bool} {sr sc er ec : Int}
    (h : King.isValidMove w moved sr sc er ec g = some true) (hdc : iabs (ec - sc) = 2) :
    er = sr ∧ moved = false ∧
      ∃ rook, g.read sr (if ec > sc then 7 else 0) = some (some rook) ∧
        rook.kind = Kind.Rook ∧ rook.hasMoved = false ∧
        King.scan g sr (if ec > sc then 1 else -1) (if ec > sc then 7 else 0) 8
          (sc + (if ec > sc then 1 else -1)) = some true := by
  have hfar : ¬ (iabs (er - sr) ≤ 1 ∧ iabs (ec - sc) ≤ 1) := by
    rw [hdc]; omega
  simp only [King.isValidMove, hfar, if_false] at h
  split at h
  · rename_i hc
    have hrow : er = sr := by
      have := hc.1; unfold iabs at this; split_ifs at this <;> omega
    refine ⟨hrow, hc.2.2, ?_⟩
    split at h
    · cases h
    · cases h
    · rename_i rook hrook
      split at h
      · rename_i hr
        exact ⟨rook, hrook, hr.1, hr.2, h⟩
      · cases h
  · cases h

/-- A castle accepted from column 4: the cells between king and rook are empty. -/
theorem King.castle_true_e {g : Grid} {w moved : Bool} {sr er ec : Int}
    (h : King.isValidMove w moved sr 4 er ec g = some true) (hdc : iabs (ec - 4) = 2) :
    er = sr ∧ moved = false ∧
      ((ec = 6 ∧ g.read sr 5 = some none ∧ g.read sr 6 = some none ∧
          ∃ rook, g.read sr 7 = some (some rook) ∧ rook.kind = Kind.Rook ∧
            rook.hasMoved = false) ∨
       (ec = 2 ∧ g.read sr 3 = some none ∧ g.read sr 2 = some none ∧
          g.read sr 1 = some none ∧
          ∃ rook, g.read sr 0 = some (some rook) ∧ rook.kind = Kind.Rook ∧
            rook.hasMoved = false)) := by
  obtain ⟨hrow, hm, rook, hrook, hrk, hrm, hscan⟩ := King.castle_true h hdc
  refine ⟨hrow, hm, ?_⟩
  have hec : ec = 6 ∨ ec = 2 := by
    unfold iabs at hdc; split_ifs at hdc <;> omega
  rcases hec with rfl | rfl
  · left
    simp only [show (6 : Int) > 4 by decide, if_true] at hrook hscan
    refine ⟨rfl, ?_, ?_, rook, hrook, hrk, hrm⟩
    · simp only [King.scan, show (4 : Int) + 1 = 5 by decide, show (5 : Int) ≠ 7 by decide,
        ne_eq, not_false_eq_true, if_true] at hscan
      cases h5 : g.read sr 5 with
      | none => simp [h5] at hscan
      | some c5 =>
        cases c5 with
        | none => rfl
        | some _ => simp [h5] at hscan
    · simp only [King.scan, show (4 : Int) + 1 = 5 by decide, show (5 : Int) ≠ 7 by decide,
        ne_eq, not_false_eq_true, if_true, show (5 : Int) + 1 = 6 by decide,
        show (6 : Int) ≠ 7 by decide] at hscan
      cases h5 : g.read sr 5 with
      | none => simp [h5] at hscan
      | some c5 =>
        cases c5 with
        | some _ => simp [h5] at hscan
        | none =>
          simp only [h5] at hscan
          cases h6 : g.read sr 6 with
          | none => simp [h6] at hscan
          | some c6 =>
            cases c6 with
            | none => rfl
            | some _ => simp [h6] at hscan
  · right
    simp only [show ¬ ((2 : Int) > 4) by decide, if_false] at hrook hscan
    simp only [King.scan, show (4 : Int) + -1 = 3 by decide, show (3 : Int) ≠ 0 by decide,
      ne_eq, not_false_eq_true, if_true, show (3 : Int) + -1 = 2 by decide,
      show (2 : Int) ≠ 0 by decide, show (2 : Int) + -1 = 1 by decide,
      show (1 : Int) ≠ 0 by decide] at hscan
    cases h3 : g.read sr 3 with
    | none => simp [h3] at hscan
    | some c3 =>
      cases c3 with
      | some _ => simp [h3] at hscan
      | none =>
        simp only [h3] at hscan
        cases h2 : g.read sr 2 with
        | none => simp [h2] at hscan
        | some c2 =>
          cases c2 with
          | some _ => simp [h2] at hscan
          | none =>
            simp only [h2] at hscan
            cases h1 : g.read sr 1 with
            | none => simp [h1] at hscan
            | some c1 =>
              cases c1 with
              | some _ => simp [h1] at hscan
              | none => exact ⟨rfl, rfl, rfl, rfl, rook, hrook, hrk, hrm⟩

theorem Board.isInCheck_transfer (g1 g2 : Grid) {w : Bool}
    (hkc : ∀ r c, isKingCell w (g1.read r c) = isKingCell w (g2.read r c))
    (hex : ∃ r c k, g1.read r c = some (some k) ∧ k.kind = Kind.King ∧ k.isWhite = w)
    (hatt : ∀ r c q, g2.read r c = some (some q) → q.isWhite = (!w) →
      g1.read r c = some (some q))
    (hblk : ∀ r c, ¬ (r = (Board.findKing g1 w).1 ∧ (c = 0 ∨ c = 7)) →
      ∀ p, g1.read r c = some (some p) → ∃ p1, g2.read r c = some (some p1))
    (h1 : Board.isInCheck g1 w = some false) : Board.isInCheck g2 w = some false := by
  obtain ⟨r0, c0, k0, hk0, hk0k, hk0w⟩ := hex
  obtain ⟨p1, hp1, hp1k, hp1w⟩ := Board.findKing_spec hk0 hk0k hk0w
  have hf : Board.findKing g2 w = Board.findKing g1 w := (Board.findKing_congr hkc).symm
  have hflag : isKingCell w (g2.read (Board.findKing g1 w).1 (Board.findKing g1 w).2) = true := by
    rw [← hkc]; exact (isKingCell_iff w _).2 ⟨p1, hp1, hp1k, hp1w⟩
  obtain ⟨p2, hp2, hp2k, hp2w⟩ := (isKingCell_iff w _).1 hflag
  unfold Board.isInCheck at h1 ⊢
  simp only [hf] at h1 ⊢
  rw [Board.isSquareAttacked_false_iff] at h1 ⊢
  intro r c q hq hqw
  have hq1 := hatt r c q hq hqw
  have hv := h1 r c q hq1 hqw
  have hne : r ≠ (Board.findKing g1 w).1 ∨ c ≠ (Board.findKing g1 w).2 := by
    by_contra hh
    push_neg at hh
    rw [hh.1, hh.2, hp1] at hq1
    simp only [Option.some.injEq] at hq1
    rw [← hq1, hp1w] at hqw
    cases w <;> simp at hqw
  have hc1 : p1.isWhite ≠ q.isWhite := by
    rw [hp1w, hqw]; cases w <;> simp
  have hc2 : p2.isWhite ≠ q.isWhite := by
    rw [hp2w, hqw]; cases w <;> simp
  have hr2 : p2.kind ≠ Kind.Rook := by rw [hp2k]; decide
  exact piece_transfer (Grid.inRange_of_read hq) hne hp1 hp2 hc1 hc2 hr2 hblk hv

/-! ### The mover is not in check after `movePiece` -/

theorem Grid.read_moved (g : Grid) (p : Piece) {sr sc er ec : Int} (hs : inRange sr sc)
    (he : inRange er ec) (r c : Int) :
    (g.moved p sr sc er ec).read r c =
      if r = sr ∧ c = sc then some none
      else if r = er ∧ c = ec then some (some p) else g.read r c := by
  unfold Grid.moved
  rw [Grid.read_set _ _ hs, Grid.read_set _ _ he]

theorem Grid.read_epMoved (g : Grid) (p : Piece) {sr sc er ec : Int} (hs : inRange sr sc)
    (he : inRange er ec) (r c : Int) :
    (g.epMoved p sr sc er ec).read r c =
      if r = sr ∧ c = sc then some none
      else if r = er ∧ c = ec then some (some p)
      else if r = sr ∧ c = ec then some none else g.read r c := by
  have ht : inRange sr ec := ⟨hs.1, hs.2.1, he.2.2.1, he.2.2.2⟩
  unfold Grid.epMoved
  rw [Grid.read_set _ _ hs, Grid.read_set _ _ he, Grid.read_set _ _ ht]

theorem isKingCell_setMoved (w : Bool) (p : Piece) :
    isKingCell w (some (some p.setMoved)) = isKingCell w (some (some p)) := rfl

theorem isKingCell_none (w : Bool) : isKingCell w (some none) = false := rfl

theorem isKingCell_of_not_king (w : Bool) {p : Piece} (h : p.kind ≠ Kind.King) :
    isKingCell w (some (some p)) = false := by
  simp [isKingCell, h]

/-- An accepted move never starts and ends on the same cell. -/
theorem Piece.isValidMove_ne {p : Piece} {g : Grid} {sr sc er ec : Int}
    (hs : g.read sr sc = some (some p))
    (h : p.isValidMove sr sc er ec g = some true) : ¬ (er = sr ∧ ec = sc) := by
  rintro ⟨rfl, rfl⟩
  have hnc : ¬ (p.kind = Kind.King ∧ iabs (ec - ec) = 2) := by
    rintro ⟨_, h2⟩
    simp [iabs] at h2
  rcases Piece.isValidMove_true_target h hnc with h1 | ⟨q, h1, h2⟩
  · rw [hs] at h1; cases h1
  · rw [hs] at h1
    simp only [Option.some.injEq] at h1
    exact h2 (by rw [h1])

theorem Board.safe_ep {b : Board} {p : Piece} {sr sc er ec : Int} {w : Bool}
    (hs : b.squares.read sr sc = some (some p)) (hw : p.isWhite = w)
    (hep : b.enPassantTest p sr sc er ec = some true)
    (hc : Board.isInCheck (b.squares.epMoved p sr sc er ec) w = some false)
    (hex : ∃ r c k, b.squares.read r c = some (some k) ∧ k.kind = Kind.King ∧ k.isWhite = w) :
    Board.isInCheck ((b.squares.epMoved p sr sc er ec).set er ec (some p.setMoved)) w
      = some false := by
  obtain ⟨hpk, hdr, hdc, he, _, ⟨adj, ht, hadj⟩, _⟩ :=
    (Board.enPassantTest_true_iff _ _ _ _ _ _).1 hep
  have hsr := Grid.inRange_of_read hs
  have her := Grid.inRange_of_read he
  have hne : ¬ (er = sr ∧ ec = sc) := by
    rintro ⟨h1, h2⟩; rw [h1, h2, hs] at he; cases he
  apply Board.isInCheck_transfer (b.squares.epMoved p sr sc er ec) _ _ _ _ _ hc
  · intro r c
    rw [Grid.read_set _ _ her, Grid.read_epMoved _ _ hsr her]
    by_cases h1 : r = er ∧ c = ec
    · have h2 : ¬ (r = sr ∧ c = sc) := by rw [h1.1, h1.2]; exact hne
      simp only [h1, and_self, if_true, h2, if_false, isKingCell_setMoved]
      rw [if_neg hne]
    · simp only [h1, if_false]
  · obtain ⟨r, c, k, hk, hkk, hkw⟩ := hex
    refine ⟨r, c, k, ?_, hkk, hkw⟩
    rw [Grid.read_epMoved _ _ hsr her]
    have h1 : ¬ (r = sr ∧ c = sc) := by
      rintro ⟨rfl, rfl⟩; rw [hs] at hk
      simp only [Option.some.injEq] at hk
      rw [hk, hkk] at hpk; cases hpk
    have h2 : ¬ (r = er ∧ c = ec) := by
      rintro ⟨rfl, rfl⟩; rw [he] at hk; cases hk
    have h3 : ¬ (r = sr ∧ c = ec) := by
      rintro ⟨rfl, rfl⟩; rw [ht] at hk
      simp only [Option.some.injEq] at hk
      rw [hk, hkk] at hadj; cases hadj
    simp only [h1, h2, h3, if_false]
    exact hk
  · intro r c q hq hqw
    rw [Grid.read_set _ _ her] at hq
    by_cases h1 : r = er ∧ c = ec
    · simp only [h1, and_self, if_true, Option.some.injEq] at hq
      rw [← hq] at hqw
      simp only [Piece.setMoved] at hqw
      rw [hw] at hqw
      cases w <;> simp at hqw
    · simp only [h1, if_false] at hq
      exact hq
  · intro r c _ q hq
    rw [Grid.read_set _ _ her]
    by_cases h1 : r = er ∧ c = ec
    · exact ⟨p.setMoved, by simp only [h1, and_self, if_true]⟩
    · exact ⟨q, by simp only [h1, if_false]; exact hq⟩

theorem Board.safe_plain {b : Board} {p x : Piece} {sr sc er ec : Int} {w : Bool} {g2 : Grid}
    (hs : b.squares.read sr sc = some (some p)) (hw : p.isWhite = w) (he : inRange er ec)
    (hv : p.isValidMove sr sc er ec b.squares = some true)
    (hnc : ¬ (p.kind = Kind.King ∧ iabs (ec - sc) = 2))
    (hc : Board.isInCheck (b.squares.moved p sr sc er ec) w = some false)
    (hex : ∃ r c k, b.squares.read r c = some (some k) ∧ k.kind = Kind.King ∧ k.isWhite = w)
    (hxw : x.isWhite = w) (hxk : x.kind = Kind.King ↔ p.kind = Kind.King)
    (hread : ∀ r c, g2.read r c =
      if r = er ∧ c = ec then some (some x) else (b.squares.moved p sr sc er ec).read r c) :
    Board.isInCheck g2 w = some false := by
  have hsr := Grid.inRange_of_read hs
  have hne := Piece.isValidMove_ne hs hv
  have hkx : isKingCell w (some (some x)) = isKingCell w (some (some p)) := by
    simp only [isKingCell, hxw, hw]
    by_cases hpk : p.kind = Kind.King
    · simp [hpk, hxk.2 hpk]
    · have : x.kind ≠ Kind.King := fun h => hpk (hxk.1 h)
      simp [hpk, this]
  apply Board.isInCheck_transfer (b.squares.moved p sr sc er ec) _ _ _ _ _ hc
  · intro r c
    rw [hread, Grid.read_moved _ _ hsr he]
    by_cases h1 : r = er ∧ c = ec
    · have h2 : ¬ (r = sr ∧ c = sc) := by rw [h1.1, h1.2]; exact hne
      simp only [h1, and_self, if_true, h2, if_false, hkx]
      rw [if_neg hne]
    · simp only [h1, if_false]
  · by_cases hpk : p.kind = Kind.King
    · refine ⟨er, ec, p, ?_, hpk, hw⟩
      rw [Grid.read_moved _ _ hsr he]
      simp only [hne, if_false, and_self, if_true]
    · obtain ⟨r, c, k, hk, hkk, hkw⟩ := hex
      refine ⟨r, c, k, ?_, hkk, hkw⟩
      rw [Grid.read_moved _ _ hsr he]
      have h1 : ¬ (r = sr ∧ c = sc) := by
        rintro ⟨rfl, rfl⟩; rw [hs] at hk
        simp only [Option.some.injEq] at hk
        rw [hk] at hpk; exact hpk hkk
      have h2 : ¬ (r = er ∧ c = ec) := by
        rintro ⟨rfl, rfl⟩
        rcases Piece.isValidMove_true_target hv hnc with h3 | ⟨q, h3, h4⟩
        · rw [hk] at h3; cases h3
        · rw [hk] at h3
          simp only [Option.some.injEq] at h3
          rw [← h3, hkw, hw] at h4
          exact h4 rfl
      simp only [h1, h2, if_false]
      exact hk
  · intro r c q hq hqw
    rw [hread] at hq
    by_cases h1 : r = er ∧ c = ec
    · simp only [h1, and_self, if_true, Option.some.injEq] at hq
      rw [← hq, hxw] at hqw
      cases w <;> simp at hqw
    · simp only [h1, if_false] at hq
      exact hq
  · intro r c _ q hq
    rw [hread]
    by_cases h1 : r = er ∧ c = ec
    · exact ⟨x, by simp only [h1, and_self, if_true]⟩
    · exact ⟨q, by simp only [h1, if_false]; exact hq⟩

theorem bool_eq_not_of_ne {a b : Bool} (h : a ≠ b) : a = !b := by
  cases a <;> cases b <;> simp_all

theorem bool_not_ne (w : Bool) : w ≠ !w := by cases w <;> simp

theorem Rook.attack_of_clear {g : Grid} {w : Bool} {sr sc er ec : Int} {k : Piece}
    (hs : inRange sr sc) (ht : g.read er ec = some (some k)) (hk : k.isWhite ≠ w)
    (hline : sr = er ∨ sc = ec) (hne : sr ≠ er ∨ sc ≠ ec) (hclear : Clear g sr sc er ec) :
    Rook.isValidMove w sr sc er ec g = some true := by
  have he := Grid.inRange_of_read ht
  obtain ⟨b, hb, hbi⟩ := rook_walk_clear g hs he hline hne
  have hbt : b = true := hbi.2 hclear
  subst hbt
  have hl : ¬ (sr ≠ er ∧ sc ≠ ec) := by
    rintro ⟨h1, h2⟩; rcases hline with h | h
    · exact h1 h
    · exact h2 h
  simp only [Rook.isValidMove, hl, if_false, hb, landing_enemy ht hk]

theorem Board.safe_castle_core {b : Board} {p rk : Piece} {sr sc ec : Int} (corner new : Int)
    {w : Bool} {g2 : Grid}
    (hs : b.squares.read sr sc = some (some p)) (hw : p.isWhite = w) (he : inRange sr ec)
    (hpk : p.kind = Kind.King)
    (hcheck : Board.isInCheck (b.squares.moved p sr sc sr ec) w = some false)
    (huniq : ∀ r c k, b.squares.read r c = some (some k) → k.kind = Kind.King →
      k.isWhite = w → r = sr ∧ c = sc)
    (hcorner : corner = 0 ∨ corner = 7)
    (hrk : b.squares.read sr corner = some (some rk)) (hrkk : rk.kind = Kind.Rook)
    (hnew : b.squares.read sr new = some none)
    (hd1 : ec ≠ sc) (hd2 : corner ≠ ec) (hd3 : new ≠ ec)
    (hclear : Clear (b.squares.moved p sr sc sr ec) sr corner sr ec)
    (hread : ∀ r c, g2.read r c =
      if r = sr ∧ c = new then some (some rk.setMoved)
      else if r = sr ∧ c = corner then some none
      else if r = sr ∧ c = ec then some (some p.setMoved)
      else (b.squares.moved p sr sc sr ec).read r c) :
    Board.isInCheck g2 w = some false := by
  have hsr := Grid.inRange_of_read hs
  have hcr := Grid.inRange_of_read hrk
  have hd4 : corner ≠ sc := by
    rintro rfl; rw [hs] at hrk
    simp only [Option.some.injEq] at hrk
    rw [hrk, hrkk] at hpk; cases hpk
  have hd5 : new ≠ sc := by
    rintro rfl; rw [hs] at hnew; cases hnew
  have hd6 : new ≠ corner := by
    rintro rfl; rw [hrk] at hnew; cases hnew
  -- the moved board
  have hg1e : (b.squares.moved p sr sc sr ec).read sr ec = some (some p) := by
    rw [Grid.read_moved _ _ hsr he]
    simp [hd1]
  have hg1c : (b.squares.moved p sr sc sr ec).read sr corner = some (some rk) := by
    rw [Grid.read_moved _ _ hsr he]
    simp [hd4, hd2, hrk]
  have hg1n : (b.squares.moved p sr sc sr ec).read sr new = some none := by
    rw [Grid.read_moved _ _ hsr he]
    simp [hd5, hd3, hnew]
  -- the king found on the moved board is the one that castled
  have hfk : Board.findKing (b.squares.moved p sr sc sr ec) w = (sr, ec) := by
    obtain ⟨k, hk, hkk, hkw⟩ := Board.findKing_spec hg1e hpk hw
    generalize Board.findKing (b.squares.moved p sr sc sr ec) w = kp at hk ⊢
    obtain ⟨kr, kc⟩ := kp
    simp only at hk
    rw [Grid.read_moved _ _ hsr he] at hk
    by_cases h1 : kr = sr ∧ kc = sc
    · simp only [h1, and_self, if_true] at hk; cases hk
    · by_cases h2 : kr = sr ∧ kc = ec
      · rw [h2.1, h2.2]
      · simp only [h1, h2, if_false] at hk
        exact absurd (huniq kr kc k hk hkk hkw) h1
  -- the rook is of the mover's colour
  have hrkw : rk.isWhite = w := by
    by_contra hcon
    have hcol : rk.isWhite = (!w) := bool_eq_not_of_ne hcon
    have hatt := hcheck
    unfold Board.isInCheck at hatt
    simp only [hfk] at hatt
    rw [Board.isSquareAttacked_false_iff] at hatt
    have h1 := hatt sr corner rk hg1c hcol
    have h2 : rk.isValidMove sr corner sr ec (b.squares.moved p sr sc sr ec) = some true := by
      unfold Piece.isValidMove
      simp only [hrkk]
      exact Rook.attack_of_clear hcr hg1e (by rw [hw]; exact fun h => hcon h.symm)
        (Or.inl rfl) (Or.inr hd2) hclear
    rw [h1] at h2
    cases h2
  apply Board.isInCheck_transfer (b.squares.moved p sr sc sr ec) _ _ _ _ _ hcheck
  · intro r c
    rw [hread]
    by_cases h1 : r = sr ∧ c = new
    · rw [if_pos h1, h1.1, h1.2, hg1n, isKingCell_none, isKingCell_of_not_king]
      simp only [Piece.setMoved, hrkk]; decide
    · rw [if_neg h1]
      by_cases h2 : r = sr ∧ c = corner
      · rw [if_pos h2, h2.1, h2.2, hg1c, isKingCell_none, isKingCell_of_not_king]
        rw [hrkk]; decide
      · rw [if_neg h2]
        by_cases h3 : r = sr ∧ c = ec
        · rw [if_pos h3, h3.1, h3.2, hg1e, isKingCell_setMoved]
        · rw [if_neg h3]
  · exact ⟨sr, ec, p, hg1e, hpk, hw⟩
  · intro r c q hq hqw
    rw [hread] at hq
    by_cases h1 : r = sr ∧ c = new
    · rw [if_pos h1] at hq
      simp only [Option.some.injEq] at hq
      rw [← hq] at hqw
      simp only [Piece.setMoved] at hqw
      rw [hrkw] at hqw
      exact absurd hqw (bool_not_ne w)
    · rw [if_neg h1] at hq
      by_cases h2 : r = sr ∧ c = corner
      · rw [if_pos h2] at hq
        cases hq
      · rw [if_neg h2] at hq
        by_cases h3 : r = sr ∧ c = ec
        · rw [if_pos h3] at hq
          simp only [Option.some.injEq] at hq
          rw [← hq] at hqw
          simp only [Piece.setMoved] at hqw
          rw [hw] at hqw
          exact absurd hqw (bool_not_ne w)
        · rw [if_neg h3] at hq
          exact hq
  · intro r c hedge q hq
    rw [hfk] at hedge
    rw [hread]
    by_cases h1 : r = sr ∧ c = new
    · exact ⟨rk.setMoved, by rw [if_pos h1]⟩
    · by_cases h2 : r = sr ∧ c = corner
      · exfalso
        apply hedge
        refine ⟨h2.1, ?_⟩
        rw [h2.2]; exact hcorner
      · by_cases h3 : r = sr ∧ c = ec
        · exact ⟨p.setMoved, by rw [if_neg h1, if_neg h2, if_pos h3]⟩
        · exact ⟨q, by rw [if_neg h1, if_neg h2, if_neg h3]; exact hq⟩

theorem Board.safe_castle {b : Board} {p : Piece} {sr er ec : Int} {w : Bool} {b1 : Board}
    (hs : b.squares.read sr 4 = some (some p)) (hw : p.isWhite = w) (he : inRange er ec)
    (hpk : p.kind = Kind.King) (hdc : iabs (ec - 4) = 2)
    (hv : King.isValidMove p.isWhite p.hasMoved sr 4 er ec b.squares = some true)
    (hcheck : Board.isInCheck (b.squares.moved p sr 4 er ec) w = some false)
    (huniq : ∀ r c k, b.squares.read r c = some (some k) → k.kind = Kind.King →
      k.isWhite = w → r = sr ∧ c = 4)
    (hcm : Board.commitMove (b.squares.moved p sr 4 er ec) p sr 4 er ec = some (true, b1)) :
    Board.isInCheck b1.squares w = some false := by
  have hsr := Grid.inRange_of_read hs
  obtain ⟨hrow, _, hside⟩ := King.castle_true_e hv hdc
  subst hrow
  obtain ⟨g2, rook, hrook, hcm2, hread⟩ := Board.commitMove_castle
    (b.squares.moved p er 4 er ec) p er 4 er ec ⟨hpk, hdc⟩ hsr he
  rw [hcm2] at hcm
  simp only [Option.some.injEq, Prod.mk.injEq, true_and] at hcm
  subst hcm
  simp only
  rcases hside with ⟨rfl, h5, h6, rk, hrk, hrkk, _⟩ | ⟨rfl, h3, h2, h1, rk, hrk, hrkk, _⟩
  · simp only [show (6 : Int) > 4 by decide, if_true, show (6 : Int) - 1 = 5 by decide]
      at hrook hread
    rw [Grid.read_set _ _ he, Grid.read_moved _ _ hsr he] at hrook
    simp only [show ¬ ((7 : Int) = 6) by decide, show ¬ ((7 : Int) = 4) by decide, and_false,
      if_false, hrk, Option.some.injEq] at hrook
    subst hrook
    simp only [Option.map_some'] at hread
    refine Board.safe_castle_core 7 5 hs hw he hpk hcheck huniq
      (Or.inr rfl) hrk hrkk h5 (by decide) (by decide) (by decide) ?_ hread
    intro k hk0 hk
    exfalso
    simp only [iabs, sub_self, lt_self_iff_false, if_false] at hk
    norm_num at hk
    omega
  · simp only [show ¬ ((2 : Int) > 4) by decide, if_false, show (2 : Int) + 1 = 3 by decide]
      at hrook hread
    rw [Grid.read_set _ _ he, Grid.read_moved _ _ hsr he] at hrook
    simp only [show ¬ ((0 : Int) = 2) by decide, show ¬ ((0 : Int) = 4) by decide, and_false,
      if_false, hrk, Option.some.injEq] at hrook
    subst hrook
    simp only [Option.map_some'] at hread
    refine Board.safe_castle_core 0 3 hs hw he hpk hcheck huniq
      (Or.inl rfl) hrk hrkk h3 (by decide) (by decide) (by decide) ?_ hread
    intro k hk0 hk
    simp only [iabs, sub_self, lt_self_iff_false, if_false] at hk
    norm_num at hk
    have hk1 : k = 1 := by omega
    subst hk1
    simp only [sgn3, gt_iff_lt, lt_self_iff_false, if_false, Nat.cast_one, mul_zero, add_zero,
      show (0 : Int) < 2 by decide, if_true, mul_one, zero_add]
    rw [Grid.read_moved _ _ hsr he]
    simp only [show ¬ ((1 : Int) = 2) by decide, show ¬ ((1 : Int) = 4) by decide, and_false,
      if_false, h1]

/-- After a successful `movePiece` the mover's king is not attacked. -/
theorem Board.movePiece_safe {b : Board} {sr sc er ec : Int} {w : Bool} {b1 : Board}
    (hcol : ∀ r c k, b.squares.read r c = some (some k) → k.kind = Kind.King →
      k.isWhite = w → k.hasMoved = false → c = 4)
    (hex : ∃ r c k, b.squares.read r c = some (some k) ∧ k.kind = Kind.King ∧ k.isWhite = w)
    (huniq : ∀ r c k r1 c1 k1, b.squares.read r c = some (some k) → k.kind = Kind.King →
      k.isWhite = w → b.squares.read r1 c1 = some (some k1) → k1.kind = Kind.King →
      k1.isWhite = w → r = r1 ∧ c = c1)
    (h : b.movePiece sr sc er ec w = some (true, b1)) :
    Board.isInCheck b1.squares w = some false := by
  obtain ⟨p, hs, hw, he, hcase⟩ := Board.movePiece_true_cases h
  rcases hcase with ⟨hep, hc, rfl⟩ | ⟨_, hv, _, hc, hcm⟩
  · exact Board.safe_ep hs hw hep hc hex
  · by_cases hk : p.kind = Kind.King ∧ iabs (ec - sc) = 2
    · have hvk : King.isValidMove p.isWhite p.hasMoved sr sc er ec b.squares = some true := by
        unfold Piece.isValidMove at hv
        simpa only [hk.1] using hv
      obtain ⟨_, hm, _⟩ := King.castle_true hvk hk.2
      have h4 : sc = 4 := hcol sr sc p hs hk.1 hw hm
      subst h4
      exact Board.safe_castle hs hw he hk.1 hk.2 hvk hc
        (fun r c k h1 h2 h3 => huniq r c k sr 4 p h1 h2 h3 hs hk.1 hw) hcm
    · have hnp := Board.commitMove_some_not_promotes hcm
      obtain ⟨g2, hcm2, hread⟩ := Board.commitMove_plain
        (b.squares.moved p sr sc er ec) p sr sc er ec hk he hnp
      rw [hcm2] at hcm
      simp only [Option.some.injEq, Prod.mk.injEq, true_and] at hcm
      subst hcm
      exact Board.safe_plain (x := p.setMoved) hs hw he hv hk hc hex hw Iff.rfl hread

theorem Board.entersPromotion_eq {b : Board} {p : Piece} {sr sc er ec : Int}
    (hs : b.squares.read sr sc = some (some p)) :
    b.entersPromotion sr sc er ec =
      (decide (p.promotes er) && (b.enPassantTest p sr sc er ec == some false)) := by
  unfold Board.entersPromotion; rw [hs]

/-- A move that `tryMove` accepts and that does not enter the promotion block is
executed by `movePiece`. -/
theorem Board.tryMove_true_movePiece {b : Board} {sr sc er ec : Int} {w : Bool} {b0 : Board}
    (h : b.tryMove sr sc er ec w = some (true, b0))
    (hn : b.entersPromotion sr sc er ec = false) :
    ∃ b1, b.movePiece sr sc er ec w = some (true, b1) := by
  obtain ⟨p, hs, hw, he, hcase⟩ := Board.tryMove_true_cases h
  have hsr := Grid.inRange_of_read hs
  rcases hcase with ⟨hep, hc⟩ | ⟨hep, hv, hcu, hc⟩
  · exact ⟨_, Board.movePiece_of_ep hs hw hep hc⟩
  · rw [Board.movePiece_of_plain hs hw he hep hv hcu hc]
    by_cases hk : p.kind = Kind.King ∧ iabs (ec - sc) = 2
    · obtain ⟨g2, _, _, hcm, _⟩ := Board.commitMove_castle
        (b.squares.moved p sr sc er ec) p sr sc er ec hk ⟨he.1, he.2.1, hsr.2.2.1, hsr.2.2.2⟩ he
      exact ⟨_, hcm⟩
    · have hnp : ¬ p.promotes er := by
        intro hp
        rw [Board.entersPromotion_eq hs, hep] at hn
        simp [hp] at hn
      obtain ⟨g2, hcm, _⟩ := Board.commitMove_plain
        (b.squares.moved p sr sc er ec) p sr sc er ec hk he hnp
      exact ⟨_, hcm⟩

/-- A move that `tryMove` accepts and that enters the promotion block leaves the
defined behaviour in `movePiece`. -/
theorem Board.tryMove_true_promotion {b : Board} {sr sc er ec : Int} {w : Bool} {b0 : Board}
    (h : b.tryMove sr sc er ec w = some (true, b0))
    (hp : b.entersPromotion sr sc er ec = true) :
    b.movePiece sr sc er ec w = none := by
  obtain ⟨p, hs, hw, he, hcase⟩ := Board.tryMove_true_cases h
  rw [Board.entersPromotion_eq hs] at hp
  simp only [Bool.and_eq_true, decide_eq_true_eq, beq_iff_eq] at hp
  rcases hcase with ⟨hep, hc⟩ | ⟨hep, hv, hcu, hc⟩
  · rw [hep] at hp; cases hp.2
  · rw [Board.movePiece_of_plain hs hw he hep hv hcu hc]
    exact Board.commitMove_promotes _ p sr sc er ec hp.1

theorem allSquares_nodup : allSquares.Nodup := by decide

theorem countP_eq_one_iff {α : Type} (p : α → Bool) :
    ∀ l : List α, l.Nodup →
      (l.countP p = 1 ↔ ∃ x ∈ l, p x = true ∧ ∀ y ∈ l, p y = true → y = x) := by
  intro l
  induction l with
  | nil => intro _; simp
  | cons a l ih =>
    intro hnd
    rw [List.nodup_cons] at hnd
    have ih1 := ih hnd.2
    by_cases hpa : p a = true
    · rw [List.countP_cons_of_pos _ _ hpa]
      constructor
      · intro h
        have h0 : l.countP p = 0 := by omega
        rw [List.countP_eq_zero] at h0
        refine ⟨a, List.mem_cons_self _ _, hpa, ?_⟩
        intro y hy hpy
        rcases List.mem_cons.1 hy with rfl | hy1
        · rfl
        · exact absurd hpy (h0 y hy1)
      · rintro ⟨x, _, _, hux⟩
        have hax : a = x := hux a (List.mem_cons_self _ _) hpa
        have h0 : l.countP p = 0 := by
          rw [List.countP_eq_zero]
          intro y hy hpy
          have := hux y (List.mem_cons_of_mem _ hy) hpy
          rw [this, ← hax] at hy
          exact hnd.1 hy
        omega
    · rw [List.countP_cons_of_neg _ _ hpa, ih1]
      constructor
      · rintro ⟨x, hx, hpx, hux⟩
        refine ⟨x, List.mem_cons_of_mem _ hx, hpx, ?_⟩
        intro y hy hpy
        rcases List.mem_cons.1 hy with rfl | hy1
        · exact absurd hpy hpa
        · exact hux y hy1 hpy
      · rintro ⟨x, hx, hpx, hux⟩
        rcases List.mem_cons.1 hx with rfl | hx1
        · exact absurd hpx hpa
        · exact ⟨x, hx1, hpx, fun y hy hpy => hux y (List.mem_cons_of_mem _ hy) hpy⟩

/-- One king of a colour on the board: a cell holds one, and no other cell does. -/
theorem countKings_eq_one_iff (g : Grid) (w : Bool) :
    countKings g w = 1 ↔
      ∃ r c, isKingCell w (g.read r c) = true ∧
        ∀ r1 c1, isKingCell w (g.read r1 c1) = true → r1 = r ∧ c1 = c := by
  unfold countKings
  rw [countP_eq_one_iff _ _ allSquares_nodup]
  have hout : ∀ r c, isKingCell w (g.read r c) = true → (r, c) ∈ allSquares := by
    intro r c h
    obtain ⟨p, hp, _⟩ := (isKingCell_iff w _).1 h
    exact (mem_allSquares r c).2 (Grid.inRange_of_read hp)
  constructor
  · rintro ⟨⟨r, c⟩, _, hp, hu⟩
    refine ⟨r, c, hp, ?_⟩
    intro r1 c1 h1
    have := hu (r1, c1) (hout r1 c1 h1) h1
    simp only [Prod.mk.injEq] at this
    exact this
  · rintro ⟨r, c, hp, hu⟩
    refine ⟨(r, c), hout r c hp, hp, ?_⟩
    rintro ⟨r1, c1⟩ _ h1
    have := hu r1 c1 h1
    rw [this.1, this.2]

theorem countKings_exists {g : Grid} {w : Bool} (h : countKings g w = 1) :
    ∃ r c k, g.read r c = some (some k) ∧ k.kind = Kind.King ∧ k.isWhite = w := by
  obtain ⟨r, c, hp, _⟩ := (countKings_eq_one_iff g w).1 h
  obtain ⟨k, hk⟩ := (isKingCell_iff w _).1 hp
  exact ⟨r, c, k, hk⟩

theorem countKings_unique {g : Grid} {w : Bool} (h : countKings g w = 1)
    {r c : Int} {k : Piece} {r1 c1 : Int} {k1 : Piece}
    (hk : g.read r c = some (some k)) (hkk : k.kind = Kind.King) (hkw : k.isWhite = w)
    (hk1 : g.read r1 c1 = some (some k1)) (hkk1 : k1.kind = Kind.King) (hkw1 : k1.isWhite = w) :
    r = r1 ∧ c = c1 := by
  obtain ⟨r0, c0, _, hu⟩ := (countKings_eq_one_iff g w).1 h
  have h1 := hu r c ((isKingCell_iff w _).2 ⟨k, hk, hkk, hkw⟩)
  have h2 := hu r1 c1 ((isKingCell_iff w _).2 ⟨k1, hk1, hkk1, hkw1⟩)
  rw [h1.1, h1.2, h2.1, h2.2]
  exact ⟨rfl, rfl⟩

theorem verdict_eq_some {r : Option (Bool × Board)} {v : Bool} (h : verdict r = some v) :
    ∃ b, r = some (v, b) := by
  unfold verdict at h
  cases r with
  | none => cases h
  | some x =>
    obtain ⟨v1, b1⟩ := x
    simp only [Option.map_some', Option.some.injEq] at h
    exact ⟨b1, by rw [h]⟩

theorem Grid.read_fin (g : Grid) (i j : Fin 8) :
    g.read (i.val : Int) (j.val : Int) = some (g i j) := by
  have hr : inRange (i.val : Int) (j.val : Int) := by
    unfold inRange; have := i.isLt; have := j.isLt; omega
  unfold Grid.read
  simp only [hr, dite_true, Option.some.injEq]
  congr

theorem kingsHome_of_cells {g : Grid} (h : ∀ i j : Fin 8, cellHome j (g i j) = true) :
    ∀ r c k, g.read r c = some (some k) → k.kind = Kind.King → k.hasMoved = false → c = 4 := by
  intro r c k hk hkk hkm
  have hin := Grid.inRange_of_read hk
  have h1 := h ⟨r.toNat, by unfold inRange at hin; omega⟩ ⟨c.toNat, by unfold inRange at hin; omega⟩
  unfold Grid.read at hk
  simp only [hin, dite_true, Option.some.injEq] at hk
  rw [hk] at h1
  simp only [cellHome, hkk, hkm, decide_True, Bool.not_false, Bool.and_self, Bool.not_true,
    Bool.false_or, decide_eq_true_eq] at h1
  unfold inRange at hin
  omega

/-! ### The cells after a move -/

/-- The cells of the board left by a `movePiece` call that returned true, in each of its
three modes: en-passant capture, ordinary move, castle. A move that enters the
promotion block returns nothing, so it is none of them. -/
theorem Board.movePiece_reads {b : Board} {sr sc er ec : Int} {w : Bool} {b1 : Board}
    (h : b.movePiece sr sc er ec w = some (true, b1)) :
    ∃ p, b.squares.read sr sc = some (some p) ∧ p.isWhite = w ∧ inRange er ec ∧
      b1.lastMoveStart = (sr, sc) ∧ b1.lastMoveEnd = (er, ec) ∧
      ((b.enPassantTest p sr sc er ec = some true ∧
          ∀ r c, b1.squares.read r c =
            if r = er ∧ c = ec then some (some p.setMoved)
            else if r = sr ∧ c = sc then some none
            else if r = sr ∧ c = ec then some none else b.squares.read r c) ∨
       (¬ (p.kind = Kind.King ∧ iabs (ec - sc) = 2) ∧
          b.enPassantTest p sr sc er ec = some false ∧
          p.isValidMove sr sc er ec b.squares = some true ∧
          ∀ r c, b1.squares.read r c =
            if r = er ∧ c = ec then some (some p.setMoved)
            else if r = sr ∧ c = sc then some none else b.squares.read r c) ∨
       (p.kind = Kind.King ∧ iabs (ec - sc) = 2 ∧
          p.isValidMove sr sc er ec b.squares = some true ∧
          ∃ rook, ((b.squares.moved p sr sc er ec).set er ec (some p.setMoved)).read er
              (if ec > sc then 7 else 0) = some rook ∧
            ∀ r c, b1.squares.read r c =
              if r = er ∧ c = (if ec > sc then ec - 1 else ec + 1) then
                some (rook.map Piece.setMoved)
              else if r = er ∧ c = (if ec > sc then 7 else 0) then some none
              else if r = er ∧ c = ec then some (some p.setMoved)
              else if r = sr ∧ c = sc then some none else b.squares.read r c)) := by
  obtain ⟨p, hs, hw, he, hcase⟩ := Board.movePiece_true_cases h
  have hsr := Grid.inRange_of_read hs
  rcases hcase with ⟨hep, _, rfl⟩ | ⟨hep, hv, _, _, hcm⟩
  · refine ⟨p, hs, hw, he, rfl, rfl, Or.inl ⟨hep, ?_⟩⟩
    intro r c
    simp only
    rw [Grid.read_set _ _ he, Grid.read_epMoved _ _ hsr he]
    split_ifs <;> rfl
  · by_cases hk : p.kind = Kind.King ∧ iabs (ec - sc) = 2
    · obtain ⟨g2, rook, hrook, hcm2, hread⟩ := Board.commitMove_castle
        (b.squares.moved p sr sc er ec) p sr sc er ec hk
        ⟨he.1, he.2.1, hsr.2.2.1, hsr.2.2.2⟩ he
      rw [hcm2] at hcm
      simp only [Option.some.injEq, Prod.mk.injEq, true_and] at hcm
      subst hcm
      refine ⟨p, hs, hw, he, rfl, rfl, Or.inr (Or.inr ⟨hk.1, hk.2, hv, rook, hrook, ?_⟩)⟩
      intro r c
      simp only
      rw [hread, Grid.read_moved _ _ hsr he]
      split_ifs <;> rfl
    · obtain ⟨g2, hcm2, hread⟩ := Board.commitMove_plain
        (b.squares.moved p sr sc er ec) p sr sc er ec hk he
        (Board.commitMove_some_not_promotes hcm)
      rw [hcm2] at hcm
      simp only [Option.some.injEq, Prod.mk.injEq, true_and] at hcm
      subst hcm
      refine ⟨p, hs, hw, he, rfl, rfl, Or.inr (Or.inl ⟨hk, hep, hv, ?_⟩)⟩
      intro r c
      simp only
      rw [hread, Grid.read_moved _ _ hsr he]
      split_ifs <;> rfl

/-- A pawn move accepted onto an occupied cell is a one-row step. -/
theorem Pawn.isValidMove_occupied {w : Bool} {sr sc er ec : Int} {g : Grid} {q : Piece}
    (h : Pawn.isValidMove w sr sc er ec g = some true) (ht : g.read er ec = some (some q)) :
    iabs (er - sr) = 1 ∧ iabs (ec - sc) = 1 := by
  simp only [Pawn.isValidMove, ht, ite_self] at h
  by_cases hgeo : iabs (ec - sc) = 1 ∧ er = sr + (if w = true then -1 else 1)
  · refine ⟨?_, hgeo.1⟩
    have := hgeo.2
    unfold iabs
    split_ifs at this ⊢ <;> omega
  · rw [if_neg hgeo] at h
    cases h

/-- A pawn never steps diagonally onto an empty cell by its own rule. -/
theorem Pawn.isValidMove_diag_empty {w : Bool} {sr sc er ec : Int} {g : Grid}
    (hdc : iabs (ec - sc) = 1) (he : g.read er ec = some none) :
    Pawn.isValidMove w sr sc er ec g = some false := by
  have hne : ¬ (sc = ec) := by
    intro h; rw [h] at hdc; simp [iabs] at hdc
  simp only [Pawn.isValidMove, he, hne, if_false, ite_self]

/-- The first cell the king passes in an accepted castle is empty. -/
theorem King.castle_first_empty {g : Grid} {w moved : Bool} {sr sc er ec : Int}
    (h : King.isValidMove w moved sr sc er ec g = some true) (hdc : iabs (ec - sc) = 2)
    (he : inRange er ec) :
    g.read sr (if ec > sc then ec - 1 else ec + 1) = some none := by
  obtain ⟨_, _, rook, hrook, _, _, hscan⟩ := King.castle_true h hdc
  have hsc := Grid.inRange_of_read hrook
  by_cases hgt : ec > sc
  · simp only [hgt, if_true] at hscan ⊢
    have hec : ec = sc + 2 := by unfold iabs at hdc; split_ifs at hdc <;> omega
    have hne : sc + 1 ≠ 7 := by unfold inRange at he; omega
    rw [King.scan, if_pos hne] at hscan
    rw [show ec - 1 = sc + 1 by omega]
    cases hc : g.read sr (sc + 1) with
    | none => rw [hc] at hscan; cases hscan
    | some cell =>
      cases cell with
      | none => rfl
      | some _ => rw [hc] at hscan; cases hscan
  · simp only [hgt, if_false] at hscan ⊢
    have hec : ec = sc - 2 := by unfold iabs at hdc; split_ifs at hdc <;> omega
    have hne : sc + -1 ≠ 0 := by unfold inRange at he; omega
    rw [King.scan, if_pos hne] at hscan
    rw [show ec + 1 = sc + -1 by omega]
    cases hc : g.read sr (sc + -1) with
    | none => rw [hc] at hscan; cases hscan
    | some cell =>
      cases cell with
      | none => rfl
      | some _ => rw [hc] at hscan; cases hscan

theorem Board.tryMove_empty_start {b : Board} {sr sc er ec : Int} {w : Bool}
    (h : b.squares.read sr sc = some none) : verdict (b.tryMove sr sc er ec w) = some false := by
  simp only [Board.tryMove, h, verdict, Option.map_some']

theorem Board.tryMove_wrong_colour {b : Board} {sr sc er ec : Int} {w : Bool} {x : Piece}
    (h : b.squares.read sr sc = some (some x)) (hx : x.isWhite ≠ w) :
    verdict (b.tryMove sr sc er ec w) = some false := by
  simp only [Board.tryMove, h, hx, ne_eq, not_false_eq_true, if_true, verdict,
    Option.map_some']

/-- A pawn's diagonal step onto an empty cell is refused once the en-passant test fails. -/
theorem Board.tryMove_pawn_diag_refused {b : Board} {sr sc er ec : Int} {w : Bool} {x : Piece}
    (h : b.squares.read sr sc = some (some x)) (hxk : x.kind = Kind.Pawn)
    (hep : b.enPassantTest x sr sc er ec = some false)
    (hdc : iabs (ec - sc) = 1) (he : b.squares.read er ec = some none) :
    verdict (b.tryMove sr sc er ec w) = some false := by
  have hv : x.isValidMove sr sc er ec b.squares = some false := by
    unfold Piece.isValidMove
    simp only [hxk]
    exact Pawn.isValidMove_diag_empty hdc he
  unfold Board.tryMove
  simp only [h]
  split
  · rfl
  · simp only [hep, Bool.false_eq_true, if_false, hv]
    rfl

/-- The en-passant test fails when the recorded last move did not span two rows. -/
theorem Board.enPassantTest_false_of_rows {b : Board} {p : Piece} {sr sc er ec : Int}
    (hs : inRange sr sc) (he : inRange er ec)
    (h : iabs (b.lastMoveEnd.1 - b.lastMoveStart.1) ≠ 2) :
    b.enPassantTest p sr sc er ec = some false := by
  obtain ⟨v, hv⟩ := Board.enPassantTest_isSome b p hs he
  cases v
  · exact hv
  · exact absurd ((Board.enPassantTest_true_iff _ _ _ _ _ _).1 hv).2.2.2.2.2.2.1 h

/-! ### The invariant of play -/

theorem countKings_congr {g1 g2 : Grid} {v : Bool}
    (h : ∀ r c, isKingCell v (g1.read r c) = isKingCell v (g2.read r c)) :
    countKings g1 v = countKings g2 v := by
  unfold countKings
  congr 1
  funext rc
  exact h rc.1 rc.2

/-- The king of colour `w` stood alone on `(sr, sc)` and now stands on `(er, ec)`. -/
theorem countKings_king_moved {g g1 : Grid} {w : Bool} {p x : Piece} {sr sc er ec : Int}
    (hone : countKings g w = 1)
    (hs : g.read sr sc = some (some p)) (hpk : p.kind = Kind.King) (hw : p.isWhite = w)
    (he : g1.read er ec = some (some x)) (hxk : x.kind = Kind.King) (hxw : x.isWhite = w)
    (hrest : ∀ r c, ¬ (r = er ∧ c = ec) → isKingCell w (g1.read r c) = true →
      ¬ (r = sr ∧ c = sc) ∧ isKingCell w (g.read r c) = true) :
    countKings g1 w = 1 := by
  rw [countKings_eq_one_iff]
  refine ⟨er, ec, (isKingCell_iff w _).2 ⟨x, he, hxk, hxw⟩, ?_⟩
  intro r c hflag
  by_contra hne
  obtain ⟨h1, h2⟩ := hrest r c hne hflag
  obtain ⟨k, hk, hkk, hkw⟩ := (isKingCell_iff w _).1 h2
  exact h1 (countKings_unique hone hk hkk hkw hs hpk hw)

/-- A move accepted by a piece rule does not land on a king, when the side not to move is
not in check. -/
theorem Board.target_not_king {b : Board} {p : Piece} {sr sc er ec : Int} {w : Bool}
    (hs : b.squares.read sr sc = some (some p)) (hw : p.isWhite = w)
    (hv : p.isValidMove sr sc er ec b.squares = some true)
    (hnc : ¬ (p.kind = Kind.King ∧ iabs (ec - sc) = 2))
    (hone : countKings b.squares (!w) = 1)
    (hsafe : Board.isInCheck b.squares (!w) = some false)
    {k : Piece} (hk : b.squares.read er ec = some (some k)) : k.kind ≠ Kind.King := by
  intro hkk
  rcases Piece.isValidMove_true_target hv hnc with h1 | ⟨q, h1, h2⟩
  · rw [hk] at h1; cases h1
  · rw [hk] at h1
    simp only [Option.some.injEq] at h1
    subst h1
    have hkw : k.isWhite = (!w) := by
      rw [hw] at h2
      exact bool_eq_not_of_ne h2
    obtain ⟨k2, hk2, hk2k, hk2w⟩ := Board.findKing_spec hk hkk hkw
    have hpos := countKings_unique hone hk2 hk2k hk2w hk hkk hkw
    unfold Board.isInCheck at hsafe
    simp only [hpos.1, hpos.2, Bool.not_not] at hsafe
    rw [Board.isSquareAttacked_false_iff] at hsafe
    have := hsafe sr sc p hs hw
    rw [hv] at this
    cases this

theorem isKingCell_off_colour {v w : Bool} (h : ¬ v = w) {q : Piece} (hq : q.isWhite = w) :
    isKingCell v (some (some q)) = false := by
  have : (w == v) = false := by
    cases w <;> cases v <;> simp_all
  simp only [isKingCell, hq, this, Bool.and_false]

theorem PlayInv.at_start : PlayInv Board.initial true :=
  ⟨by decide!, by decide!, kingsHome_of_cells (by decide!), by decide!⟩

theorem PlayInv.after_move {b : Board} {w : Bool} {sr sc er ec : Int} {b1 : Board}
    (hinv : PlayInv b w) (h : b.movePiece sr sc er ec w = some (true, b1)) :
    PlayInv b1 (!w) := by
  obtain ⟨hkt, hkf, hhome, hsafe⟩ := hinv
  have hone : ∀ v, countKings b.squares v = 1 := by
    intro v; cases v
    · exact hkf
    · exact hkt
  have hcheck : Board.isInCheck b1.squares w = some false :=
    Board.movePiece_safe (fun r c k hk hkk _ hkm => hhome r c k hk hkk hkm)
      (countKings_exists (hone w))
      (fun r c k r1 c1 k1 hk hkk hkw hk1 hkk1 hkw1 =>
        countKings_unique (hone w) hk hkk hkw hk1 hkk1 hkw1) h
  obtain ⟨p, hs, hw, he, _, _, hcase⟩ := Board.movePiece_reads h
  have hsr := Grid.inRange_of_read hs
  suffices hmain : (∀ v, countKings b1.squares v = 1) ∧
      (∀ r c k, b1.squares.read r c = some (some k) → k.kind = Kind.King →
        k.hasMoved = false → c = 4) from
    ⟨hmain.1 true, hmain.1 false, hmain.2, by rw [Bool.not_not]; exact hcheck⟩
  rcases hcase with ⟨hep, hread⟩ | ⟨hnc, _, hv, hread⟩ | ⟨hpk, hdc, hv, rook0, hrook0, hread⟩
  · -- en-passant capture: no king is involved
    obtain ⟨hpk, _, _, he0, _, ⟨adj, ht, hadj⟩, _⟩ :=
      (Board.enPassantTest_true_iff _ _ _ _ _ _).1 hep
    have hpn : p.kind ≠ Kind.King := by rw [hpk]; decide
    have han : adj.kind ≠ Kind.King := by rw [hadj]; decide
    constructor
    · intro v
      rw [← hone v]
      apply countKings_congr
      intro r c
      rw [hread]
      by_cases h1 : r = er ∧ c = ec
      · rw [if_pos h1, h1.1, h1.2, he0, isKingCell_setMoved, isKingCell_of_not_king v hpn]
        rfl
      · rw [if_neg h1]
        by_cases h2 : r = sr ∧ c = sc
        · rw [if_pos h2, h2.1, h2.2, hs, isKingCell_of_not_king v hpn]
          rfl
        · rw [if_neg h2]
          by_cases h3 : r = sr ∧ c = ec
          · rw [if_pos h3, h3.1, h3.2, ht, isKingCell_of_not_king v han]
            rfl
          · rw [if_neg h3]
    · intro r c k hk hkk hkm
      rw [hread] at hk
      by_cases h1 : r = er ∧ c = ec
      · rw [if_pos h1] at hk
        simp only [Option.some.injEq] at hk
        rw [← hk] at hkk
        exact absurd hkk hpn
      · rw [if_neg h1] at hk
        by_cases h2 : r = sr ∧ c = sc
        · rw [if_pos h2] at hk; cases hk
        · rw [if_neg h2] at hk
          by_cases h3 : r = sr ∧ c = ec
          · rw [if_pos h3] at hk; cases hk
          · rw [if_neg h3] at hk
            exact hhome r c k hk hkk hkm
  · -- ordinary move
    have hne := Piece.isValidMove_ne hs hv
    have hcap : ∀ v, isKingCell v (b.squares.read er ec) = false := by
      intro v
      obtain ⟨cell, hcell⟩ := Grid.read_of_inRange b.squares he
      cases cell with
      | none => rw [hcell]; rfl
      | some k =>
        rw [hcell]
        exact isKingCell_of_not_king v
          (Board.target_not_king hs hw hv hnc (hone (!w)) hsafe hcell)
    by_cases hpk : p.kind = Kind.King
    · -- the king moves
      constructor
      · intro v
        by_cases hv1 : v = w
        · subst hv1
          refine countKings_king_moved (hone v) hs hpk hw (x := p.setMoved)
            (by rw [hread, if_pos ⟨rfl, rfl⟩]) hpk hw ?_
          intro r c h1 hflag
          rw [hread, if_neg h1] at hflag
          by_cases h2 : r = sr ∧ c = sc
          · rw [if_pos h2] at hflag; cases hflag
          · rw [if_neg h2] at hflag
            exact ⟨h2, hflag⟩
        · rw [← hone v]
          apply countKings_congr
          intro r c
          rw [hread]
          have hoff : ∀ q : Piece, q.isWhite = w → isKingCell v (some (some q)) = false :=
            fun q hq => isKingCell_off_colour hv1 hq
          by_cases h1 : r = er ∧ c = ec
          · rw [if_pos h1, h1.1, h1.2, hcap v]
            exact hoff p.setMoved hw
          · rw [if_neg h1]
            by_cases h2 : r = sr ∧ c = sc
            · rw [if_pos h2, h2.1, h2.2, hs, hoff p hw]
              rfl
            · rw [if_neg h2]
      · intro r c k hk hkk hkm
        rw [hread] at hk
        by_cases h1 : r = er ∧ c = ec
        · rw [if_pos h1] at hk
          simp only [Option.some.injEq] at hk
          rw [← hk] at hkm
          cases hkm
        · rw [if_neg h1] at hk
          by_cases h2 : r = sr ∧ c = sc
          · rw [if_pos h2] at hk; cases hk
          · rw [if_neg h2] at hk
            exact hhome r c k hk hkk hkm
    · -- another piece moves
      have hxk : p.setMoved.kind ≠ Kind.King := hpk
      constructor
      · intro v
        rw [← hone v]
        apply countKings_congr
        intro r c
        rw [hread]
        by_cases h1 : r = er ∧ c = ec
        · rw [if_pos h1, h1.1, h1.2, hcap v, isKingCell_of_not_king v hxk]
        · rw [if_neg h1]
          by_cases h2 : r = sr ∧ c = sc
          · rw [if_pos h2, h2.1, h2.2, hs, isKingCell_of_not_king v hpk]
            rfl
          · rw [if_neg h2]
      · intro r c k hk hkk hkm
        rw [hread] at hk
        by_cases h1 : r = er ∧ c = ec
        · rw [if_pos h1] at hk
          simp only [Option.some.injEq] at hk
          rw [← hk] at hkk
          exact absurd hkk hxk
        · rw [if_neg h1] at hk
          by_cases h2 : r = sr ∧ c = sc
          · rw [if_pos h2] at hk; cases hk
          · rw [if_neg h2] at hk
            exact hhome r c k hk hkk hkm
  · -- castle
    have hvk : King.isValidMove p.isWhite p.hasMoved sr sc er ec b.squares = some true := by
      unfold Piece.isValidMove at hv
      simpa only [hpk] using hv
    obtain ⟨_, hm, _⟩ := King.castle_true hvk hdc
    have h4 : sc = 4 := hhome sr sc p hs hpk hm
    subst h4
    obtain ⟨hrow, _, hside⟩ := King.castle_true_e hvk hdc
    subst hrow
    -- both sides are brought to one shape: the passed cell `nw`, the corner `cn`
    have hshape : ∃ nw cn rk, b.squares.read er nw = some none ∧
        b.squares.read er cn = some (some rk) ∧ rk.kind = Kind.Rook ∧
        b.squares.read er ec = some none ∧ ec ≠ nw ∧ ec ≠ cn ∧
        ∀ r c, b1.squares.read r c =
          if r = er ∧ c = nw then some (some rk.setMoved)
          else if r = er ∧ c = cn then some none
          else if r = er ∧ c = ec then some (some p.setMoved)
          else if r = er ∧ c = 4 then some none else b.squares.read r c := by
      rcases hside with ⟨rfl, h5, h6, rk, hrk, hrkk, _⟩ | ⟨rfl, h3, h2, _, rk, hrk, hrkk, _⟩
      · simp only [show (6 : Int) > 4 by decide, if_true, show (6 : Int) - 1 = 5 by decide]
          at hrook0 hread
        rw [Grid.read_set _ _ he, Grid.read_moved _ _ hsr he] at hrook0
        simp only [show ¬ ((7 : Int) = 6) by decide, show ¬ ((7 : Int) = 4) by decide,
          and_false, if_false, hrk, Option.some.injEq] at hrook0
        subst hrook0
        exact ⟨5, 7, rk, h5, hrk, hrkk, h6, by decide, by decide, hread⟩
      · simp only [show ¬ ((2 : Int) > 4) by decide, if_false, show (2 : Int) + 1 = 3 by decide]
          at hrook0 hread
        rw [Grid.read_set _ _ he, Grid.read_moved _ _ hsr he] at hrook0
        simp only [show ¬ ((0 : Int) = 2) by decide, show ¬ ((0 : Int) = 4) by decide,
          and_false, if_false, hrk, Option.some.injEq] at hrook0
        subst hrook0
        exact ⟨3, 0, rk, h3, hrk, hrkk, h2, by decide, by decide, hread⟩
    obtain ⟨nw, cn, rk, hnw, hcn, hrkk, he0, hd1, hd2, hread1⟩ := hshape
    have hrn : rk.kind ≠ Kind.King := by rw [hrkk]; decide
    have hrn1 : rk.setMoved.kind ≠ Kind.King := hrn
    constructor
    · intro v
      by_cases hv1 : v = w
      · subst hv1
        have hec : ¬ (er = er ∧ ec = nw) := fun hh => hd1 hh.2
        have hec2 : ¬ (er = er ∧ ec = cn) := fun hh => hd2 hh.2
        refine countKings_king_moved (hone v) hs hpk hw (x := p.setMoved)
          (by rw [hread1, if_neg hec, if_neg hec2, if_pos ⟨rfl, rfl⟩]) hpk hw ?_
        intro r c h1 hflag
        rw [hread1] at hflag
        by_cases h2 : r = er ∧ c = nw
        · rw [if_pos h2, isKingCell_of_not_king v hrn1] at hflag; cases hflag
        · rw [if_neg h2] at hflag
          by_cases h3 : r = er ∧ c = cn
          · rw [if_pos h3] at hflag; cases hflag
          · rw [if_neg h3, if_neg h1] at hflag
            by_cases h5 : r = er ∧ c = 4
            · rw [if_pos h5] at hflag; cases hflag
            · rw [if_neg h5] at hflag
              exact ⟨h5, hflag⟩
      · rw [← hone v]
        apply countKings_congr
        intro r c
        rw [hread1]
        have hoff : ∀ q : Piece, q.isWhite = w → isKingCell v (some (some q)) = false :=
          fun q hq => isKingCell_off_colour hv1 hq
        by_cases h2 : r = er ∧ c = nw
        · rw [if_pos h2, h2.1, h2.2, hnw, isKingCell_of_not_king v hrn1]
          rfl
        · rw [if_neg h2]
          by_cases h3 : r = er ∧ c = cn
          · rw [if_pos h3, h3.1, h3.2, hcn, isKingCell_of_not_king v hrn]
            rfl
          · rw [if_neg h3]
            by_cases h1 : r = er ∧ c = ec
            · rw [if_pos h1, h1.1, h1.2, he0, hoff p.setMoved hw]
              rfl
            · rw [if_neg h1]
              by_cases h5 : r = er ∧ c = 4
              · rw [if_pos h5, h5.1, h5.2, hs, hoff p hw]
                rfl
              · rw [if_neg h5]
    · intro r c k hk hkk hkm
      rw [hread1] at hk
      by_cases h2 : r = er ∧ c = nw
      · rw [if_pos h2] at hk
        simp only [Option.some.injEq] at hk
        rw [← hk] at hkk
        exact absurd hkk hrn1
      · rw [if_neg h2] at hk
        by_cases h3 : r = er ∧ c = cn
        · rw [if_pos h3] at hk; cases hk
        · rw [if_neg h3] at hk
          by_cases h1 : r = er ∧ c = ec
          · rw [if_pos h1] at hk
            simp only [Option.some.injEq] at hk
            rw [← hk] at hkm
            cases hkm
          · rw [if_neg h1] at hk
            by_cases h5 : r = er ∧ c = 4
            · rw [if_pos h5] at hk; cases hk
            · rw [if_neg h5] at hk
              exact hhome r c k hk hkk hkm

theorem Reachable.playInv {b : Board} {w : Bool} (h : Reachable b w) : PlayInv b w := by
  induction h with
  | start => exact PlayInv.at_start
  | move _ hm ih => exact PlayInv.after_move ih hm

/-! ### The castle candidate -/

/-- The loop of `King::isValidMove` toward column 7 or column 0, from the cell next to
a king on the board: it ends inside the array, and holds when every cell strictly
between the king and the corner is empty. -/
theorem king_scan_between (g : Grid) {sr sc : Int} (hs : inRange sr sc) (right : Bool)
    (hroom : if right then sc < 7 else 0 < sc) :
    ∃ v, King.scan g sr (if right then 1 else -1) (if right then 7 else 0) 8
        (sc + (if right then 1 else -1)) = some v ∧
      (v = true ↔ ∀ c : Int, (if right then sc < c ∧ c < 7 else 0 < c ∧ c < sc) →
        g.read sr c = some none) := by
  cases right with
  | true =>
    simp only [if_true] at hroom ⊢
    have hm : ((6 - sc).toNat : Int) = 6 - sc := by
      unfold inRange at hs; omega
    have hcol : (7 : Int) = sc + 1 + ((6 - sc).toNat : Int) * 1 := by rw [hm]; ring
    have hin : ∀ k : Nat, k < (6 - sc).toNat → inRange sr (sc + 1 + k * 1) := by
      intro k hk; unfold inRange at *; omega
    obtain ⟨v, hv, hiff⟩ := King.scan_spec g sr 1 (by decide) (6 - sc).toNat 8 (sc + 1)
      (by unfold inRange at hs; omega) hin
    rw [← hcol] at hv
    refine ⟨v, hv, hiff.trans ⟨?_, ?_⟩⟩
    · intro h c hc
      have := h (c - sc - 1).toNat (by omega)
      rwa [show sc + 1 + ((c - sc - 1).toNat : Int) * 1 = c by omega] at this
    · intro h k hk
      exact h _ (by omega)
  | false =>
    simp only [Bool.false_eq_true, if_false] at hroom ⊢
    have hm : ((sc - 1).toNat : Int) = sc - 1 := by omega
    have hcol : (0 : Int) = sc + -1 + ((sc - 1).toNat : Int) * -1 := by rw [hm]; ring
    have hin : ∀ k : Nat, k < (sc - 1).toNat → inRange sr (sc + -1 + k * -1) := by
      intro k hk; unfold inRange at *; omega
    obtain ⟨v, hv, hiff⟩ := King.scan_spec g sr (-1) (by decide) (sc - 1).toNat 8 (sc + -1)
      (by unfold inRange at hs; omega) hin
    rw [← hcol] at hv
    refine ⟨v, hv, hiff.trans ⟨?_, ?_⟩⟩
    · intro h c hc
      have := h (sc - 1 - c).toNat (by omega)
      rwa [show sc + -1 + ((sc - 1 - c).toNat : Int) * -1 = c by omega] at this
    · intro h k hk
      exact h _ (by omega)

/-! ### Rook, bishop and queen between distinct cells -/

theorem landing_defined (w : Bool) (g : Grid) {er ec : Int} (he : inRange er ec) :
    ∃ l, landing w g er ec = some l := by
  obtain ⟨cell, hcell⟩ := Grid.read_of_inRange g he
  unfold landing
  rw [hcell]
  cases cell with
  | none => exact ⟨true, rfl⟩
  | some q => exact ⟨q.isWhite != w, rfl⟩

/-- The rook rule between two distinct cells of the board has defined behaviour. -/
theorem rook_defined (w : Bool) (g : Grid) {sr sc er ec : Int} (hs : inRange sr sc)
    (he : inRange er ec) (hne : sr ≠ er ∨ sc ≠ ec) :
    ∃ v, Rook.isValidMove w sr sc er ec g = some v := by
  unfold Rook.isValidMove
  by_cases hoff : sr ≠ er ∧ sc ≠ ec
  · exact ⟨false, by rw [if_pos hoff]⟩
  · rw [if_neg hoff]
    obtain ⟨b0, hb0, _⟩ := rook_walk_clear g hs he (by tauto) hne
    obtain ⟨l, hl⟩ := landing_defined w g he
    simp only [hb0]
    cases b0
    · exact ⟨false, rfl⟩
    · exact ⟨l, hl⟩

/-- The bishop rule between two distinct cells of the board has defined behaviour. -/
theorem bishop_defined (w : Bool) (g : Grid) {sr sc er ec : Int} (hs : inRange sr sc)
    (he : inRange er ec) (hne : sr ≠ er ∨ sc ≠ ec) :
    ∃ v, Bishop.isValidMove w sr sc er ec g = some v := by
  unfold Bishop.isValidMove
  by_cases hoff : iabs (er - sr) ≠ iabs (ec - sc)
  · exact ⟨false, by rw [if_pos hoff]⟩
  · rw [if_neg hoff]
    obtain ⟨b0, hb0, _⟩ := bishop_walk_clear g hs he (not_not.1 hoff) hne
    obtain ⟨l, hl⟩ := landing_defined w g he
    simp only [hb0]
    cases b0
    · exact ⟨false, rfl⟩
    · exact ⟨l, hl⟩

/-- The queen rule is the rook rule on a rank or file and the bishop rule elsewhere. -/
theorem queen_split (w : Bool) (g : Grid) (sr sc er ec : Int) :
    Queen.isValidMove w sr sc er ec g =
      if sr = er ∨ sc = ec then Rook.isValidMove w sr sc er ec g
      else Bishop.isValidMove w sr sc er ec g := by
  unfold Queen.isValidMove Rook.isValidMove Bishop.isValidMove
  by_cases hline : sr = er ∨ sc = ec
  · have hoff : ¬ (sr ≠ er ∧ sc ≠ ec) := by tauto
    rw [if_pos hline, if_pos hline, if_neg hoff]
  · rw [if_neg hline, if_neg hline]
    by_cases hd : iabs (er - sr) = iabs (ec - sc)
    · rw [if_pos hd, if_neg (not_not.2 hd)]
    · rw [if_neg hd, if_pos hd]

/-! ### The two traversals of the moves -/

theorem tryMove_defined_cases {b : Board} {sr sc er ec : Int} {c : Bool}
    (h : (b.tryMove sr sc er ec c).isSome) :
    ∃ v, b.tryMove sr sc er ec c = some (v, b) ∧ verdict (b.tryMove sr sc er ec c) = some v := by
  obtain ⟨⟨v, b1⟩, hv⟩ := Option.isSome_iff_exists.1 h
  have := Board.tryMove_state b sr sc er ec c v b1 hv
  subst this
  exact ⟨v, hv, by rw [hv]; rfl⟩

/-- The inner loops of `hasLegalMoves` find an accepted end cell if there is one. -/
theorem anyMoveFrom_eq (b : Board) (sr sc : Int) (c : Bool) :
    ∀ (es : List (Int × Int)),
      (∀ e ∈ es, (b.tryMove sr sc e.1 e.2 c).isSome) →
      Board.anyMoveFrom sr sc c b es =
        some (es.any fun e => verdict (b.tryMove sr sc e.1 e.2 c) == some true, b) := by
  intro es
  induction es with
  | nil => intro _; simp [Board.anyMoveFrom]
  | cons e rest ih =>
    intro hdef
    obtain ⟨v, hv, hverd⟩ := tryMove_defined_cases (hdef e (List.mem_cons_self _ _))
    have hrest := ih (fun e1 he1 => hdef e1 (List.mem_cons_of_mem _ he1))
    unfold Board.anyMoveFrom
    rw [hv]
    cases v with
    | true => simp only [List.any_cons, hverd, beq_self_eq_true, Bool.true_or]
    | false =>
      have hne : (some false == some true) = false := by decide
      simp only [hrest, List.any_cons, hverd, hne, Bool.false_or]

theorem ownPiece_of_read {b : Board} {c : Bool} {s : Int × Int} {p : Piece}
    (h : b.squares.read s.1 s.2 = some (some p)) : b.ownPiece c s = (p.isWhite == c) := by
  unfold Board.ownPiece; rw [h]

theorem ownPiece_of_empty {b : Board} {c : Bool} {s : Int × Int}
    (h : b.squares.read s.1 s.2 = some none) : b.ownPiece c s = false := by
  unfold Board.ownPiece; rw [h]

/-- The outer loops of `hasLegalMoves` find an accepted move if there is one. -/
theorem anyMove_eq (b : Board) (c : Bool) :
    ∀ (ss : List (Int × Int)),
      (∀ s ∈ ss, inRange s.1 s.2) →
      (∀ s ∈ ss, b.ownPiece c s = true →
        ∀ e ∈ allSquares, (b.tryMove s.1 s.2 e.1 e.2 c).isSome) →
      Board.anyMove c b ss =
        some (ss.any fun s => b.ownPiece c s &&
          allSquares.any fun e => verdict (b.tryMove s.1 s.2 e.1 e.2 c) == some true, b) := by
  intro ss
  induction ss with
  | nil => intro _ _; simp [Board.anyMove]
  | cons s rest ih =>
    intro hin hdef
    have hrest := ih (fun s1 hs1 => hin s1 (List.mem_cons_of_mem _ hs1))
      (fun s1 hs1 => hdef s1 (List.mem_cons_of_mem _ hs1))
    obtain ⟨cell, hcell⟩ := Grid.read_of_inRange b.squares (hin s (List.mem_cons_self _ _))
    unfold Board.anyMove
    rw [hcell]
    cases cell with
    | none =>
      simp only [hrest, List.any_cons, ownPiece_of_empty hcell, Bool.false_and, Bool.false_or]
    | some p =>
      have hown := ownPiece_of_read (c := c) hcell
      by_cases hp : p.isWhite = c
      · have hown1 : b.ownPiece c s = true := by rw [hown]; simp [hp]
        simp only [hp, if_true, anyMoveFrom_eq b s.1 s.2 c allSquares
          (hdef s (List.mem_cons_self _ _) hown1), List.any_cons, hown1, Bool.true_and]
        cases allSquares.any fun e => verdict (b.tryMove s.1 s.2 e.1 e.2 c) == some true
        · simp only [hrest, Bool.false_or]
        · simp only [Bool.true_or]
      · have hown0 : b.ownPiece c s = false := by rw [hown]; simp [hp]
        simp only [hp, if_false, hrest, List.any_cons, hown0, Bool.false_and, Bool.false_or]

theorem inRange_mirror (r c : Int) : inRange (7 - r) c ↔ inRange r c := by
  unfold inRange; constructor <;> intro h <;> omega

/-- Reading the mirrored board at the mirrored cell. -/
theorem Grid.read_mirror (g : Grid) (r c : Int) :
    g.mirror.read (7 - r) c = (g.read r c).map (Option.map Piece.swapColour) := by
  by_cases h : inRange r c
  · have h1 := (inRange_mirror r c).2 h
    unfold Grid.read
    simp only [h, h1, dite_true, Option.map_some', Option.some.injEq]
    unfold Grid.mirror
    have hrev : (⟨(7 - r).toNat, by unfold inRange at h; omega⟩ : Fin 8).rev =
        ⟨r.toNat, by unfold inRange at h; omega⟩ := by
      apply Fin.ext
      simp only [Fin.val_rev]
      unfold inRange at h; omega
    rw [hrev]
  · have h1 : ¬ inRange (7 - r) c := fun hh => h ((inRange_mirror r c).1 hh)
    rw [(Grid.read_eq_none_iff _ _ _).2 h, (Grid.read_eq_none_iff _ _ _).2 h1]
    rfl

theorem landing_mirror (w : Bool) (g : Grid) (er ec : Int) :
    landing (!w) g.mirror (7 - er) ec = landing w g er ec := by
  unfold landing
  rw [Grid.read_mirror]
  cases g.read er ec with
  | none => rfl
  | some cell =>
    cases cell with
    | none => rfl
    | some q =>
      simp only [Option.map_some', Piece.swapColour, Option.some.injEq]
      cases q.isWhite <;> cases w <;> rfl

theorem rook_walk_mirror (g : Grid) (dr dc er ec : Int) :
    ∀ (n : Nat) (r c : Int),
      Rook.walk g.mirror (-dr) dc (7 - er) ec n (7 - r) c = Rook.walk g dr dc er ec n r c := by
  intro n
  induction n with
  | zero => intro r c; rfl
  | succ n ih =>
    intro r c
    unfold Rook.walk
    have hcond : (7 - r ≠ 7 - er ∨ c ≠ ec) ↔ (r ≠ er ∨ c ≠ ec) := by
      constructor <;> intro h <;> omega
    by_cases hc : r ≠ er ∨ c ≠ ec
    · rw [if_pos hc, if_pos (hcond.2 hc), Grid.read_mirror]
      cases g.read r c with
      | none => rfl
      | some cell =>
        cases cell with
        | none =>
          simp only [Option.map_some', Option.map_none']
          rw [show 7 - r + -dr = 7 - (r + dr) by ring]
          exact ih (r + dr) (c + dc)
        | some q => rfl
    · rw [if_neg hc, if_neg (fun h => hc (hcond.1 h))]

theorem bishop_walk_mirror (g : Grid) (dr dc er ec : Int) :
    ∀ (n : Nat) (r c : Int),
      Bishop.walk g.mirror (-dr) dc (7 - er) ec n (7 - r) c =
        Bishop.walk g dr dc er ec n r c := by
  intro n
  induction n with
  | zero => intro r c; rfl
  | succ n ih =>
    intro r c
    unfold Bishop.walk
    have hcond : (7 - r ≠ 7 - er ∧ c ≠ ec) ↔ (r ≠ er ∧ c ≠ ec) := by
      constructor <;> intro h <;> omega
    by_cases hc : r ≠ er ∧ c ≠ ec
    · rw [if_pos hc, if_pos (hcond.2 hc), Grid.read_mirror]
      cases g.read r c with
      | none => rfl
      | some cell =>
        cases cell with
        | none =>
          simp only [Option.map_some', Option.map_none']
          rw [show 7 - r + -dr = 7 - (r + dr) by ring]
          exact ih (r + dr) (c + dc)
        | some q => rfl
    · rw [if_neg hc, if_neg (fun h => hc (hcond.1 h))]

theorem sgn3_mirror (s e : Int) : sgn3 (7 - s) (7 - e) = -sgn3 s e := by
  unfold sgn3; split_ifs <;> omega

theorem sgn2_mirror {s e : Int} (h : s ≠ e) : sgn2 (7 - s) (7 - e) = -sgn2 s e := by
  unfold sgn2; split_ifs <;> omega

theorem iabs_mirror (s e : Int) : iabs (7 - e - (7 - s)) = iabs (e - s) := by
  unfold iabs; split_ifs <;> omega

theorem rook_mirror (w : Bool) (g : Grid) (sr sc er ec : Int) :
    Rook.isValidMove (!w) (7 - sr) sc (7 - er) ec g.mirror = Rook.isValidMove w sr sc er ec g := by
  unfold Rook.isValidMove
  have hcond : (7 - sr ≠ 7 - er ∧ sc ≠ ec) ↔ (sr ≠ er ∧ sc ≠ ec) := by
    constructor <;> intro h <;> omega
  by_cases hc : sr ≠ er ∧ sc ≠ ec
  · rw [if_pos hc, if_pos (hcond.2 hc)]
  · rw [if_neg hc, if_neg (fun h => hc (hcond.1 h))]
    simp only [sgn3_mirror, landing_mirror]
    rw [show 7 - sr + -sgn3 sr er = 7 - (sr + sgn3 sr er) by ring, rook_walk_mirror]

theorem knight_mirror (w : Bool) (g : Grid) (sr sc er ec : Int) :
    Knight.isValidMove (!w) (7 - sr) sc (7 - er) ec g.mirror =
      Knight.isValidMove w sr sc er ec g := by
  unfold Knight.isValidMove
  simp only [iabs_mirror, landing_mirror]

theorem bishop_mirror (w : Bool) (g : Grid) {sr sc er ec : Int} (hne : sr ≠ er ∨ sc ≠ ec) :
    Bishop.isValidMove (!w) (7 - sr) sc (7 - er) ec g.mirror =
      Bishop.isValidMove w sr sc er ec g := by
  unfold Bishop.isValidMove
  rw [iabs_mirror]
  by_cases hc : iabs (er - sr) ≠ iabs (ec - sc)
  · rw [if_pos hc, if_pos hc]
  · rw [if_neg hc, if_neg hc]
    have hrow : sr ≠ er := by
      intro h
      apply hc
      unfold iabs; split_ifs <;> omega
    simp only [sgn2_mirror hrow, landing_mirror]
    rw [show 7 - sr + -sgn2 sr er = 7 - (sr + sgn2 sr er) by ring, bishop_walk_mirror]

theorem queen_mirror (w : Bool) (g : Grid) {sr sc er ec : Int} (hne : sr ≠ er ∨ sc ≠ ec) :
    Queen.isValidMove (!w) (7 - sr) sc (7 - er) ec g.mirror =
      Queen.isValidMove w sr sc er ec g := by
  rw [queen_split, queen_split, rook_mirror, bishop_mirror w g hne]
  have hcond : (7 - sr = 7 - er ∨ sc = ec) ↔ (sr = er ∨ sc = ec) := by
    constructor <;> intro h <;> omega
  by_cases hc : sr = er ∨ sc = ec
  · rw [if_pos hc, if_pos (hcond.2 hc)]
  · rw [if_neg hc, if_neg (fun h => hc (hcond.1 h))]

theorem knight_defined (w : Bool) (g : Grid) (sr sc : Int) {er ec : Int} (he : inRange er ec) :
    ∃ v, Knight.isValidMove w sr sc er ec g = some v := by
  unfold Knight.isValidMove
  obtain ⟨l, hl⟩ := landing_defined w g he
  simp only []
  split
  · exact ⟨l, hl⟩
  · exact ⟨false, rfl⟩

theorem queen_defined (w : Bool) (g : Grid) {sr sc er ec : Int} (hs : inRange sr sc)
    (he : inRange er ec) (hne : sr ≠ er ∨ sc ≠ ec) :
    ∃ v, Queen.isValidMove w sr sc er ec g = some v := by
  rw [queen_split]
  split
  · exact rook_defined w g hs he hne
  · exact bishop_defined w g hs he hne

/-! ### Defined behaviour of the piece rules -/

/-- The rook rule has defined behaviour between any two cells of the board, also when
they are the same cell. -/
theorem rook_defined_all (w : Bool) (g : Grid) {sr sc er ec : Int} (hs : inRange sr sc)
    (he : inRange er ec) : ∃ v, Rook.isValidMove w sr sc er ec g = some v := by
  by_cases hne : sr ≠ er ∨ sc ≠ ec
  · exact rook_defined w g hs he hne
  · have h1 : sr = er := by tauto
    have h2 : sc = ec := by tauto
    subst h1 h2
    obtain ⟨l, hl⟩ := landing_defined w g he
    refine ⟨l, ?_⟩
    have hz : sgn3 sr sr = 0 := by simp [sgn3]
    have hz2 : sgn3 sc sc = 0 := by simp [sgn3]
    simp only [Rook.isValidMove, ne_eq, not_true_eq_false, and_self, if_false, hz, hz2, add_zero,
      Rook.walk, or_self, hl]

theorem queen_defined_all (w : Bool) (g : Grid) {sr sc er ec : Int} (hs : inRange sr sc)
    (he : inRange er ec) : ∃ v, Queen.isValidMove w sr sc er ec g = some v := by
  rw [queen_split]
  split
  · exact rook_defined_all w g hs he
  · rename_i h
    exact bishop_defined w g hs he (by
      by_contra hh
      apply h
      left
      by_contra h3
      exact hh (Or.inl h3))

theorem pawn_defined (w : Bool) (g : Grid) {sr sc er ec : Int} (hs : inRange sr sc)
    (he : inRange er ec) : ∃ v, Pawn.isValidMove w sr sc er ec g = some v := by
  unfold Pawn.isValidMove
  simp only []
  repeat' split
  all_goals first
    | exact ⟨_, rfl⟩
    | (rename_i hnone
       have hout := (Grid.read_eq_none_iff g _ _).1 hnone
       exfalso
       apply hout
       unfold inRange at *
       omega)

theorem king_defined (w moved : Bool) (g : Grid) {sr sc er ec : Int} (hs : inRange sr sc)
    (he : inRange er ec) : ∃ v, King.isValidMove w moved sr sc er ec g = some v := by
  obtain ⟨l, hl⟩ := landing_defined w g he
  unfold King.isValidMove
  simp only []
  by_cases hnear : iabs (er - sr) ≤ 1 ∧ iabs (ec - sc) ≤ 1
  · rw [if_pos hnear]; exact ⟨l, hl⟩
  · rw [if_neg hnear]
    by_cases hc : iabs (er - sr) = 0 ∧ iabs (ec - sc) = 2 ∧ moved = false
    · rw [if_pos hc]
      have hcorner : inRange sr (if ec > sc then 7 else 0) := by
        unfold inRange at *; split_ifs <;> omega
      obtain ⟨cell, hcell⟩ := Grid.read_of_inRange g hcorner
      rw [hcell]
      cases cell with
      | none => exact ⟨_, rfl⟩
      | some rook =>
        simp only []
        split
        · have hroom : if decide (ec > sc) then sc < 7 else 0 < sc := by
            have h2 := hc.2.1
            unfold inRange iabs at *
            by_cases hgt : ec > sc
            · simp only [hgt, decide_True, if_true]; split_ifs at h2 <;> omega
            · simp only [hgt, decide_False, Bool.false_eq_true, if_false]
              split_ifs at h2 <;> omega
          obtain ⟨v, hv, _⟩ := king_scan_between g hs (decide (ec > sc)) hroom
          simp only [decide_eq_true_eq] at hv
          exact ⟨v, hv⟩
        · exact ⟨_, rfl⟩
    · rw [if_neg hc]; exact ⟨_, rfl⟩

/-- Every piece rule has defined behaviour between two cells of the board, the bishop
rule between two distinct cells. -/
theorem piece_defined (p : Piece) (g : Grid) {sr sc er ec : Int} (hs : inRange sr sc)
    (he : inRange er ec) (hb : p.kind = Kind.Bishop → sr ≠ er ∨ sc ≠ ec) :
    ∃ v, p.isValidMove sr sc er ec g = some v := by
  obtain ⟨k, w, m⟩ := p
  cases k
  · exact pawn_defined w g hs he
  · exact rook_defined_all w g hs he
  · exact knight_defined w g sr sc he
  · exact bishop_defined w g hs he (hb rfl)
  · exact queen_defined_all w g hs he
  · exact king_defined w m g hs he

/-! ### The saved file -/

/-- Reading back the character written for a cell gives the cell, marked as moved. -/
theorem loadCell_saveCell (cell : Option Piece) :
    Board.loadCell (Board.saveCell cell) = cell.map fun p => { p with hasMoved := true } := by
  cases cell with
  | none => decide
  | some p =>
    obtain ⟨k, w, m⟩ := p
    cases k <;> cases w <;> cases m <;> decide

theorem saveCell_ne_newline (cell : Option Piece) : Board.saveCell cell ≠ '\n' := by
  cases cell with
  | none => decide
  | some p =>
    obtain ⟨k, w, m⟩ := p
    cases k <;> cases w <;> cases m <;> decide

/-- A line without line feed, ended by a line feed, is the first line extracted. -/
theorem fileLines_line (l rest : List Char) (hl : '\n' ∉ l) :
    fileLines (l ++ '\n' :: rest) = l :: fileLines rest := by
  induction l with
  | nil => simp [fileLines]
  | cons ch l ih =>
    have hch : ch ≠ '\n' := fun h => hl (by rw [h]; exact List.mem_cons_self _ _)
    have hl1 : '\n' ∉ l := fun h => hl (List.mem_cons_of_mem _ h)
    rw [List.cons_append, fileLines, if_neg hch, ih hl1]

theorem fileLines_lines (ls : List (List Char)) (rest : List Char)
    (hls : ∀ l ∈ ls, '\n' ∉ l) :
    fileLines (ls.flatMap (fun l => l ++ ['\n']) ++ rest) = ls ++ fileLines rest := by
  induction ls with
  | nil => rfl
  | cons l ls ih =>
    rw [List.flatMap_cons, List.append_assoc, List.append_assoc, List.singleton_append,
      fileLines_line l _ (hls l (List.mem_cons_self _ _)),
      ih (fun l1 h1 => hls l1 (List.mem_cons_of_mem _ h1)), List.cons_append]

/-- The text of row `r` without its line feed. -/
theorem saveRow_eq (g : Grid) (r : Fin 8) :
    Board.saveRow g r = (List.finRange 8).map (fun c => Board.saveCell (g r c)) ++ ['\n'] := rfl

theorem rowText_getD (g : Grid) (r j : Fin 8) :
    ((List.finRange 8).map (fun c => Board.saveCell (g r c))).getD j.val '.' =
      Board.saveCell (g r j) := by
  fin_cases j <;> rfl

theorem rowText_no_newline (g : Grid) (r : Fin 8) :
    '\n' ∉ (List.finRange 8).map (fun c => Board.saveCell (g r c)) := by
  intro h
  obtain ⟨c, _, hc⟩ := List.mem_map.1 h
  exact saveCell_ne_newline _ hc

/-- The loop over the rows, on a stream that starts with one line of at least 8
characters per row: every row is read. -/
theorem loadRows_rows (f : Fin 8 → List Char) (hf : ∀ r, 8 ≤ (f r).length)
    (rest : List (List Char)) :
    ∀ (rs : List (Fin 8)) (g : Grid),
      Board.loadRows rs g (rs.map f ++ rest) =
        (rs.foldl (fun acc r => Board.loadLine acc r (f r)) g, rest, true) := by
  intro rs
  induction rs with
  | nil => intro g; rfl
  | cons r rs ih =>
    intro g
    have hlen : ¬ (f r).length < 8 := by have := hf r; omega
    simp only [List.map_cons, List.cons_append, Board.loadRows, List.headD_cons, hlen, if_false,
      List.tail_cons, ih, List.foldl_cons]

/-- The cell `(i, j)` after the rows `rs` were read. -/
theorem loadLine_foldl (f : Fin 8 → List Char) (i j : Fin 8) :
    ∀ (rs : List (Fin 8)) (g : Grid),
      (rs.foldl (fun acc r => Board.loadLine acc r (f r)) g) i j =
        if i ∈ rs then
          match Board.loadCell ((f i).getD j.val '.') with
          | some p => some p
          | none => g i j
        else g i j := by
  intro rs
  induction rs with
  | nil => intro g; simp
  | cons r rs ih =>
    intro g
    rw [List.foldl_cons, ih]
    by_cases hir : i = r
    · subst hir
      simp only [List.mem_cons, true_or, if_true, Board.loadLine]
      split_ifs <;> cases Board.loadCell ((f i).getD j.val '.') <;> rfl
    · by_cases hmem : i ∈ rs
      · simp only [hmem, List.mem_cons, or_true, if_true, Board.loadLine, if_neg hir]
      · simp only [hmem, List.mem_cons, hir, or_self, if_false, Board.loadLine]

/-- The lines of the file `saveGame` writes. -/
theorem fileLines_saveGame (b : Board) (history : List (List Char))
    (hnl : ∀ m ∈ history, '\n' ∉ m) :
    fileLines (b.saveGame history) =
      (List.finRange 8).map (fun r => (List.finRange 8).map (fun c => Board.saveCell (b.squares r c)))
        ++ ("HISTORY".toList :: history) := by
  have hrows : (List.finRange 8).flatMap (fun r => Board.saveRow b.squares r) =
      ((List.finRange 8).map (fun r =>
        (List.finRange 8).map (fun c => Board.saveCell (b.squares r c)))).flatMap
          (fun l => l ++ ['\n']) := by
    rw [List.flatMap_map]
    rfl
  have hmark : "HISTORY\n".toList = "HISTORY".toList ++ ['\n'] := by decide
  have hhist := fileLines_lines history [] hnl
  rw [List.append_nil] at hhist
  unfold Board.saveGame
  rw [hrows, List.append_assoc, fileLines_lines _ _ (by
      intro l hl
      obtain ⟨r, _, rfl⟩ := List.mem_map.1 hl
      exact rowText_no_newline b.squares r),
    hmark, List.append_assoc, List.singleton_append,
    fileLines_line _ _ (by decide), hhist]
  simp [fileLines]

/-! ### File characters and rank digits -/

/-- A column of the board as a file character and back. -/
theorem file_round (c : Int) (h0 : 0 ≤ c) (h8 : c < 8) :
    toChar (charCode 'a' + c) = fileChar c ∧ charCode (fileChar c) - charCode 'a' = c := by
  interval_cases c <;> exact ⟨by decide, by decide⟩

/-- A row of the board as a rank digit and back. -/
theorem rank_round (r : Int) (h0 : 0 ≤ r) (h8 : r < 8) :
    toChar (charCode '0' + (8 - r)) = rankChar r ∧
      8 - (charCode (rankChar r) - charCode '0') = r := by
  interval_cases r <;> exact ⟨by decide, by decide⟩

/-- A string whose second character is a rank digit is none of the command words. -/
theorem rankChar_not_letter (r : Int) (h0 : 0 ≤ r) (h8 : r < 8) (a c d : Char) :
    [a, rankChar r, c, d] ∉ Game.commandWords := by
  have hd : rankChar r ≠ 'u' ∧ rankChar r ≠ 'a' ∧ rankChar r ≠ 'o' ∧ rankChar r ≠ 'e' := by
    interval_cases r <;> decide
  intro h
  simp only [Game.commandWords, List.mem_cons, List.mem_singleton, List.not_mem_nil,
    or_false] at h
  have e1 : "quit".toList = ['q', 'u', 'i', 't'] := by decide
  have e2 : "save".toList = ['s', 'a', 'v', 'e'] := by decide
  have e3 : "load".toList = ['l', 'o', 'a', 'd'] := by decide
  have e4 : "help".toList = ['h', 'e', 'l', 'p'] := by decide
  rw [e1, e2, e3, e4] at h
  simp only [List.cons.injEq, and_true] at h
  rcases h with h | h | h | h
  · exact hd.1 h.2.1
  · exact hd.2.1 h.2.1
  · exact hd.2.2.1 h.2.1
  · exact hd.2.2.2 h.2.1

/-! ### Boards without pawns and the `lastMove` record -/

theorem enPassantTest_not_pawn (b : Board) (p : Piece) (sr sc er ec : Int)
    (hk : p.kind ≠ Kind.Pawn) : b.enPassantTest p sr sc er ec = some false := by
  unfold Board.enPassantTest
  rw [if_neg (fun h => hk h.1)]

/-- For a piece that is not a pawn the verdict of `tryMove` does not depend on the
`lastMove` record. -/
theorem tryMove_lastMove (b : Board) (ls le : Int × Int) {sr sc er ec : Int} (c : Bool)
    (he : inRange er ec)
    (hnp : ∀ p, b.squares.read sr sc = some (some p) → p.kind ≠ Kind.Pawn) :
    verdict (Board.tryMove { b with lastMoveStart := ls, lastMoveEnd := le } sr sc er ec c) =
      verdict (b.tryMove sr sc er ec c) := by
  unfold Board.tryMove
  simp only []
  cases hread : b.squares.read sr sc with
  | none => rfl
  | some cell =>
    cases cell with
    | none => rfl
    | some p =>
      have hk := hnp p hread
      simp only [enPassantTest_not_pawn _ p sr sc er ec hk, Bool.false_eq_true, if_false]
      by_cases hcol : p.isWhite ≠ c
      · rw [if_pos hcol, if_pos hcol]; rfl
      · rw [if_neg hcol, if_neg hcol]
        cases hv : p.isValidMove sr sc er ec b.squares with
        | none => rfl
        | some v =>
          cases v with
          | false => rfl
          | true =>
            simp only []
            rw [Board.simulate_plain b p c hread he,
              Board.simulate_plain { b with lastMoveStart := ls, lastMoveEnd := le } p c hread he]
            simp only [verdict, Option.map_map]
            rfl

theorem any_congr_mem {α : Type} (f g : α → Bool) :
    ∀ l : List α, (∀ x ∈ l, f x = g x) → l.any f = l.any g := by
  intro l
  induction l with
  | nil => intro _; rfl
  | cons a l ih =>
    intro h
    rw [List.any_cons, List.any_cons, h a (List.mem_cons_self _ _),
      ih (fun x hx => h x (List.mem_cons_of_mem _ hx))]

theorem verdict_isSome (x : Option (Bool × Board)) : (verdict x).isSome = x.isSome := by
  cases x <;> rfl

theorem read_not_pawn {g : Grid}
    (hnp : ∀ i j : Fin 8, ((g i j).all fun p => decide (p.kind ≠ Kind.Pawn)) = true)
    {r c : Int} {p : Piece} (h : g.read r c = some (some p)) : p.kind ≠ Kind.Pawn := by
  have hin := Grid.inRange_of_read h
  unfold Grid.read at h
  simp only [hin, dite_true, Option.some.injEq] at h
  have := hnp ⟨r.toNat, by unfold inRange at hin; omega⟩ ⟨c.toNat, by unfold inRange at hin; omega⟩
  rw [h] at this
  simpa using this

/-- On a board without pawns the answer of `hasLegalMoves` does not depend on the
`lastMove` record. -/
theorem hasLegalMoves_lastMove (b : Board) (ls le : Int × Int) (c v : Bool)
    (hnp : ∀ i j : Fin 8, ((b.squares i j).all fun p => decide (p.kind ≠ Kind.Pawn)) = true)
    (hdef : ∀ s ∈ allSquares, b.ownPiece c s = true →
      ∀ e ∈ allSquares, (b.tryMove s.1 s.2 e.1 e.2 c).isSome)
    (hv : verdict (b.hasLegalMoves c) = some v) :
    Board.hasLegalMoves { b with lastMoveStart := ls, lastMoveEnd := le } c =
      some (v, { b with lastMoveStart := ls, lastMoveEnd := le }) := by
  have hin : ∀ s ∈ allSquares, inRange s.1 s.2 := fun s hs => (mem_allSquares s.1 s.2).1 hs
  have hverd : ∀ s ∈ allSquares, ∀ e ∈ allSquares,
      verdict (Board.tryMove { b with lastMoveStart := ls, lastMoveEnd := le } s.1 s.2 e.1 e.2 c)
        = verdict (b.tryMove s.1 s.2 e.1 e.2 c) :=
    fun s _ e he => tryMove_lastMove b ls le c (hin e he) (fun p hp => read_not_pawn hnp hp)
  have hdef1 : ∀ s ∈ allSquares,
      Board.ownPiece { b with lastMoveStart := ls, lastMoveEnd := le } c s = true →
      ∀ e ∈ allSquares,
        (Board.tryMove { b with lastMoveStart := ls, lastMoveEnd := le } s.1 s.2 e.1 e.2 c).isSome := by
    intro s hs hown e he
    rw [← verdict_isSome, hverd s hs e he, verdict_isSome]
    exact hdef s hs hown e he
  have h0 := anyMove_eq b c allSquares hin hdef
  have h1 := anyMove_eq { b with lastMoveStart := ls, lastMoveEnd := le } c allSquares hin hdef1
  unfold Board.hasLegalMoves at hv ⊢
  rw [h0] at hv
  rw [h1]
  simp only [verdict, Option.map_some', Option.some.injEq] at hv
  rw [← hv]
  congr 2
  apply any_congr_mem
  intro s hs
  congr 1
  apply any_congr_mem
  intro e he
  rw [hverd s hs e he]
  rfl

/-- What the head of the loop of `Game::play` reports, from the answers of
`hasLegalMoves` and `isInCheck`. -/
theorem report_of_answers {b : Board} {w v chk : Bool}
    (h : b.hasLegalMoves w = some (v, b)) (hc : Board.isInCheck b.squares w = some chk) :
    Game.report b w = some (if v = false then
      (if chk then Report.checkmate (!w) else Report.stalemate) else Report.toMove) := by
  unfold Game.report
  simp only [hc, h, Option.bind_eq_bind, Option.some_bind]
  cases v <;> cases chk <;> rfl

/-! ### Unmoved rooks and kings -/

theorem unmovedAtHome_of_cells {g : Grid} (h : ∀ i j : Fin 8, cellAtHome i (g i j) = true) :
    UnmovedAtHome g := by
  intro r c k hk hm hkind
  have hin := Grid.inRange_of_read hk
  have h1 := h ⟨r.toNat, by unfold inRange at hin; omega⟩ ⟨c.toNat, by unfold inRange at hin; omega⟩
  unfold Grid.read at hk
  simp only [hin, dite_true, Option.some.injEq] at hk
  rw [hk] at h1
  simp only [cellAtHome, hm, Bool.false_or, Bool.or_eq_true, Bool.not_eq_true',
    Bool.or_eq_false_iff, decide_eq_false_iff_not, decide_eq_true_eq] at h1
  rcases h1 with h1 | h1
  · rcases hkind with hkind | hkind
    · exact absurd hkind h1.1
    · exact absurd hkind h1.2
  · unfold inRange at hin
    split_ifs at h1 ⊢ <;> omega

theorem unmovedAtHome_initial : UnmovedAtHome Board.initial.squares :=
  unmovedAtHome_of_cells (by decide!)

theorem setMoved_hasMoved (p : Piece) : p.setMoved.hasMoved = true := rfl

/-- A move executed by `movePiece` keeps every unmoved rook and king on its back rank:
the cells it writes hold a piece marked as moved, or nothing. -/
theorem unmovedAtHome_after_move {b : Board} {w : Bool} {sr sc er ec : Int} {b1 : Board}
    (hJ : UnmovedAtHome b.squares) (h : b.movePiece sr sc er ec w = some (true, b1)) :
    UnmovedAtHome b1.squares := by
  obtain ⟨p, _, _, _, _, _, hcase⟩ := Board.movePiece_reads h
  have hmv : ∀ (q k : Piece), some (some q.setMoved) = some (some k) → k.hasMoved = false →
      False := by
    intro q k hq hm
    simp only [Option.some.injEq] at hq
    rw [← hq, setMoved_hasMoved] at hm
    cases hm
  intro r c k hk hm hkind
  have hrk : ∀ (rook : Option Piece) (k : Piece),
      some (rook.map Piece.setMoved) = some (some k) → k.hasMoved = false → False := by
    intro rook k hk hm
    cases rook with
    | none => cases hk
    | some rk => exact hmv rk k hk hm
  rcases hcase with ⟨_, hread⟩ | ⟨_, _, _, hread⟩ | ⟨_, _, _, rook, _, hread⟩
  all_goals
    rw [hread] at hk
    split_ifs at hk
    all_goals first
      | exact hJ r c k hk hm hkind
      | exact (hmv _ k hk hm).elim
      | exact (hrk _ k hk hm).elim
      | cases hk

/-- In every state of a game played from the initial position, every unmoved rook and
king stands on the back rank of its colour. -/
theorem Reachable.unmovedAtHome {b : Board} {w : Bool} (h : Reachable b w) :
    UnmovedAtHome b.squares := by
  induction h with
  | start => exact unmovedAtHome_initial
  | move _ hm ih => exact unmovedAtHome_after_move ih hm

/-- On such a board the unmoved rook found in the corner of the row of an unmoved king
has the colour of that king, so that the test of the rook's colour, which
`King::isValidMove` does not make, would change nothing. -/
theorem castle_rook_colour {g : Grid} (hJ : UnmovedAtHome g) {sr sc col : Int} {k rook : Piece}
    (hk : g.read sr sc = some (some k)) (hkk : k.kind = Kind.King) (hkm : k.hasMoved = false)
    (hr : g.read sr col = some (some rook)) (hrk : rook.kind = Kind.Rook)
    (hrm : rook.hasMoved = false) : rook.isWhite = k.isWhite := by
  have h1 := hJ sr sc k hk hkm (Or.inr hkk)
  have h2 := hJ sr col rook hr hrm (Or.inl hrk)
  cases hw : k.isWhite <;> cases hv : rook.isWhite <;> rw [hw] at h1 <;> rw [hv] at h2 <;>
    simp only [Bool.false_eq_true, if_false, if_true] at h1 h2 <;> first | rfl | omega

theorem loadCell_moved {ch : Char} {p : Piece} (h : Board.loadCell ch = some p) :
    p.hasMoved = true := by
  unfold Board.loadCell at h
  simp only [] at h
  split_ifs at h <;> cases h <;> rfl

theorem loadRows_moved :
    ∀ (rs : List (Fin 8)) (g : Grid) (ls : List (List Char)),
      (∀ i j p, g i j = some p → p.hasMoved = true) →
      ∀ i j p, (Board.loadRows rs g ls).1 i j = some p → p.hasMoved = true := by
  intro rs
  induction rs with
  | nil => intro g ls hg; exact hg
  | cons r rs ih =>
    intro g ls hg
    unfold Board.loadRows
    simp only []
    split_ifs
    · exact hg
    · apply ih
      intro i j p hp
      unfold Board.loadLine at hp
      split_ifs at hp
      · cases hc : Board.loadCell ((ls.headD []).getD j.val '.') with
        | none => rw [hc] at hp; exact hg i j p hp
        | some q =>
          rw [hc] at hp
          simp only [Option.some.injEq] at hp
          rw [← hp]
          exact loadCell_moved hc
      · exact hg i j p hp

/-- After `loadGame` every unmoved rook and king still stands on its back rank: a file
that cannot be opened leaves the board as it was, and every piece read from a file is
marked as moved. -/
theorem unmovedAtHome_loaded (b : Board) (file : Option (List Char))
    (history : List (List Char)) (hJ : UnmovedAtHome b.squares) :
    UnmovedAtHome (b.loadGame file history).1.squares := by
  cases file with
  | none => exact hJ
  | some content =>
    have hall : ∀ i j p, (Board.loadRows (List.finRange 8) (fun _ _ => none)
        (fileLines content)).1 i j = some p → p.hasMoved = true :=
      loadRows_moved _ _ _ (fun _ _ _ h => by cases h)
    have hsq : (b.loadGame (some content) history).1.squares =
        (Board.loadRows (List.finRange 8) (fun _ _ => none) (fileLines content)).1 := by
      unfold Board.loadGame
      simp only []
      split <;> rename_i heq <;> rw [heq]
    rw [hsq]
    intro r c k hk hm _
    have hin := Grid.inRange_of_read hk
    unfold Grid.read at hk
    simp only [hin, dite_true, Option.some.injEq] at hk
    rw [hall _ _ k hk] at hm
    cases hm

/-! ### Defined behaviour of the attack test -/

/-- The loops of `isSquareAttacked` have defined behaviour for a target on the board
that holds no bishop of the attacking colour. -/
theorem attackedFrom_defined (g : Grid) {row col : Int} (w : Bool) (ht : inRange row col)
    (hnb : ∀ p, g.read row col = some (some p) → p.isWhite = w → p.kind ≠ Kind.Bishop) :
    ∀ l : List (Int × Int), (∀ rc ∈ l, inRange rc.1 rc.2) →
      ∃ v, Board.attackedFrom g row col w l = some v := by
  intro l
  induction l with
  | nil => intro _; exact ⟨false, rfl⟩
  | cons rc rest ih =>
    intro hl
    have hin := hl rc (List.mem_cons_self _ _)
    obtain ⟨v0, hv0⟩ := ih (fun x hx => hl x (List.mem_cons_of_mem _ hx))
    obtain ⟨cell, hcell⟩ := Grid.read_of_inRange g hin
    rw [Board.attackedFrom, hcell]
    cases cell with
    | none => exact ⟨v0, hv0⟩
    | some p =>
      simp only []
      by_cases hw : p.isWhite = w
      · rw [if_pos hw]
        obtain ⟨v, hv⟩ := piece_defined p g hin ht (by
          intro hb
          by_contra hsame
          have h1 : rc.1 = row := by tauto
          have h2 : rc.2 = col := by tauto
          rw [h1, h2] at hcell
          exact hnb p hcell hw hb)
        rw [hv]
        cases v
        · exact ⟨v0, hv0⟩
        · exact ⟨true, rfl⟩
      · rw [if_neg hw]; exact ⟨v0, hv0⟩

theorem isSquareAttacked_defined (g : Grid) {row col : Int} (w : Bool) (ht : inRange row col)
    (hnb : ∀ p, g.read row col = some (some p) → p.isWhite = w → p.kind ≠ Kind.Bishop) :
    ∃ v, Board.isSquareAttacked g row col w = some v :=
  attackedFrom_defined g w ht hnb allSquares (fun rc h => (mem_allSquares rc.1 rc.2).1 h)

/-- A move accepted by `Pawn::isValidMove` goes one or two rows forward. -/
theorem pawn_true_forward {w : Bool} {sr sc er ec : Int} {g : Grid}
    (h : Pawn.isValidMove w sr sc er ec g = some true) :
    er = sr + (if w then -1 else 1) ∨ er = sr + 2 * (if w then -1 else 1) := by
  by_cases h1 : er = sr + (if w then -1 else 1)
  · exact Or.inl h1
  · by_cases h2 : er = sr + 2 * (if w then -1 else 1)
    · exact Or.inr h2
    · exfalso
      have hd : ¬ (iabs (ec - sc) = 1 ∧ er = sr + (if w = true then -1 else 1)) :=
        fun hh => h1 hh.2
      simp only [Pawn.isValidMove, if_neg hd, if_neg h1, if_neg h2, ite_self] at h
      split at h
      · split at h <;> cases h
      · cases h

/-- By its own rule a pawn never reaches an empty cell of another column. -/
theorem pawn_other_column_empty {w : Bool} {sr sc er ec : Int} {g : Grid}
    (hne : sc ≠ ec) (he : g.read er ec = some none) :
    Pawn.isValidMove w sr sc er ec g = some false := by
  simp only [Pawn.isValidMove, he, hne, if_false, ite_self]

/-- By its own rule a pawn reaches the empty cell straight ahead of it. -/
theorem pawn_ahead_empty {w : Bool} {sr sc er : Int} {g : Grid}
    (hrow : er = sr + (if w then -1 else 1)) (he : g.read er sc = some none) :
    Pawn.isValidMove w sr sc er sc g = some true := by
  simp only [Pawn.isValidMove, he, if_true, if_pos hrow]

/-- An empty cell counts as attacked as soon as one piece of the colour has an accepted
move onto it. -/
theorem isSquareAttacked_true_of {g : Grid} {row col r c : Int} {w : Bool} {p : Piece}
    (ht : g.read row col = some none) (hp : g.read r c = some (some p)) (hw : p.isWhite = w)
    (hv : p.isValidMove r c row col g = some true) :
    Board.isSquareAttacked g row col w = some true := by
  obtain ⟨v, hv0⟩ := isSquareAttacked_defined g w (Grid.inRange_of_read ht)
    (by intro q hq; rw [ht] at hq; cases hq)
  cases v with
  | true => exact hv0
  | false =>
    have := (Board.isSquareAttacked_false_iff g row col w).1 hv0 r c p hp hw
    rw [hv] at this
    cases this

/-! ## The claims -/

/-- C1 (the code departs from the claim): on a board with exactly one king of each
colour whose unmoved kings stand on column 4, a move for which `tryMove` returns true
and which does not enter the promotion block is executed by `movePiece`, and in the
board left behind (rook relocation included) the mover is not in check; that `s` and
`e` are in range follows from `tryMove` returning at all. A move that enters the
promotion block has no defined result: `movePiece` deletes the pawn and then reads its
colour. So it is on `promotionBoard`, the board `loadGame` builds from the file shown,
for a7-a8: `tryMove` returns true and `movePiece` leaves the defined behaviour. The
castle e1-g1 on `castleBoard` is a move of the first kind. -/
theorem c1_promotion_reads_deleted_pawn :
    (∀ (b : Board) (w : Bool) (sr sc er ec : Int),
      countKings b.squares true = 1 → countKings b.squares false = 1 →
      (∀ r c k, b.squares.read r c = some (some k) → k.kind = Kind.King →
        k.hasMoved = false → c = 4) →
      verdict (b.tryMove sr sc er ec w) = some true →
      (b.entersPromotion sr sc er ec = false →
        ∃ b1, b.movePiece sr sc er ec w = some (true, b1) ∧
          Board.isInCheck b1.squares w = some false) ∧
      (b.entersPromotion sr sc er ec = true → b.movePiece sr sc er ec w = none)) ∧
    (∃ b1, castleBoard.movePiece 7 4 7 6 true = some (true, b1) ∧
      Board.isInCheck b1.squares true = some false) ∧
    (∀ i j : Fin 8, (Board.initial.loadGame (some
      "....k...\nP.......\n........\n........\n........\n........\n........\nK.......\nHISTORY\n".toList)
      []).1.squares i j = promotionBoard.squares i j) ∧
    countKings promotionBoard.squares true = 1 ∧
    countKings promotionBoard.squares false = 1 ∧
    (∀ i j : Fin 8, cellHome j (promotionBoard.squares i j) = true) ∧
    verdict (promotionBoard.tryMove 1 0 0 0 true) = some true ∧
    promotionBoard.entersPromotion 1 0 0 0 = true ∧
    promotionBoard.movePiece 1 0 0 0 true = none := by
  refine ⟨?_, ⟨_, rfl, by decide!⟩, by decide!, by decide!, by decide!, by decide!,
    by decide!, by decide!, Option.isNone_iff_eq_none.1 (by decide!)⟩
  intro b w sr sc er ec hwhite hblack hhome htry
  obtain ⟨b0, hb0⟩ := verdict_eq_some htry
  refine ⟨?_, fun hp => Board.tryMove_true_promotion hb0 hp⟩
  intro hn
  obtain ⟨b1, hb1⟩ := Board.tryMove_true_movePiece hb0 hn
  have hone : countKings b.squares w = 1 := by
    cases w
    · exact hblack
    · exact hwhite
  refine ⟨b1, hb1, Board.movePiece_safe ?_ (countKings_exists hone) ?_ hb1⟩
  · intro r c k hk hkk _ hkm
    exact hhome r c k hk hkk hkm
  · intro r c k r1 c1 k1 hk hkk hkw hk1 hkk1 hkw1
    exact countKings_unique hone hk hkk hkw hk1 hkk1 hkw1

/-- C2 (the code departs from the claim): after 1. e4 d5 2. exd5 Qxd5 3. Nf3 a6 4. Bc4
Qe5+, each move executed by `movePiece`, White is in check (`isInCheck` is true on the
board before the move) and still `tryMove` accepts the castle e1-g1, which `movePiece`
then executes. -/
theorem c2_castle_accepted_while_in_check :
    ∃ b1 b2 b3 b4 b5 b6 b7 b8 b9,
      Board.initial.movePiece 6 4 4 4 true = some (true, b1) ∧
      b1.movePiece 1 3 3 3 false = some (true, b2) ∧
      b2.movePiece 4 4 3 3 true = some (true, b3) ∧
      b3.movePiece 0 3 3 3 false = some (true, b4) ∧
      b4.movePiece 7 6 5 5 true = some (true, b5) ∧
      b5.movePiece 1 0 2 0 false = some (true, b6) ∧
      b6.movePiece 7 5 4 2 true = some (true, b7) ∧
      b7.movePiece 3 3 3 4 false = some (true, b8) ∧
      Board.isInCheck b8.squares true = some true ∧
      verdict (b8.tryMove 7 4 7 6 true) = some true ∧
      b8.movePiece 7 4 7 6 true = some (true, b9) := by
  refine ⟨_, _, _, _, _, _, _, _, _, rfl, rfl, rfl, rfl, rfl, rfl, rfl, rfl, ?_, ?_, rfl⟩
  · decide!
  · decide!

/-- C3: a call of `movePiece` that returns false leaves the board as it was: the piece
placement with every `hasMoved` flag, and the `lastMove` record. -/
theorem c3_movePiece_false_leaves_state (b : Board) (sr sc er ec : Int) (w : Bool)
    (b1 : Board) (h : b.movePiece sr sc er ec w = some (false, b1)) : b1 = b :=
  Board.movePiece_false_state b sr sc er ec w b1 h

/-- Witness for C3: on `pinBoard` the pinned white rook steps aside, the move is applied,
found to leave the king in check, undone and refused. -/
theorem c3_witness :
    ∃ b1, pinBoard.movePiece 6 4 6 3 true = some (false, b1) ∧ b1 = pinBoard :=
  ⟨_, rfl, c3_movePiece_false_leaves_state pinBoard 6 4 6 3 true _ rfl⟩

/-- C4: whatever `tryMove` returns, the board it leaves behind is the board it was
called on: the piece placement with every `hasMoved` flag, and the `lastMove` record. -/
theorem c4_tryMove_leaves_state (b : Board) (sr sc er ec : Int) (w v : Bool) (b1 : Board)
    (h : b.tryMove sr sc er ec w = some (v, b1)) : b1 = b :=
  Board.tryMove_state b sr sc er ec w v b1 h

/-- Witness for C4: the simulated castle on `castleBoard` is undone. -/
theorem c4_witness :
    ∃ b1, castleBoard.tryMove 7 4 7 6 true = some (true, b1) ∧ b1 = castleBoard := by
  obtain ⟨b1, h⟩ := verdict_eq_some (show verdict (castleBoard.tryMove 7 4 7 6 true) = some true
    by decide!)
  exact ⟨b1, h, c4_tryMove_leaves_state castleBoard 7 4 7 6 true true b1 h⟩

/-- C5 (the code departs from the claim): in every state reached from the initial
position by `movePiece` calls that returned true, made by White and Black in turn
starting with White, the board holds exactly one white king and exactly one black
king. But play can reach a call whose result the source does not define: after 1. e4 d5
2. exd5 Kd7 3. d6 a6 4. dxe7 a5, each move executed by `movePiece`, `tryMove` accepts
e7-e8 and `movePiece` enters the promotion block, where it deletes the pawn and then
reads its colour for the new queen. -/
theorem c5_play_reaches_promotion :
    (∀ (b : Board) (w : Bool), Reachable b w →
      countKings b.squares true = 1 ∧ countKings b.squares false = 1) ∧
    ∃ b1 b2 b3 b4 b5 b6 b7 b8,
      Board.initial.movePiece 6 4 4 4 true = some (true, b1) ∧
      b1.movePiece 1 3 3 3 false = some (true, b2) ∧
      b2.movePiece 4 4 3 3 true = some (true, b3) ∧
      b3.movePiece 0 4 1 3 false = some (true, b4) ∧
      b4.movePiece 3 3 2 3 true = some (true, b5) ∧
      b5.movePiece 1 0 2 0 false = some (true, b6) ∧
      b6.movePiece 2 3 1 4 true = some (true, b7) ∧
      b7.movePiece 2 0 3 0 false = some (true, b8) ∧
      Reachable b8 true ∧
      b8.squares.read 1 4 = some (some ⟨Kind.Pawn, true, true⟩) ∧
      b8.squares.read 0 4 = some none ∧
      b8.squares.read 7 4 = some (some ⟨Kind.King, true, false⟩) ∧
      (∀ r : Int, 1 < r → r < 7 → b8.squares.read r 4 = some none) ∧
      verdict (b8.tryMove 1 4 0 4 true) = some true ∧
      b8.entersPromotion 1 4 0 4 = true ∧
      b8.movePiece 1 4 0 4 true = none := by
  refine ⟨fun b w h => ⟨(Reachable.playInv h).1, (Reachable.playInv h).2.1⟩, ?_⟩
  refine ⟨_, _, _, _, _, _, _, _, rfl, rfl, rfl, rfl, rfl, rfl, rfl, rfl, ?_, by decide!,
    by decide!, by decide!, ?_, by decide!, by decide!,
    Option.isNone_iff_eq_none.1 (by decide!)⟩
  · have h1 := @Reachable.move _ true 6 4 4 4 _ Reachable.start rfl
    have h2 := @Reachable.move _ false 1 3 3 3 _ h1 rfl
    have h3 := @Reachable.move _ true 4 4 3 3 _ h2 rfl
    have h4 := @Reachable.move _ false 0 4 1 3 _ h3 rfl
    have h5 := @Reachable.move _ true 3 3 2 3 _ h4 rfl
    have h6 := @Reachable.move _ false 1 0 2 0 _ h5 rfl
    have h7 := @Reachable.move _ true 2 3 1 4 _ h6 rfl
    exact @Reachable.move _ false 2 0 3 0 _ h7 rfl
  · intro r h1 h2
    have hr : r = 2 ∨ r = 3 ∨ r = 4 ∨ r = 5 ∨ r = 6 := by omega
    rcases hr with rfl | rfl | rfl | rfl | rfl <;> decide!

/-- C6: when a king standing on column 4 makes a two-column move along its row and
`movePiece` returns true, the corner of that row on the side moved toward held a rook;
afterwards the king is on `(r, ec)` and the rook on the cell the king passed over, both
with `hasMoved` true, the corner and the king's start cell are empty, and no other cell
has changed. -/
theorem c6_castle_relocates_king_and_rook (b : Board) (r ec : Int) (w : Bool) (k : Piece)
    (b1 : Board)
    (hk : b.squares.read r 4 = some (some k)) (hkk : k.kind = Kind.King)
    (hdc : iabs (ec - 4) = 2)
    (h : b.movePiece r 4 r ec w = some (true, b1)) :
    ∃ rook, b.squares.read r (if ec > 4 then 7 else 0) = some (some rook) ∧
      rook.kind = Kind.Rook ∧
      b1.squares.read r ec = some (some { k with hasMoved := true }) ∧
      b1.squares.read r (if ec > 4 then ec - 1 else ec + 1)
        = some (some { rook with hasMoved := true }) ∧
      b1.squares.read r (if ec > 4 then 7 else 0) = some none ∧
      b1.squares.read r 4 = some none ∧
      ∀ r1 c1, ¬ (r1 = r ∧ (c1 = 4 ∨ c1 = ec ∨ c1 = (if ec > 4 then ec - 1 else ec + 1) ∨
          c1 = (if ec > 4 then 7 else 0))) →
        b1.squares.read r1 c1 = b.squares.read r1 c1 := by
  obtain ⟨p, hs, _, he, _, _, hcase⟩ := Board.movePiece_reads h
  have hsr := Grid.inRange_of_read hs
  rw [hk] at hs
  simp only [Option.some.injEq] at hs
  subst hs
  rcases hcase with ⟨hep, _⟩ | ⟨hnc, _⟩ | ⟨_, _, hv, rook0, hrook0, hread⟩
  · have := ((Board.enPassantTest_true_iff _ _ _ _ _ _).1 hep).1
    rw [hkk] at this; cases this
  · exact absurd ⟨hkk, hdc⟩ hnc
  · have hvk : King.isValidMove k.isWhite k.hasMoved r 4 r ec b.squares = some true := by
      unfold Piece.isValidMove at hv
      simpa only [hkk] using hv
    obtain ⟨_, _, hside⟩ := King.castle_true_e hvk hdc
    rcases hside with ⟨rfl, _, _, rk, hrk, hrkk, _⟩ | ⟨rfl, _, _, _, rk, hrk, hrkk, _⟩
    · simp only [show (6 : Int) > 4 by decide, if_true, show (6 : Int) - 1 = 5 by decide]
        at hrook0 hread ⊢
      rw [Grid.read_set _ _ he, Grid.read_moved _ _ hsr he] at hrook0
      simp only [show ¬ ((7 : Int) = 6) by decide, show ¬ ((7 : Int) = 4) by decide, and_false,
        if_false, hrk, Option.some.injEq] at hrook0
      subst hrook0
      refine ⟨rk, hrk, hrkk, ?_, ?_, ?_, ?_, ?_⟩
      · rw [hread]; simp [Piece.setMoved]
      · rw [hread]; simp [Piece.setMoved]
      · rw [hread]; simp
      · rw [hread]; simp
      · intro r1 c1 hne
        rw [hread]
        have h1 : ¬ (r1 = r ∧ c1 = 5) := fun hh => hne ⟨hh.1, Or.inr (Or.inr (Or.inl hh.2))⟩
        have h2 : ¬ (r1 = r ∧ c1 = 7) := fun hh => hne ⟨hh.1, Or.inr (Or.inr (Or.inr hh.2))⟩
        have h3 : ¬ (r1 = r ∧ c1 = 6) := fun hh => hne ⟨hh.1, Or.inr (Or.inl hh.2)⟩
        have h4 : ¬ (r1 = r ∧ c1 = 4) := fun hh => hne ⟨hh.1, Or.inl hh.2⟩
        simp only [h1, h2, h3, h4, if_false]
    · simp only [show ¬ ((2 : Int) > 4) by decide, if_false, show (2 : Int) + 1 = 3 by decide]
        at hrook0 hread ⊢
      rw [Grid.read_set _ _ he, Grid.read_moved _ _ hsr he] at hrook0
      simp only [show ¬ ((0 : Int) = 2) by decide, show ¬ ((0 : Int) = 4) by decide, and_false,
        if_false, hrk, Option.some.injEq] at hrook0
      subst hrook0
      refine ⟨rk, hrk, hrkk, ?_, ?_, ?_, ?_, ?_⟩
      · rw [hread]; simp [Piece.setMoved]
      · rw [hread]; simp [Piece.setMoved]
      · rw [hread]; simp
      · rw [hread]; simp
      · intro r1 c1 hne
        rw [hread]
        have h1 : ¬ (r1 = r ∧ c1 = 3) := fun hh => hne ⟨hh.1, Or.inr (Or.inr (Or.inl hh.2))⟩
        have h2 : ¬ (r1 = r ∧ c1 = 0) := fun hh => hne ⟨hh.1, Or.inr (Or.inr (Or.inr hh.2))⟩
        have h3 : ¬ (r1 = r ∧ c1 = 2) := fun hh => hne ⟨hh.1, Or.inr (Or.inl hh.2)⟩
        have h4 : ¬ (r1 = r ∧ c1 = 4) := fun hh => hne ⟨hh.1, Or.inl hh.2⟩
        simp only [h1, h2, h3, h4, if_false]

/-- Witness for C6, the scenario of the claim: on `castleBoard` (White king e1, rooks a1
and h1 unmoved, f1 and g1 empty and unattacked) `tryMove(e1, g1, White)` is true, and after
`movePiece` the king is on g1, the rook on f1, and h1 and e1 are empty. -/
theorem c6_witness :
    verdict (castleBoard.tryMove 7 4 7 6 true) = some true ∧
    ∃ b1, castleBoard.movePiece 7 4 7 6 true = some (true, b1) ∧
      b1.squares.read 7 6 = some (some ⟨Kind.King, true, true⟩) ∧
      b1.squares.read 7 5 = some (some ⟨Kind.Rook, true, true⟩) ∧
      b1.squares.read 7 7 = some none ∧ b1.squares.read 7 4 = some none := by
  refine ⟨by decide!, ?_⟩
  obtain ⟨b1, hb1⟩ := verdict_eq_some
    (show verdict (castleBoard.movePiece 7 4 7 6 true) = some true by decide!)
  obtain ⟨rook, hrook, _, h1, h2, h3, h4, _⟩ :=
    c6_castle_relocates_king_and_rook castleBoard 7 6 true ⟨Kind.King, true, false⟩ b1
      (by decide!) rfl (by decide) hb1
  have e7 : (if (6 : Int) > 4 then (7 : Int) else 0) = 7 := by decide
  have e5 : (if (6 : Int) > 4 then (6 : Int) - 1 else 6 + 1) = 5 := by decide
  rw [e7] at hrook h3
  rw [e5] at h2
  have hr : castleBoard.squares.read 7 7 = some (some ⟨Kind.Rook, true, false⟩) := by decide!
  rw [hr] at hrook
  simp only [Option.some.injEq] at hrook
  subst hrook
  exact ⟨b1, hb1, h1, h2, h3, h4⟩

/-- C7: a pawn of colour `w` on `(sr, sc)` steps one row and one column onto the empty
cell `(er, ec)`, the cell `(sr, ec)` holds a pawn, and the recorded last move (one is on
record: its start row is not the -1 of a fresh board) ended on `(sr, ec)` after two rows.
If the capture does not leave the mover in check, `movePiece` returns true; afterwards
`(sr, ec)` and `(sr, sc)` are empty, `(er, ec)` holds the capturing pawn with `hasMoved`
true, `lastMove` is the move made, and every other cell is unchanged. -/
theorem c7_en_passant_executes (b : Board) (p q : Piece) (sr sc er ec : Int) (w : Bool)
    (hs : b.squares.read sr sc = some (some p)) (hpk : p.kind = Kind.Pawn)
    (hw : p.isWhite = w)
    (hdr : iabs (er - sr) = 1) (hdc : iabs (ec - sc) = 1)
    (he : b.squares.read er ec = some none)
    (ht : b.squares.read sr ec = some (some q)) (hqk : q.kind = Kind.Pawn)
    (hrec : b.lastMoveStart.1 ≠ -1)
    (htwo : iabs (b.lastMoveEnd.1 - b.lastMoveStart.1) = 2)
    (hend : b.lastMoveEnd = (sr, ec))
    (hsafe : Board.isInCheck (b.squares.epMoved p sr sc er ec) w = some false) :
    ∃ b1, b.movePiece sr sc er ec w = some (true, b1) ∧
      b1.squares.read sr ec = some none ∧
      b1.squares.read er ec = some (some { p with hasMoved := true }) ∧
      b1.squares.read sr sc = some none ∧
      b1.lastMoveStart = (sr, sc) ∧ b1.lastMoveEnd = (er, ec) ∧
      ∀ r c, ¬ (r = sr ∧ c = sc) → ¬ (r = er ∧ c = ec) → ¬ (r = sr ∧ c = ec) →
        b1.squares.read r c = b.squares.read r c := by
  have hsr := Grid.inRange_of_read hs
  have her := Grid.inRange_of_read he
  have hep : b.enPassantTest p sr sc er ec = some true := by
    rw [Board.enPassantTest_true_iff]
    refine ⟨hpk, hdr, hdc, he, hrec, ⟨q, ht, hqk⟩, htwo, ?_, ?_⟩
    · rw [hend]
    · rw [hend]
  have hrow : ¬ (sr = er) := by
    intro h1; rw [h1] at hdr; simp [iabs] at hdr
  have hcol : ¬ (ec = sc) := by
    intro h1; rw [h1] at hdc; simp [iabs] at hdc
  refine ⟨_, Board.movePiece_of_ep hs hw hep hsafe, ?_, ?_, ?_, rfl, rfl, ?_⟩
  · simp only
    rw [Grid.read_set _ _ her, Grid.read_epMoved _ _ hsr her]
    simp only [hrow, hcol, false_and, and_false, if_false, and_self, if_true]
  · simp only
    rw [Grid.read_set _ _ her]
    simp [Piece.setMoved]
  · simp only
    rw [Grid.read_set _ _ her, Grid.read_epMoved _ _ hsr her]
    simp only [hrow, false_and, if_false, and_self, if_true]
  · intro r c h1 h2 h3
    simp only
    rw [Grid.read_set _ _ her, Grid.read_epMoved _ _ hsr her]
    simp only [h1, h2, h3, if_false]

/-- Witness for C7: on `epBoard` the white pawn e5 takes the black pawn d5 en passant. -/
theorem c7_witness :
    ∃ b1, epBoard.movePiece 3 4 2 3 true = some (true, b1) ∧
      b1.squares.read 3 3 = some none ∧
      b1.squares.read 2 3 = some (some ⟨Kind.Pawn, true, true⟩) ∧
      b1.squares.read 3 4 = some none ∧
      b1.lastMoveStart = (3, 4) ∧ b1.lastMoveEnd = (2, 3) ∧
      ∀ r c, ¬ (r = 3 ∧ c = 4) → ¬ (r = 2 ∧ c = 3) → ¬ (r = 3 ∧ c = 3) →
        b1.squares.read r c = epBoard.squares.read r c :=
  c7_en_passant_executes epBoard ⟨Kind.Pawn, true, true⟩ ⟨Kind.Pawn, false, true⟩ 3 4 2 3 true
    (by decide!) rfl rfl (by decide) (by decide) (by decide!) (by decide!) rfl (by decide)
    (by decide) rfl (by decide!)

/-- C8 (the code departs from the claim): `tryMove` accepts the pawn move
`(sr, sc) → (er, ec)` of colour `w` as an en-passant capture (the en-passant test
holds). After any `movePiece` call that returns true, by either colour, from `(mr, mc)`
to `(nr, nc)`, other than that capture, and as long as `(er, ec)` is still empty,
`tryMove` refuses the same pawn move; so it is on `epBoard` after Ke1-e2. But the other
move can be one whose result the source does not define. On `windowBoard`, the board
`loadGame` builds from the file shown, `tryMove` accepts d8-e7 for Black as an
en-passant capture; the other move c7xd8 of White is accepted by `tryMove` and enters
the promotion block of `movePiece`, where the pawn is deleted and then read. -/
theorem c8_other_move_promotes :
    (∀ (b : Board) (p : Piece) (sr sc er ec : Int) (w : Bool)
      (mr mc nr nc : Int) (w1 : Bool) (b1 : Board),
      b.squares.read sr sc = some (some p) → p.isWhite = w →
      b.enPassantTest p sr sc er ec = some true →
      verdict (b.tryMove sr sc er ec w) = some true →
      b.movePiece mr mc nr nc w1 = some (true, b1) →
      ¬ (mr = sr ∧ mc = sc ∧ nr = er ∧ nc = ec) →
      b1.squares.read er ec = some none →
      verdict (b1.tryMove sr sc er ec w) = some false) ∧
    (∃ b1, epBoard.movePiece 7 4 6 4 true = some (true, b1) ∧
      verdict (epBoard.tryMove 3 4 2 3 true) = some true ∧
      verdict (b1.tryMove 3 4 2 3 true) = some false) ∧
    (∀ i j : Fin 8, (Board.initial.loadGame (some
      "...pp..k\n..P.....\n........\n........\n........\n........\n........\nK.......\nHISTORY\ne6e8\n".toList)
      []).1.squares i j = windowBoard.squares i j) ∧
    (Board.initial.loadGame (some
      "...pp..k\n..P.....\n........\n........\n........\n........\n........\nK.......\nHISTORY\ne6e8\n".toList)
      []).1.lastMoveStart = windowBoard.lastMoveStart ∧
    (Board.initial.loadGame (some
      "...pp..k\n..P.....\n........\n........\n........\n........\n........\nK.......\nHISTORY\ne6e8\n".toList)
      []).1.lastMoveEnd = windowBoard.lastMoveEnd ∧
    windowBoard.squares.read 0 3 = some (some ⟨Kind.Pawn, false, true⟩) ∧
    windowBoard.squares.read 1 4 = some none ∧
    windowBoard.enPassantTest ⟨Kind.Pawn, false, true⟩ 0 3 1 4 = some true ∧
    verdict (windowBoard.tryMove 0 3 1 4 false) = some true ∧
    verdict (windowBoard.tryMove 1 2 0 3 true) = some true ∧
    windowBoard.entersPromotion 1 2 0 3 = true ∧
    windowBoard.movePiece 1 2 0 3 true = none := by
  refine ⟨?_, ⟨_, rfl, by decide!, by decide!⟩, by decide!, by decide!, by decide!,
    by decide!, by decide!, by decide!, by decide!, by decide!, by decide!,
    Option.isNone_iff_eq_none.1 (by decide!)⟩
  intro b p sr sc er ec w mr mc nr nc w1 b1 hs hw hep _htry hm _hne hempty
  obtain ⟨hpk, _, hdc, he, _, ⟨adj, ht, _⟩, _, _, _⟩ :=
    (Board.enPassantTest_true_iff _ _ _ _ _ _).1 hep
  have hsr := Grid.inRange_of_read hs
  have her := Grid.inRange_of_read he
  obtain ⟨pm, hms, hmw, hmn, hls, hle, hcase⟩ := Board.movePiece_reads hm
  have hmr := Grid.inRange_of_read hms
  -- the pawn still stands on its cell and the last move did not span two rows
  have hkeep : ∀ (_ : b1.squares.read sr sc = some (some p))
      (_ : iabs (nr - mr) ≠ 2), verdict (b1.tryMove sr sc er ec w) = some false := by
    intro h1 h2
    refine Board.tryMove_pawn_diag_refused h1 hpk ?_ hdc hempty
    apply Board.enPassantTest_false_of_rows hsr her
    rw [hls, hle]
    exact h2
  rcases hcase with ⟨hmep, hread⟩ | ⟨_, _, hv, hread⟩ | ⟨hpmk, hmdc, hv, rook0, _, hread⟩
  · -- the other move was itself an en-passant capture
    obtain ⟨_, hmdr, _, hme, _, _, _⟩ := (Board.enPassantTest_true_iff _ _ _ _ _ _).1 hmep
    have hrs := hread sr sc
    by_cases h1 : sr = nr ∧ sc = nc
    · rw [← h1.1, ← h1.2, hs] at hme; cases hme
    · rw [if_neg h1] at hrs
      by_cases h2 : sr = mr ∧ sc = mc
      · rw [if_pos h2] at hrs
        exact Board.tryMove_empty_start hrs
      · rw [if_neg h2] at hrs
        by_cases h3 : sr = mr ∧ sc = nc
        · rw [if_pos h3] at hrs
          exact Board.tryMove_empty_start hrs
        · rw [if_neg h3, hs] at hrs
          exact hkeep hrs (by rw [hmdr]; decide)
  · -- the other move was an ordinary move
    have hrs := hread sr sc
    by_cases h1 : sr = nr ∧ sc = nc
    · rw [if_pos h1] at hrs
      refine Board.tryMove_wrong_colour hrs ?_
      show pm.isWhite ≠ w
      have hnc : ¬ (pm.kind = Kind.King ∧ iabs (nc - mc) = 2) := by assumption
      rcases Piece.isValidMove_true_target hv hnc with h5 | ⟨q, h5, h6⟩
      · rw [← h1.1, ← h1.2, hs] at h5; cases h5
      · rw [← h1.1, ← h1.2, hs] at h5
        simp only [Option.some.injEq] at h5
        rw [← h5, hw] at h6
        exact fun h => h6 h.symm
    · rw [if_neg h1] at hrs
      by_cases h2 : sr = mr ∧ sc = mc
      · rw [if_pos h2] at hrs
        exact Board.tryMove_empty_start hrs
      · rw [if_neg h2, hs] at hrs
        by_cases htwo : iabs (nr - mr) = 2
        · -- a two-row move: it did not end beside the pawn as a pawn
          refine Board.tryMove_pawn_diag_refused hrs hpk ?_ hdc hempty
          obtain ⟨v, hv1⟩ := Board.enPassantTest_isSome b1 p hsr her
          cases v
          · exact hv1
          · exfalso
            obtain ⟨_, _, _, _, _, ⟨adj1, hadj1, hadj1k⟩, _, hr1, hc1⟩ :=
              (Board.enPassantTest_true_iff _ _ _ _ _ _).1 hv1
            rw [hle] at hr1 hc1
            simp only at hr1 hc1
            have hrt := hread sr ec
            rw [if_pos ⟨hr1.symm, hc1.symm⟩, hadj1] at hrt
            simp only [Option.some.injEq] at hrt
            have hpmk : pm.kind = Kind.Pawn := by
              subst hrt
              exact hadj1k
            have hvp : Pawn.isValidMove pm.isWhite mr mc nr nc b.squares = some true := by
              unfold Piece.isValidMove at hv
              simpa only [hpmk] using hv
            have hocc : b.squares.read nr nc = some (some adj) := by
              rw [hr1, hc1]; exact ht
            have := (Pawn.isValidMove_occupied hvp hocc).1
            rw [this] at htwo
            exact absurd htwo (by decide)
        · exact hkeep hrs htwo
  · -- the other move was a castle
    have hvk : King.isValidMove pm.isWhite pm.hasMoved mr mc nr nc b.squares = some true := by
      unfold Piece.isValidMove at hv
      simpa only [hpmk] using hv
    obtain ⟨hrow, _, _⟩ := King.castle_true hvk hmdc
    have hfirst := King.castle_first_empty hvk hmdc hmn
    have hrs := hread sr sc
    by_cases h1 : sr = nr ∧ sc = (if nc > mc then nc - 1 else nc + 1)
    · rw [← hrow, ← h1.1, ← h1.2, hs] at hfirst; cases hfirst
    · rw [if_neg h1] at hrs
      by_cases h2 : sr = nr ∧ sc = (if nc > mc then 7 else 0)
      · rw [if_pos h2] at hrs
        exact Board.tryMove_empty_start hrs
      · rw [if_neg h2] at hrs
        by_cases h3 : sr = nr ∧ sc = nc
        · exfalso
          have hfar : ¬ (iabs (nr - mr) ≤ 1 ∧ iabs (nc - mc) ≤ 1) := by
            rw [hmdc]; omega
          have hpr : p.kind ≠ Kind.Rook := by rw [hpk]; decide
          have : King.isValidMove pm.isWhite pm.hasMoved mr mc nr nc b.squares = some false :=
            King.castle_occupied hmr (by rw [← h3.1, ← h3.2]; exact hs) hpr hfar
          rw [hvk] at this
          cases this
        · rw [if_neg h3] at hrs
          by_cases h4 : sr = mr ∧ sc = mc
          · rw [if_pos h4] at hrs
            exact Board.tryMove_empty_start hrs
          · rw [if_neg h4, hs] at hrs
            refine hkeep hrs ?_
            rw [hrow]
            simp [iabs]

/-- C9 (the code departs from the claim): on `loadedBoard` the white pawn a7 takes en
passant on b8; `movePiece` returns true and b8 then holds a white pawn, not a queen. -/
theorem c9_en_passant_reaches_back_rank_unpromoted :
    ∃ b1, loadedBoard.movePiece 1 0 0 1 true = some (true, b1) ∧
      b1.squares.read 0 1 = some (some ⟨Kind.Pawn, true, true⟩) := by
  refine ⟨_, rfl, ?_⟩
  decide!

/-- C10: from the initial position the calls f2f3, e7e5, g2g4, d8h4 of `movePiece` all
return true; then White has no legal move and is in check, and the head of the game loop
reports checkmate with Black as winner. -/
theorem c10_fools_mate :
    ∃ b1 b2 b3 b4,
      Board.initial.movePiece 6 5 5 5 true = some (true, b1) ∧
      b1.movePiece 1 4 3 4 false = some (true, b2) ∧
      b2.movePiece 6 6 4 6 true = some (true, b3) ∧
      b3.movePiece 0 3 4 7 false = some (true, b4) ∧
      verdict (b4.hasLegalMoves true) = some false ∧
      Board.isInCheck b4.squares true = some true ∧
      Game.report b4 true = some (Report.checkmate false) := by
  refine ⟨_, _, _, _, rfl, rfl, rfl, rfl, ?_, ?_, ?_⟩
  · decide!
  · decide!
  · decide!

/-- C11: on the board holding only a White king on h1, a Black king on h3 and a Black
queen on g3, whatever the `hasMoved` flags of the three pieces and the `lastMove`
record, `hasLegalMoves(White)` is false and `isInCheck(White)` is false, and the head of
the loop of `Game::play` reports stalemate. -/
theorem c11_stalemate_position (m1 m2 m3 : Bool) (ls le : Int × Int) :
    verdict ((stalemateBoard m1 m2 m3 ls le).hasLegalMoves true) = some false ∧
    Board.isInCheck (stalemateBoard m1 m2 m3 ls le).squares true = some false ∧
    Game.report (stalemateBoard m1 m2 m3 ls le) true = some Report.stalemate := by
  have hbase : ∀ k1 k2 k3 : Bool,
      verdict ((stalemateBoard k1 k2 k3 (-1, -1) (-1, -1)).hasLegalMoves true) = some false ∧
      Board.isInCheck (stalemateBoard k1 k2 k3 (-1, -1) (-1, -1)).squares true = some false ∧
      (∀ i j : Fin 8, (((stalemateBoard k1 k2 k3 (-1, -1) (-1, -1)).squares i j).all
        fun p => decide (p.kind ≠ Kind.Pawn)) = true) ∧
      (∀ s ∈ allSquares, (stalemateBoard k1 k2 k3 (-1, -1) (-1, -1)).ownPiece true s = true →
        ∀ e ∈ allSquares,
          ((stalemateBoard k1 k2 k3 (-1, -1) (-1, -1)).tryMove s.1 s.2 e.1 e.2 true).isSome) := by
    decide!
  obtain ⟨h1, h2, h3, h4⟩ := hbase m1 m2 m3
  have h5 : (stalemateBoard m1 m2 m3 ls le).hasLegalMoves true =
      some (false, stalemateBoard m1 m2 m3 ls le) :=
    hasLegalMoves_lastMove (stalemateBoard m1 m2 m3 (-1, -1) (-1, -1)) ls le true false h3 h4 h1
  have h6 : Board.isInCheck (stalemateBoard m1 m2 m3 ls le).squares true = some false := h2
  refine ⟨by rw [h5]; rfl, h6, ?_⟩
  rw [report_of_answers h5 h6]
  rfl

/-- C13 (the claim fails): `tryMove` reads `squares[sr][sc]` before any test, so a start
cell outside the board is read outside the array (here row 8), and with a knight on the
start cell an end cell outside the board is read as well (here row 9): neither call
returns false. -/
theorem c13_out_of_range_is_read :
    ¬ inRange 8 0 ∧ Board.initial.tryMove 8 0 0 0 true = none ∧
    verdict (Board.initial.tryMove 8 0 0 0 true) ≠ some false ∧
    ¬ inRange 9 2 ∧ Board.initial.tryMove 7 1 9 2 true = none ∧
    verdict (Board.initial.tryMove 7 1 9 2 true) ≠ some false := by
  have h1 : Board.initial.tryMove 8 0 0 0 true = none :=
    Option.isNone_iff_eq_none.1 (by decide!)
  have h2 : Board.initial.tryMove 7 1 9 2 true = none :=
    Option.isNone_iff_eq_none.1 (by decide!)
  refine ⟨by decide, h1, ?_, by decide, h2, ?_⟩
  · rw [h1]; decide
  · rw [h2]; decide

/-- C13, as the code has it: when the start cell is on the board and empty, `tryMove`
returns false for every end cell, on the board or not, having read the start cell only,
and leaves the board as it was. -/
theorem c13_empty_start_returns_false (b : Board) (sr sc er ec : Int) (c : Bool)
    (hs : inRange sr sc) (hempty : b.squares.read sr sc = some none) :
    b.tryMove sr sc er ec c = some (false, b) := by
  have _ := hs
  simp only [Board.tryMove, hempty]

/-- Witness for C13: the empty cell e4 of the initial board, with an end cell outside
the board. -/
theorem c13_witness :
    Board.initial.tryMove 4 4 9 9 true = some (false, Board.initial) :=
  c13_empty_start_returns_false Board.initial 4 4 9 9 true (by decide) (by decide!)

/-- C14 (the claim fails): with an unmoved Black rook on h1 and the cells between
empty, `King::isValidMove` accepts the two-column move e1-g1 of an unmoved White king. -/
theorem c14_enemy_rook_accepted :
    enemyRookGrid.read 7 7 = some (some ⟨Kind.Rook, false, false⟩) ∧
    King.isValidMove true false 7 4 7 6 enemyRookGrid = some true := by
  decide!

/-- C14, as the code has it: for an in-range king move of two columns along its row,
`King::isValidMove` returns true exactly when the king has not moved, the corner cell
of that row on the side moved toward holds a `Rook` that has not moved (a rook of
either colour: the colour of that piece is not tested), and every cell strictly
between the king and that corner is empty. -/
theorem c14_castle_candidate_iff (g : Grid) (w moved : Bool) (sr sc ec : Int)
    (hs : inRange sr sc) (he : inRange sr ec) (h2 : iabs (ec - sc) = 2) :
    ∃ v, King.isValidMove w moved sr sc sr ec g = some v ∧
      (v = true ↔ moved = false ∧
        (∃ rook, g.read sr (if ec > sc then 7 else 0) = some (some rook) ∧
          rook.kind = Kind.Rook ∧ rook.hasMoved = false) ∧
        ∀ c : Int, (if ec > sc then sc < c ∧ c < 7 else 0 < c ∧ c < sc) →
          g.read sr c = some none) := by
  have hfar : ¬ (iabs (sr - sr) ≤ 1 ∧ iabs (ec - sc) ≤ 1) := by rw [h2]; omega
  have hdr : iabs (sr - sr) = 0 := by simp [iabs]
  have hroom : if decide (ec > sc) then sc < 7 else 0 < sc := by
    unfold inRange iabs at *
    by_cases hgt : ec > sc
    · simp only [hgt, decide_True, if_true]; split_ifs at h2 <;> omega
    · simp only [hgt, decide_False, Bool.false_eq_true, if_false]; split_ifs at h2 <;> omega
  obtain ⟨v, hv, hiff⟩ := king_scan_between g hs (decide (ec > sc)) hroom
  simp only [decide_eq_true_eq] at hv hiff
  have hcorner : inRange sr (if ec > sc then 7 else 0) := by
    unfold inRange at *; split_ifs <;> omega
  obtain ⟨cell, hcell⟩ := Grid.read_of_inRange g hcorner
  unfold King.isValidMove
  simp only [hfar, if_false, hdr, h2, true_and]
  cases moved with
  | true => exact ⟨false, by simp, by simp⟩
  | false =>
    simp only [if_true, hcell]
    cases cell with
    | none => exact ⟨false, rfl, by simp⟩
    | some rook =>
      by_cases hr : rook.kind = Kind.Rook ∧ rook.hasMoved = false
      · simp only [hr, and_self, if_true]
        refine ⟨v, hv, hiff.trans ?_⟩
        simp [hr]
      · simp only [hr, if_false]
        refine ⟨false, rfl, ?_⟩
        simp only [Bool.false_eq_true, Option.some.injEq, exists_eq_left', true_and, false_iff,
          not_and]
        intro h; exact absurd h hr

/-- Witness for C14: the unmoved White king of `castleBoard` toward the rook on h1. -/
theorem c14_witness :
    ∃ v, King.isValidMove true false 7 4 7 6 castleBoard.squares = some v ∧
      (v = true ↔ false = false ∧
        (∃ rook, castleBoard.squares.read 7 (if (6 : Int) > 4 then 7 else 0) = some (some rook) ∧
          rook.kind = Kind.Rook ∧ rook.hasMoved = false) ∧
        ∀ c : Int, (if (6 : Int) > 4 then 4 < c ∧ c < 7 else 0 < c ∧ c < 4) →
          castleBoard.squares.read 7 c = some none) :=
  c14_castle_candidate_iff castleBoard.squares true false 7 4 6 (by decide) (by decide)
    (by decide)

/-- C15: between two distinct cells of the board the three rules have defined
behaviour, and `Queen::isValidMove` is `Rook::isValidMove` or `Bishop::isValidMove`
for a piece of the same colour on the same board. -/
theorem c15_queen_is_rook_or_bishop (g : Grid) (w : Bool) (sr sc er ec : Int)
    (hs : inRange sr sc) (he : inRange er ec) (hne : sr ≠ er ∨ sc ≠ ec) :
    ∃ r b, Rook.isValidMove w sr sc er ec g = some r ∧
      Bishop.isValidMove w sr sc er ec g = some b ∧
      Queen.isValidMove w sr sc er ec g = some (r || b) := by
  obtain ⟨r, hr⟩ := rook_defined w g hs he hne
  obtain ⟨b, hb⟩ := bishop_defined w g hs he hne
  refine ⟨r, b, hr, hb, ?_⟩
  rw [queen_split]
  by_cases hline : sr = er ∨ sc = ec
  · rw [if_pos hline, hr]
    have hoff : iabs (er - sr) ≠ iabs (ec - sc) := by
      unfold iabs; split_ifs <;> omega
    have hb0 : b = false := by
      unfold Bishop.isValidMove at hb
      rw [if_pos hoff] at hb
      exact (Option.some.inj hb).symm
    rw [hb0, Bool.or_false]
  · rw [if_neg hline, hb]
    have hoff : sr ≠ er ∧ sc ≠ ec := by tauto
    have hr0 : r = false := by
      unfold Rook.isValidMove at hr
      rw [if_pos hoff] at hr
      exact (Option.some.inj hr).symm
    rw [hr0, Bool.false_or]

/-- Witness for C15: a queen's diagonal d1-h5 on the initial board, blocked by the pawn
on e2. -/
theorem c15_witness :
    ∃ r b, Rook.isValidMove true 7 3 3 7 Board.initial.squares = some r ∧
      Bishop.isValidMove true 7 3 3 7 Board.initial.squares = some b ∧
      Queen.isValidMove true 7 3 3 7 Board.initial.squares = some (r || b) :=
  c15_queen_is_rook_or_bishop Board.initial.squares true 7 3 3 7 (by decide) (by decide)
    (by decide)

/-- C16: for a rook, knight, bishop or queen and two distinct cells of the board, the
rule has defined behaviour and gives the same answer as for a piece of the opposite
colour on the mirrored board between the mirrored cells `(7 - sr, sc)` and
`(7 - er, ec)`. -/
theorem c16_mirror_symmetry (k : Kind)
    (hk : k = Kind.Rook ∨ k = Kind.Knight ∨ k = Kind.Bishop ∨ k = Kind.Queen)
    (g : Grid) (col moved : Bool) (sr sc er ec : Int)
    (hs : inRange sr sc) (he : inRange er ec) (hne : sr ≠ er ∨ sc ≠ ec) :
    ∃ v, (⟨k, col, moved⟩ : Piece).isValidMove sr sc er ec g = some v ∧
      (⟨k, !col, moved⟩ : Piece).isValidMove (7 - sr) sc (7 - er) ec g.mirror = some v := by
  rcases hk with rfl | rfl | rfl | rfl
  · obtain ⟨v, hv⟩ := rook_defined col g hs he hne
    exact ⟨v, hv, by simp only [Piece.isValidMove]; rw [rook_mirror]; exact hv⟩
  · obtain ⟨v, hv⟩ := knight_defined col g sr sc he
    exact ⟨v, hv, by simp only [Piece.isValidMove]; rw [knight_mirror]; exact hv⟩
  · obtain ⟨v, hv⟩ := bishop_defined col g hs he hne
    exact ⟨v, hv, by simp only [Piece.isValidMove]; rw [bishop_mirror col g hne]; exact hv⟩
  · obtain ⟨v, hv⟩ := queen_defined col g hs he hne
    exact ⟨v, hv, by simp only [Piece.isValidMove]; rw [queen_mirror col g hne]; exact hv⟩

/-- Witness for C16: the White knight b1-c3 on the initial board. -/
theorem c16_witness :
    ∃ v, (⟨Kind.Knight, true, false⟩ : Piece).isValidMove 7 1 5 2 Board.initial.squares = some v ∧
      (⟨Kind.Knight, !true, false⟩ : Piece).isValidMove (7 - 7) 1 (7 - 5) 2
        Board.initial.squares.mirror = some v :=
  c16_mirror_symmetry Kind.Knight (Or.inr (Or.inl rfl)) Board.initial.squares true false 7 1 5 2
    (by decide) (by decide) (by decide)

/-- C17: for every board and every history whose moves hold no line feed, `loadGame`
reads the file written by `saveGame` into a board with, on every cell, the same kind
and colour of piece (marked as moved) or the same emptiness, and into the history made
of the moves of 4 characters, which is the saved history when every move has 4
characters; the state held before the call plays no part. -/
theorem c17_save_load_round_trip (b b0 : Board) (history history0 : List (List Char))
    (hnl : ∀ m ∈ history, '\n' ∉ m) :
    ∃ b1 history1, b0.loadGame (some (b.saveGame history)) history0 = (b1, history1) ∧
      (∀ i j, b1.squares i j = (b.squares i j).map fun p => { p with hasMoved := true }) ∧
      history1 = history.filter (fun m => m.length = 4) ∧
      ((∀ m ∈ history, m.length = 4) → history1 = history) := by
  have hf : ∀ r : Fin 8,
      8 ≤ ((List.finRange 8).map (fun c => Board.saveCell (b.squares r c))).length := by
    intro r; simp
  have hload : b0.loadGame (some (b.saveGame history)) history0 =
      ({ squares := (List.finRange 8).foldl (fun acc r => Board.loadLine acc r
            ((List.finRange 8).map (fun c => Board.saveCell (b.squares r c)))) (fun _ _ => none),
         lastMoveStart := (Board.loadLastMove (history.filter (fun m => m.length = 4))).1,
         lastMoveEnd := (Board.loadLastMove (history.filter (fun m => m.length = 4))).2 },
       history.filter (fun m => m.length = 4)) := by
    unfold Board.loadGame
    simp only [fileLines_saveGame b history hnl,
      loadRows_rows (fun r => (List.finRange 8).map (fun c => Board.saveCell (b.squares r c)))
        hf, List.tail_cons]
  refine ⟨_, _, hload, ?_, rfl, ?_⟩
  · intro i j
    simp only [loadLine_foldl, List.mem_finRange, if_true, rowText_getD, loadCell_saveCell]
    cases b.squares i j <;> rfl
  · intro h4
    apply List.filter_eq_self.2
    intro m hm
    simp [h4 m hm]

/-- Witness for C17: the initial board saved with the history `e2e4`, loaded over an
empty board. -/
theorem c17_witness :
    ∃ b1 history1,
      Board.new.loadGame (some (Board.initial.saveGame ["e2e4".toList])) [] = (b1, history1) ∧
      (∀ i j, b1.squares i j =
        (Board.initial.squares i j).map fun p => { p with hasMoved := true }) ∧
      history1 = ["e2e4".toList].filter (fun m => m.length = 4) ∧
      ((∀ m ∈ ["e2e4".toList], m.length = 4) → history1 = ["e2e4".toList]) :=
  c17_save_load_round_trip Board.initial Board.new ["e2e4".toList] [] (by decide)

/-- C18 (the code departs from the claim): a file that cannot be opened leaves the
state as it was, but a short file does not. With the initial board in memory and a file
whose second line has 6 characters, `loadGame` returns with row 0 read from the file
(its pieces marked as moved) and every other row empty, the White king gone from e1;
the history and the `lastMove` record are as before. -/
theorem c18_short_file_clears_board :
    (∀ (b : Board) (history : List (List Char)), b.loadGame none history = (b, history)) ∧
    Board.initial.squares 7 4 = some ⟨Kind.King, true, false⟩ ∧
    (Board.initial.loadGame (some "rnbqkbnr\npppppp\n".toList) []).1.squares 7 4 = none ∧
    (∀ i j : Fin 8, i ≠ 0 →
      (Board.initial.loadGame (some "rnbqkbnr\npppppp\n".toList) []).1.squares i j = none) ∧
    (Board.initial.loadGame (some "rnbqkbnr\npppppp\n".toList) []).1.squares 0 4 =
      some ⟨Kind.King, false, true⟩ ∧
    (Board.initial.loadGame (some "rnbqkbnr\npppppp\n".toList) []).2 = [] ∧
    (Board.initial.loadGame (some "rnbqkbnr\npppppp\n".toList) []).1.lastMoveStart = (-1, -1) ∧
    (Board.initial.loadGame (some "rnbqkbnr\npppppp\n".toList) []).1.lastMoveEnd = (-1, -1) := by
  refine ⟨fun _ _ => rfl, by decide!, by decide!, by decide!, by decide!, by decide!,
    by decide!, by decide!⟩

/-- C19: for coordinates in `0..7`, `moveToString` gives the file character and the rank
digit of the start cell, then those of the end cell; that string is none of the command
words of `Game::play`, and its move parser accepts it and gives the four coordinates
back; `e2e4` is the move from `(6, 4)` to `(4, 4)`. -/
theorem c19_move_string_round_trip (sr sc er ec : Int)
    (hs : inRange sr sc) (he : inRange er ec) :
    Game.moveToString sr sc er ec = [fileChar sc, rankChar sr, fileChar ec, rankChar er] ∧
    Game.moveToString sr sc er ec ∉ Game.commandWords ∧
    Game.parseMove (Game.moveToString sr sc er ec) = Parsed.move sr sc er ec ∧
    Game.moveToString 6 4 4 4 = "e2e4".toList ∧
    Game.parseMove "e2e4".toList = Parsed.move 6 4 4 4 := by
  obtain ⟨f1, f2⟩ := file_round sc hs.2.2.1 hs.2.2.2
  obtain ⟨r1, r2⟩ := rank_round sr hs.1 hs.2.1
  obtain ⟨f3, f4⟩ := file_round ec he.2.2.1 he.2.2.2
  obtain ⟨r3, r4⟩ := rank_round er he.1 he.2.1
  have hstr : Game.moveToString sr sc er ec =
      [fileChar sc, rankChar sr, fileChar ec, rankChar er] := by
    unfold Game.moveToString
    rw [f1, r1, f3, r3]
  refine ⟨hstr, ?_, ?_, by decide, by decide⟩
  · rw [hstr]
    exact rankChar_not_letter sr hs.1 hs.2.1 _ _ _
  · rw [hstr]
    unfold Game.parseMove
    simp only [f2, r2, f4, r4]
    have hb : ¬ (sr < 0 ∨ sr > 7 ∨ sc < 0 ∨ sc > 7 ∨ er < 0 ∨ er > 7 ∨ ec < 0 ∨ ec > 7) := by
      unfold inRange at hs he; omega
    rw [if_neg hb]

/-- Witness for C19: the move g8-f6. -/
theorem c19_witness :
    Game.moveToString 0 6 2 5 = [fileChar 6, rankChar 0, fileChar 5, rankChar 2] ∧
    Game.moveToString 0 6 2 5 ∉ Game.commandWords ∧
    Game.parseMove (Game.moveToString 0 6 2 5) = Parsed.move 0 6 2 5 ∧
    Game.moveToString 6 4 4 4 = "e2e4".toList ∧
    Game.parseMove "e2e4".toList = Parsed.move 6 4 4 4 :=
  c19_move_string_round_trip 0 6 2 5 (by decide) (by decide)

/-- C20 (the code departs from the claim): every piece rule has defined behaviour
between two cells of the board, the bishop rule only when the two cells are distinct.
With start and end on the same cell `Bishop::isValidMove` steps to `(sr - 1, sc - 1)`
and walks on until it meets a piece, so it leaves the board when that diagonal is empty.
After 1. e4 f6 2. Qh5+, each move executed by `movePiece`, Black is in check and has
the reply g7-g6, and the call `hasLegalMoves(Black)` at the head of the loop of
`Game::play` reaches `tryMove(c8, c8)` for the bishop on c8, whose first read is
`squares[-1][1]`; the enumeration of `getRandomAIMove` for Black reads it too. -/
theorem c20_bishop_walk_leaves_board :
    (∀ (p : Piece) (g : Grid) (sr sc er ec : Int), inRange sr sc → inRange er ec →
      (p.kind = Kind.Bishop → sr ≠ er ∨ sc ≠ ec) →
      ∃ v, p.isValidMove sr sc er ec g = some v) ∧
    ∃ b1 b2 b3,
      Board.initial.movePiece 6 4 4 4 true = some (true, b1) ∧
      b1.movePiece 1 5 2 5 false = some (true, b2) ∧
      b2.movePiece 7 3 3 7 true = some (true, b3) ∧
      Board.isInCheck b3.squares false = some true ∧
      verdict (b3.tryMove 1 6 2 6 false) = some true ∧
      b3.squares.read 0 2 = some (some ⟨Kind.Bishop, false, false⟩) ∧
      (0 + sgn2 0 0 = -1 ∧ 2 + sgn2 2 2 = 1) ∧
      b3.squares.read (0 + sgn2 0 0) (2 + sgn2 2 2) = none ∧
      Bishop.isValidMove false 0 2 0 2 b3.squares = none ∧
      b3.tryMove 0 2 0 2 false = none ∧
      b3.hasLegalMoves false = none ∧
      getRandomAIMove.moves b3 false = none := by
  refine ⟨fun p g sr sc er ec hs he hb => piece_defined p g hs he hb,
    _, _, _, rfl, rfl, rfl, by decide!, by decide!, by decide!, by decide, by decide!,
    by decide!, ?_, ?_, ?_⟩
  · exact Option.isNone_iff_eq_none.1 (by decide!)
  · exact Option.isNone_iff_eq_none.1 (by decide!)
  · exact Option.isNone_iff_eq_none.1 (by decide!)

/-- C21 (the code departs from the claim): a pawn move that `tryMove` accepts through
`Pawn::isValidMove` goes one or two rows forward, but the en-passant test asks only for
`abs(er - sr) == 1`. After 1. e4 a6 2. e5 d5, each move executed by `movePiece`,
`tryMove` accepts for the pawn on e5 the capture e5-d6 and also the backward step
e5-d4, which `movePiece` executes: the White pawn lands on d4 and the Black pawn on d5
is removed. -/
theorem c21_backward_en_passant_accepted :
    (∀ (b : Board) (p : Piece) (sr sc er ec : Int) (w : Bool) (b1 : Board),
      b.squares.read sr sc = some (some p) → p.kind = Kind.Pawn →
      b.enPassantTest p sr sc er ec = some false →
      b.tryMove sr sc er ec w = some (true, b1) →
      er = sr + (if w then -1 else 1) ∨ er = sr + 2 * (if w then -1 else 1)) ∧
    ∃ b1 b2 b3 b4 b5,
      Board.initial.movePiece 6 4 4 4 true = some (true, b1) ∧
      b1.movePiece 1 0 2 0 false = some (true, b2) ∧
      b2.movePiece 4 4 3 4 true = some (true, b3) ∧
      b3.movePiece 1 3 3 3 false = some (true, b4) ∧
      b4.squares.read 3 4 = some (some ⟨Kind.Pawn, true, true⟩) ∧
      verdict (b4.tryMove 3 4 2 3 true) = some true ∧
      verdict (b4.tryMove 3 4 4 3 true) = some true ∧
      b4.movePiece 3 4 4 3 true = some (true, b5) ∧
      b5.squares.read 4 3 = some (some ⟨Kind.Pawn, true, true⟩) ∧
      b5.squares.read 3 3 = some none ∧ b5.squares.read 3 4 = some none := by
  constructor
  · intro b p sr sc er ec w b1 hs hpk hep h
    obtain ⟨p1, hs1, hw, _, hcase⟩ := Board.tryMove_true_cases h
    rw [hs] at hs1
    simp only [Option.some.injEq] at hs1
    subst hs1
    rcases hcase with ⟨hep1, _⟩ | ⟨_, hv, _⟩
    · rw [hep] at hep1; cases hep1
    · unfold Piece.isValidMove at hv
      simp only [hpk] at hv
      rw [hw] at hv
      exact pawn_true_forward hv
  · refine ⟨_, _, _, _, _, rfl, rfl, rfl, rfl, by decide!, by decide!, by decide!, rfl,
      by decide!, by decide!, by decide!⟩

/-- C23 (the code departs from the claim): `isSquareAttacked` asks `Pawn::isValidMove`,
which reaches an empty cell only straight ahead. So an empty cell is never attacked by
pawns standing on other columns, those on its capture diagonal included, and it is
attacked by the pawn standing straight behind it. After 1. Nf3 h5 2. e3 h4 3. Be2 h3
4. a3 hxg2, each move executed by `movePiece`, the Black pawn on g2 covers f1, yet
`isSquareAttacked(f1, Black)` is false and `tryMove` accepts the castle e1-g1, which
`movePiece` executes; and `isSquareAttacked(g1, Black)` is true by the step g2-g1. -/
theorem c23_pawn_attacks_ahead_not_diagonal :
    (∀ (g : Grid) (c : Bool) (row col : Int), g.read row col = some none →
      (∀ r c0 p, g.read r c0 = some (some p) → p.isWhite = c →
        p.kind = Kind.Pawn ∧ c0 ≠ col) →
      Board.isSquareAttacked g row col c = some false) ∧
    (∀ (g : Grid) (c : Bool) (row col sr : Int) (p : Piece), g.read row col = some none →
      g.read sr col = some (some p) → p.kind = Kind.Pawn → p.isWhite = c →
      row = sr + (if c then -1 else 1) →
      Board.isSquareAttacked g row col c = some true) ∧
    ∃ b1 b2 b3 b4 b5 b6 b7 b8 b9,
      Board.initial.movePiece 7 6 5 5 true = some (true, b1) ∧
      b1.movePiece 1 7 3 7 false = some (true, b2) ∧
      b2.movePiece 6 4 5 4 true = some (true, b3) ∧
      b3.movePiece 3 7 4 7 false = some (true, b4) ∧
      b4.movePiece 7 5 6 4 true = some (true, b5) ∧
      b5.movePiece 4 7 5 7 false = some (true, b6) ∧
      b6.movePiece 6 0 5 0 true = some (true, b7) ∧
      b7.movePiece 5 7 6 6 false = some (true, b8) ∧
      b8.squares.read 6 6 = some (some ⟨Kind.Pawn, false, true⟩) ∧
      b8.squares.read 7 5 = some none ∧ b8.squares.read 7 6 = some none ∧
      Board.isSquareAttacked b8.squares 7 5 false = some false ∧
      Board.isSquareAttacked b8.squares 7 6 false = some true ∧
      verdict (b8.tryMove 7 4 7 6 true) = some true ∧
      b8.movePiece 7 4 7 6 true = some (true, b9) := by
  refine ⟨?_, ?_, ?_⟩
  · intro g c row col ht hall
    rw [Board.isSquareAttacked_false_iff]
    intro r c0 p hp hw
    obtain ⟨hpk, hcol⟩ := hall r c0 p hp hw
    unfold Piece.isValidMove
    simp only [hpk]
    exact pawn_other_column_empty hcol ht
  · intro g c row col sr p ht hp hpk hw hrow
    apply isSquareAttacked_true_of ht hp hw
    unfold Piece.isValidMove
    simp only [hpk]
    rw [hw]
    exact pawn_ahead_empty hrow ht
  · refine ⟨_, _, _, _, _, _, _, _, _, rfl, rfl, rfl, rfl, rfl, rfl, rfl, rfl, by decide!,
      by decide!, by decide!, by decide!, by decide!, by decide!, rfl⟩

end Chess
